import Mathlib

/-!
# Shell: history ring and recall resolution

A shallow embedding of `historyArray.c` and `shell.c`.

Conventions of the embedding

* A `char` is a natural number (its byte value); a `char` array is a `List Nat` holding
  every byte of the array, terminator and trailing bytes included.  The C string held by an
  array is the run of bytes before its first NUL (`cstr`).
* A library call that would read or write outside an array has no defined result in C and
  returns `none` here, as does an `int` increment past `INT_MAX`.
* The `int` fields of `struct historyArray` start at 1, 0, 0 and are only ever incremented;
  they are natural numbers bounded by `INT_MAX`.
* A `char **` token array is a `List (Option (List Nat))`: one entry per pointer, `none` for a
  null pointer, `some s` for a pointer to the C string `s`.
-/

namespace Shell

set_option maxRecDepth 100000

/-! ## Constants (`#define`s of both C files) -/

def MAX_HISTORY : Nat := 10
def COMMAND_LENGTH : Nat := 1024
def NUM_TOKENS : Nat := COMMAND_LENGTH / 2 + 1
def INT_MAX : Nat := 2147483647
def LONG_MAX : Nat := 9223372036854775807
def STDOUT_FILENO : Nat := 1
def STDERR_FILENO : Nat := 2

/-- Bytes of a string literal of the C source. -/
def lit (s : String) : List Nat := s.toList.map Char.toNat

/-! ## C strings in byte arrays (`<string.h>`) -/

/-- The C string stored at the start of a byte array: the bytes before the first NUL. -/
def cstr (b : List Nat) : List Nat := b.takeWhile (fun c => c != 0)

/-- Libc `strlen(b)`: undefined when the array holds no terminator. -/
def strlen (b : List Nat) : Option Nat :=
  if 0 ∈ b then some (cstr b).length else none

/-- Libc `memset(dst, c, n)`. -/
def memset (dst : List Nat) (c n : Nat) : Option (List Nat) :=
  if n ≤ dst.length then some (List.replicate n c ++ dst.drop n) else none

/-- Libc `strcat(dst, src)`: the string `src` and a terminator are written over the
terminator of `dst`; `src` is the string value appended. -/
def strcat (dst src : List Nat) : Option (List Nat) :=
  let n := (cstr dst).length
  let s := cstr src
  if n + s.length < dst.length then
    some (dst.take n ++ s ++ 0 :: dst.drop (n + s.length + 1))
  else none

/-- Libc `strcpy(dst, src)` for an array `src` that holds a terminated string. -/
def strcpy (dst src : List Nat) : Option (List Nat) :=
  let s := cstr src
  if 0 ∈ src ∧ s.length < dst.length then
    some (s ++ 0 :: dst.drop (s.length + 1))
  else none

/-- The assignment `b[k] = c`. -/
def poke (b : List Nat) (k c : Nat) : Option (List Nat) :=
  if k < b.length then some (b.set k c) else none

/-! ## `historyArray.c` -/

/-- The `struct historyArray` of `historyArray.h`; `items` lists the `MAX_HISTORY` arrays. -/
structure historyArray where
  firstItem : Nat
  lastItem : Nat
  size : Nat
  items : List (List Nat)
  deriving DecidableEq, Repr

/-- The function `createHistoryArray`.  `heap i j` is the indeterminate byte that `malloc`
leaves at offset `j` of the `i`-th array; only byte 0 of each array is initialised. -/
def createHistoryArray (heap : Nat → Nat → Nat) : historyArray :=
  { firstItem := 1
    lastItem := 0
    size := 0
    items := (List.range MAX_HISTORY).map fun i =>
      0 :: (List.range (COMMAND_LENGTH - 1)).map fun j => heap i (j + 1) }

/-- The `for` loop of `addToHistoryArray` over the tokens up to the first null pointer,
started at token index `i` with `totalLen` accumulated so far. -/
def addTokens : List Nat → Nat → Nat → List (List Nat) → Option (List Nat)
  | slot, _, _, [] => some slot
  | slot, totalLen, i, [t] =>
    (strcat slot t).bind fun slot =>
      poke slot (totalLen + (cstr t).length + i) 0
  | slot, totalLen, i, t :: t' :: rest =>
    (strcat slot t).bind fun slot =>
      (strcat slot (lit " ")).bind fun slot =>
        addTokens slot (totalLen + (cstr t).length) (i + 1) (t' :: rest)

/-- The function `addToHistoryArray`; `commandsToAdd` lists the strings of the token array up
to its first null pointer. -/
def addToHistoryArray (ha : historyArray) (commandsToAdd : List (List Nat))
    (in_background : Bool) : Option historyArray :=
  if ha.lastItem ≥ INT_MAX then none else
  let lastItem := ha.lastItem + 1
  let idx := lastItem % MAX_HISTORY
  ha.items[idx]?.bind fun slot =>
  (if lastItem > 9 then (strlen slot).bind fun n => memset slot 0 n else some slot).bind
    fun slot =>
  (addTokens slot 0 0 commandsToAdd).bind fun slot =>
  (if in_background then (strcat slot (lit " ")).bind fun s => strcat s (lit "&")
    else some slot).bind fun slot =>
  some
    { firstItem := if ha.size = MAX_HISTORY then ha.firstItem + 1 else ha.firstItem
      lastItem := lastItem
      size := if ha.size = MAX_HISTORY then ha.size else ha.size + 1
      items := ha.items.set idx slot }

/-- Successive calls of `addToHistoryArray`, one per command of the list. -/
def appendAll (ha : historyArray) : List (List (List Nat) × Bool) → Option historyArray
  | [] => some ha
  | c :: rest => (addToHistoryArray ha c.1 c.2).bind fun h => appendAll h rest

/-! ## `shell.c`: `displayHistory` -/

/-- The `for` loop of `displayHistory` from index `i` with `n` iterations left: each
iteration yields the index printed and the string written from slot `i % MAX_HISTORY`. -/
def displayLoop (items : List (List Nat)) : Nat → Nat → Option (List (Nat × List Nat))
  | _, 0 => some []
  | i, n + 1 =>
    items[i % MAX_HISTORY]?.bind fun slot =>
      (strlen slot).bind fun _ =>
        (displayLoop items (i + 1) n).bind fun rest =>
          some ((i, cstr slot) :: rest)

/-- The entries `displayHistory` prints: `for (i = firstItem; i <= lastItem; i++)`. -/
def displayEntries (ha : historyArray) : Option (List (Nat × List Nat)) :=
  displayLoop ha.items ha.firstItem (ha.lastItem + 1 - ha.firstItem)

/-! ## `shell.c`: command input -/

/-- The `case` labels of `tokenize_command`: space, tab and newline end a token. -/
def isDelim (c : Nat) : Bool := c == 32 || c == 9 || c == 10

/-- Libc `strnlen(b, n)`. -/
def strnlen (b : List Nat) (n : Nat) : Nat := min (cstr b).length n

/-- The `for` loop of `tokenize_command` over the bytes from index `i` on, entered with the
given `in_token`: the rewritten bytes and the start index of every token found. -/
def tokenizeLoop : List Nat → Nat → Bool → List Nat × List Nat
  | [], _, _ => ([], [])
  | c :: cs, i, in_token =>
    if isDelim c then
      ((0 : Nat) :: (tokenizeLoop cs (i + 1) false).1, (tokenizeLoop cs (i + 1) false).2)
    else
      (c :: (tokenizeLoop cs (i + 1) true).1,
        if in_token then (tokenizeLoop cs (i + 1) true).2
        else i :: (tokenizeLoop cs (i + 1) true).2)

/-- What `tokenize_command` leaves behind: the rewritten buffer, the token array up to and
including its terminating null pointer, and the returned count. -/
structure Tokenized where
  buff : List Nat
  tokens : List (Option (List Nat))
  token_count : Nat
  deriving DecidableEq, Repr

/-- The function `tokenize_command`.  `tokens[k]` points at `buff[i]` for the `k`-th start
index `i`; the string it points to is read from the rewritten buffer. -/
def tokenize_command (buff : List Nat) : Tokenized :=
  let num_chars := strnlen buff COMMAND_LENGTH
  let r := tokenizeLoop (buff.take num_chars) 0 false
  let buff' := r.1 ++ buff.drop num_chars
  { buff := buff'
    tokens := r.2.map (fun i => some (cstr (buff'.drop i))) ++ [none]
    token_count := r.2.length }

/-- What `read(STDIN_FILENO, buff, COMMAND_LENGTH-1)` delivers. -/
inductive ReadResult
  | bytes (data : List Nat)
  | interrupted
  | failed
  deriving DecidableEq, Repr

/-- How `read_command` ends: it returns 0 with the buffer, token array and flag it filled in,
returns -1 (read interrupted by a signal), or terminates the process with `exit(-1)`. -/
inductive Command
  | ok (buff : List Nat) (tokens : List (Option (List Nat))) (in_background : Bool)
  | interrupted
  | terminated
  deriving DecidableEq, Repr

/-- The function `read_command`.  Undefined (`none`) when `read` delivers more than it was
asked for, and when the string read is empty: `buff[strlen(buff) - 1]` is then `buff[-1]`. -/
def read_command (buff : List Nat) (input : ReadResult) : Option Command :=
  match input with
  | .failed => some .terminated
  | .interrupted => some .interrupted
  | .bytes data =>
    if data.length ≤ COMMAND_LENGTH - 1 ∧ data.length < buff.length then
      let buff := data ++ 0 :: buff.drop (data.length + 1)
      let n := (cstr buff).length
      if n = 0 then none else
      let buff := if buff[n - 1]? = some 10 then buff.set (n - 1) 0 else buff
      let t := tokenize_command buff
      if t.token_count = 0 then some (.ok t.buff t.tokens false)
      else if t.tokens[t.token_count - 1]? = some (some (lit "&")) then
        some (.ok t.buff (t.tokens.set (t.token_count - 1) none) true)
      else some (.ok t.buff t.tokens false)
    else none

/-! ## `shell.c`: history recall -/

/-- The message written on every failed recall. -/
def unknownHistory : List Nat := lit "SHELL: Unknown history command.\n"

/-- The digit check of `detectHistoryCommands`, run over the bytes from index 2 on: `true`
when the terminator is reached, `false` at the first byte outside `'0'..'9'`. -/
def digitScan : List Nat → Option Bool
  | [] => none
  | c :: cs =>
    if c = 0 then some true
    else if c < 48 ∨ c ≥ 58 then some false
    else digitScan cs

/-- Value of the leading decimal digits of a string, continuing from `acc`. -/
def digitsValue : List Nat → Nat → Nat
  | [], acc => acc
  | c :: cs, acc => if 48 ≤ c ∧ c < 58 then digitsValue cs (10 * acc + (c - 48)) else acc

/-- Conversion of a `long` to `int`: reduction modulo `2^32` into the signed range. -/
def toInt32 (n : Nat) : Int :=
  if n % 4294967296 < 2147483648 then (n % 4294967296 : Nat)
  else ((n % 4294967296 : Nat) : Int) - 4294967296

/-- Libc `atoi` on a string that starts with a decimal digit (no white space or sign to
skip), as in glibc: `(int) strtol(s, NULL, 10)`, where `strtol` stops at `LONG_MAX`. -/
def atoi (s : List Nat) : Int := toInt32 (min (digitsValue s 0) LONG_MAX)

/-- What `detectHistoryCommands` leaves behind: the returned status, the input buffer, the
token array, and the byte strings written to standard output, in order. -/
structure Recall where
  status : Nat
  input_buffer : List Nat
  tokens : List (Option (List Nat))
  written : List (List Nat)
  deriving DecidableEq, Repr

/-- The successful tail of `detectHistoryCommands`: the slot is copied into the input buffer
and echoed, the buffer is tokenized again and 1 is returned. -/
def recallSlot (input_buffer slot : List Nat) : Option Recall :=
  (strcpy input_buffer slot).bind fun buf =>
    some
      { status := 1
        input_buffer := (tokenize_command buf).buff
        tokens := (tokenize_command buf).tokens
        written := [cstr slot, lit "\n"] }

/-- The function `detectHistoryCommands`, called with a buffer whose first byte is `'!'`. -/
def detectHistoryCommands (ha : historyArray) (input_buffer : List Nat)
    (tokens : List (Option (List Nat))) : Option Recall :=
  let fail : Option Recall :=
    some { status := 0, input_buffer := input_buffer, tokens := tokens,
           written := [unknownHistory] }
  input_buffer[1]?.bind fun c1 =>
  if c1 = 33 then
    if ha.size = 0 then fail
    else ha.items[ha.lastItem % MAX_HISTORY]?.bind fun slot => recallSlot input_buffer slot
  else if c1 ≥ 48 ∧ c1 < 58 then
    (digitScan (input_buffer.drop 2)).bind fun digits =>
    if digits = false then fail
    else
      let numVal := atoi (input_buffer.drop 1)
      if numVal > ha.lastItem ∨ numVal < ha.firstItem then fail
      else ha.items[numVal.toNat % MAX_HISTORY]?.bind fun slot => recallSlot input_buffer slot
  else fail

/-! ## `shell.c`: the main loop -/

/-- An observable action of the shell process: a `write`, a `perror`, a `chdir`, a `fork`,
the `execvp` of the forked child, or the parent's blocking `waitpid` for that child. -/
inductive Event
  | write (fd : Nat) (bytes : List Nat)
  | perror (msg : List Nat)
  | chdir (path : Option (List Nat))
  | fork
  | exec (file : List Nat) (argv : List (List Nat))
  | wait
  deriving DecidableEq, Repr

/-- Decimal digits of `n`, most significant first, in front of `acc`. -/
def decimalAux : Nat → Nat → List Nat → List Nat
  | 0, _, acc => acc
  | fuel + 1, n, acc =>
    if n < 10 then (48 + n) :: acc else decimalAux fuel (n / 10) ((48 + n % 10) :: acc)

/-- The characters `"%d"` prints for a non-negative `int`. -/
def decimal (n : Nat) : List Nat := decimalAux (n + 1) n []

/-- The numeral `displayHistory` writes for index `i`: `snprintf(c, numberOfDigits, "%d", i)`
into the 10-byte array `c`, with `numberOfDigits = log10(i) + 2`, taken as the number of
decimal digits of `i` plus one.  Undefined for `i = 0` and when `c` is too small. -/
def numeral (i : Nat) : Option (List Nat) :=
  if i = 0 then none
  else if (decimal i).length + 1 ≤ 10 then some ((decimal i).take ((decimal i).length + 1 - 1))
  else none

/-- The four `write` calls of one iteration of the loop of `displayHistory`. -/
def displayLine (e : Nat × List Nat) : Option (List Event) :=
  (numeral e.1).bind fun c =>
    some [.write STDOUT_FILENO c, .write STDOUT_FILENO (lit "\t"),
          .write STDOUT_FILENO e.2, .write STDOUT_FILENO (lit "\n")]

/-- The writes of the lines of `displayHistory`, in order. -/
def displayLines : List (Nat × List Nat) → Option (List Event)
  | [] => some []
  | e :: es => (displayLine e).bind fun l => (displayLines es).bind fun ls => some (l ++ ls)

/-- The function `displayHistory`: everything it writes. -/
def displayHistory (ha : historyArray) : Option (List Event) :=
  (displayEntries ha).bind displayLines

/-- How `detectHardcodedCommands` ends: it returns a status after some actions, or the
process exits (the `exit` built-in). -/
inductive Builtin
  | returned (status : Nat) (events : List Event)
  | exited
  deriving DecidableEq, Repr

/-- The function `detectHardcodedCommands`; `chdirFails` tells whether `chdir` returns -1 on
the directory named. -/
def detectHardcodedCommands (pwd_buffer input_buffer : List Nat)
    (tokens : List (Option (List Nat))) (chdirFails : Bool) : Option Builtin :=
  if cstr input_buffer = lit "exit" then some .exited
  else if cstr input_buffer = lit "pwd" then
    some (.returned 0 [.write STDOUT_FILENO (cstr pwd_buffer), .write STDOUT_FILENO (lit "\n")])
  else if cstr input_buffer = lit "cd" then
    tokens[1]?.bind fun arg =>
      if arg = none ∨ chdirFails = true then
        some (.returned 0 [.chdir arg, .write STDOUT_FILENO (lit "Invalid directory.\n")])
      else some (.returned 0 [.chdir arg])
  else if cstr input_buffer = lit "type" then
    tokens[1]?.bind fun arg =>
      match arg with
      | none => some (.returned 0 [.write STDOUT_FILENO (lit "No argument specified.\n")])
      | some a =>
        if a = lit "exit" ∨ a = lit "pwd" ∨ a = lit "cd" ∨ a = lit "type" then
          some (.returned 0 [.write STDOUT_FILENO a,
            .write STDOUT_FILENO (lit " is a shell300 builtin\n")])
        else
          some (.returned 0 [.write STDOUT_FILENO a,
            .write STDOUT_FILENO (lit " is external to shell300\n")])
  else some (.returned 1 [])

/-- The strings of a token array up to its first null pointer. -/
def argvOf : List (Option (List Nat)) → List (List Nat)
  | some t :: rest => t :: argvOf rest
  | _ => []

/-- The `while (tokens[i] != NULL)` loop of `main` that looks for `&`, run over the array
from index 1 on: the array with every `&` met replaced by a null pointer, and whether one
was met. -/
def ampScan : List (Option (List Nat)) → Option (List (Option (List Nat)) × Bool)
  | [] => none
  | none :: rest => some (none :: rest, false)
  | some t :: rest =>
    (ampScan rest).bind fun r =>
      if t = lit "&" then some (none :: r.1, true) else some (some t :: r.1, r.2)

/-- What the surroundings supply to one iteration of the loop of `main`: the working
directory `getcwd` reports, what `read` delivers, and whether `chdir` and `fork` fail. -/
structure Env where
  cwd : List Nat
  input : ReadResult
  chdirFails : Bool
  forkFails : Bool

/-- After an iteration the loop goes back to the prompt, or the process has exited. -/
inductive Flow
  | prompt
  | exit (status : Int)
  deriving DecidableEq, Repr

/-- Result of one iteration of the loop of `main`: the ring, the input buffer, where control
goes, and the actions performed, in order. -/
structure Step where
  ha : historyArray
  input_buffer : List Nat
  flow : Flow
  events : List Event
  deriving DecidableEq, Repr

/-- The part of an iteration of `main` that follows a successful recall or a plain line:
empty-line check, `addToHistoryArray`, built-ins, `history`, `&` scan and `fork`. -/
def dispatch (ha : historyArray) (env : Env) (input_buffer : List Nat)
    (tokens : List (Option (List Nat))) (in_background : Bool) (events : List Event) :
    Option Step :=
  if cstr input_buffer = [] then
    some { ha := ha, input_buffer := input_buffer, flow := .prompt, events := events }
  else
    (addToHistoryArray ha (argvOf tokens) in_background).bind fun ha' =>
    (detectHardcodedCommands env.cwd input_buffer tokens env.chdirFails).bind fun b =>
    match b with
    | .exited =>
      some { ha := ha', input_buffer := input_buffer, flow := .exit 0, events := events }
    | .returned 0 evs =>
      some { ha := ha', input_buffer := input_buffer, flow := .prompt, events := events ++ evs }
    | .returned _ _ =>
      if cstr input_buffer = lit "history" then
        (displayHistory ha').bind fun d =>
          some { ha := ha', input_buffer := input_buffer, flow := .prompt,
                 events := events ++ d }
      else
        (ampScan (tokens.drop 1)).bind fun sc =>
          let tokens' := tokens.take 1 ++ sc.1
          let in_background' := in_background || sc.2
          if env.forkFails = true then
            some { ha := ha', input_buffer := input_buffer, flow := .prompt,
                   events := events ++ [.fork, .write STDERR_FILENO (lit "fork() failed.")] }
          else
            some { ha := ha', input_buffer := input_buffer, flow := .prompt,
                   events := events ++ [.fork, .exec (cstr input_buffer) (argvOf tokens')] ++
                     if in_background' = true then [] else [.wait] }

/-- One iteration of the `while (true)` loop of `main`, entered with ring `ha` and the
bytes `input_buffer` left from before.  The actions listed are those of the shell process
itself; a `SIGINT` handler run while `read` blocks is not part of the iteration. -/
def iteration (ha : historyArray) (input_buffer : List Nat) (env : Env) : Option Step :=
  let prompt : List Event :=
    [.write STDOUT_FILENO (cstr env.cwd), .write STDOUT_FILENO (lit "$ ")]
  (read_command input_buffer env.input).bind fun cmd =>
  match cmd with
  | .terminated =>
    some { ha := ha, input_buffer := input_buffer, flow := .exit (-1),
           events := prompt ++ [.perror (lit "Unable to read command. Terminating.\n")] }
  | .interrupted =>
    some { ha := ha, input_buffer := input_buffer, flow := .prompt, events := prompt }
  | .ok buff tokens in_background =>
    if buff[0]? = some 33 then
      (detectHistoryCommands ha buff tokens).bind fun r =>
        if r.status = 0 then
          some { ha := ha, input_buffer := r.input_buffer, flow := .prompt,
                 events := prompt ++ r.written.map (.write STDOUT_FILENO) }
        else
          dispatch ha env r.input_buffer r.tokens in_background
            (prompt ++ r.written.map (.write STDOUT_FILENO))
    else dispatch ha env buff tokens in_background prompt

/-! ## Specification-side vocabulary -/

/-- Words joined by single spaces. -/
def joinWords : List (List Nat) → List Nat
  | [] => []
  | [t] => t
  | t :: t' :: rest => t ++ 32 :: joinWords (t' :: rest)

/-- The serialized line of a command: its words joined by single spaces, followed by
`" &"` when the command is backgrounded. -/
def serialize (words : List (List Nat)) (backgrounded : Bool) : List Nat :=
  joinWords (words.map cstr) ++ if backgrounded then [32, 38] else []

/-- The text stored for logical index `i`: the string of slot `i % MAX_HISTORY`. -/
def storedText (ha : historyArray) (i : Nat) : Option (List Nat) :=
  ha.items[i % MAX_HISTORY]?.bind fun slot =>
    if 0 ∈ slot then some (cstr slot) else none

/-- Storage well-formedness of a ring: `MAX_HISTORY` arrays of `COMMAND_LENGTH` bytes, each
holding a terminated string, and the slots not yet used (indices above `lastItem`, below
`MAX_HISTORY`) still holding the empty string written by `createHistoryArray`. -/
structure RingOk (ha : historyArray) : Prop where
  count : ha.items.length = MAX_HISTORY
  slots : ∀ b ∈ ha.items, b.length = COMMAND_LENGTH ∧ 0 ∈ b
  fresh : ∀ j b, ha.lastItem < j → j < MAX_HISTORY → ha.items[j]? = some b → cstr b = []

/-- A command fits a slot: its serialized line and terminator take at most
`COMMAND_LENGTH` bytes. -/
def Fits (c : List (List Nat) × Bool) : Prop := (serialize c.1 c.2).length < COMMAND_LENGTH

instance (c : List (List Nat) × Bool) : Decidable (Fits c) := by
  unfold Fits; infer_instance

/-- The ring `ha` records the command sequence `cmds`: counters as after `cmds.length`
appends, and every retained logical index holding the serialized line of its command. -/
structure Tracks (ha : historyArray) (cmds : List (List (List Nat) × Bool)) : Prop where
  ok : RingOk ha
  last : ha.lastItem = cmds.length
  size : ha.size = min cmds.length MAX_HISTORY
  first : ha.firstItem = cmds.length + 1 - min cmds.length MAX_HISTORY
  text : ∀ j c, ha.firstItem ≤ j → cmds[j - 1]? = some c →
    storedText ha j = some (serialize c.1 c.2)

/-! ## Sample inputs -/

/-- The two commands of the specification's end-to-end example: `ls -la` in the foreground,
`echo hi` in the background. -/
def exampleCmds : List (List (List Nat) × Bool) :=
  [([lit "ls", lit "-la"], false), ([lit "echo", lit "hi"], true)]

/-- The command `run <i>`, given as two words, backgrounded when `i` is odd; the argument is
spelled with `20 - i` letters `a`, so that later commands are shorter than earlier ones. -/
def sampleCmd (i : Nat) : List (List Nat) × Bool :=
  ([lit "run", List.replicate (20 - i) 97], i % 2 == 1)

/-- The first `n` sample commands. -/
def sampleCmds (n : Nat) : List (List (List Nat) × Bool) := (List.range n).map sampleCmd

/-- A heap whose indeterminate bytes are all `0x41`. -/
def sampleHeap : Nat → Nat → Nat := fun _ _ => 65

/-- The ring after appending `cmds` to a fresh ring (the fresh ring itself when some append
is undefined). -/
def ringAfter (heap : Nat → Nat → Nat) (cmds : List (List (List Nat) × Bool)) : historyArray :=
  (appendAll (createHistoryArray heap) cmds).getD (createHistoryArray heap)

/-- An input buffer holding the string `s`, zero-filled behind it. -/
def bufferOf (s : List Nat) : List Nat := s ++ List.replicate (COMMAND_LENGTH - s.length) 0

/-- The ring of the end-to-end example: `ls -la`, then `echo hi` backgrounded. -/
def exampleRing : historyArray := ringAfter sampleHeap exampleCmds

/-- A string of the form `!<digits>`: `!` followed only by one or more decimal digits. -/
def isBangDigits : List Nat → Bool
  | 33 :: d :: ds => (d :: ds).all fun c => decide (48 ≤ c ∧ c < 58)
  | _ => false

/-- The words of a line: its maximal runs of characters other than space, tab and newline,
in their order of occurrence (the non-empty pieces of the line split at every delimiter). -/
def wordsOf (s : List Nat) : List (List Nat) :=
  (s.splitOnP isDelim).filter fun w => !w.isEmpty

/-- The bytes a list of actions writes to standard output, in order. -/
def stdoutBytes : List Event → List Nat
  | [] => []
  | .write fd b :: es => if fd = STDOUT_FILENO then b ++ stdoutBytes es else stdoutBytes es
  | _ :: es => stdoutBytes es

/-- The listing of the specification for the retained entries: for each entry the decimal
numeral of its index, a tab, its line and a newline, each written by one `write`. -/
def listingOf : List (Nat × List Nat) → List Event
  | [] => []
  | e :: es =>
    [.write STDOUT_FILENO (decimal e.1), .write STDOUT_FILENO (lit "\t"),
      .write STDOUT_FILENO e.2, .write STDOUT_FILENO (lit "\n")] ++ listingOf es

/-- A ring after one thousand million commands, the last ten of them the sample commands:
`firstItem = 999999991`, `lastItem = 1000000000`, every slot holding a terminated line. -/
def lateRing : historyArray :=
  { firstItem := 999999991, lastItem := 1000000000, size := 10,
    items := (ringAfter sampleHeap (sampleCmds 10)).items }

/-- A command of 1022 letters `a`. -/
def longCmd : List (List Nat) × Bool := ([List.replicate 1022 97], false)

/-- A ring after 999999999 commands, the last ten of them the sample commands. -/
def lateRing9 : historyArray :=
  { firstItem := 999999990, lastItem := 999999999, size := 10,
    items := (ringAfter sampleHeap (sampleCmds 10)).items }

/-- A word as `tokenize_command` yields it: non-empty, without NUL and without delimiter. -/
def IsWord (w : List Nat) : Prop := w ≠ [] ∧ ∀ c ∈ w, c ≠ 0 ∧ isDelim c = false

/-- Shape of the commands the loop of `main` records: tokens are words, and a command
recorded as not backgrounded whose last token is `&` has a token in front of it. -/
def Recorded (c : List (List Nat) × Bool) : Prop :=
  (∀ w ∈ c.1, IsWord w) ∧ (c.2 = false → c.1.getLast? = some (lit "&") → 2 ≤ c.1.length)

/-- The loop of `main` run over the given surroundings, one iteration each: the ring and the
input buffer it ends with (nothing once the process has exited). -/
def runLoop (ha : historyArray) (input_buffer : List Nat) :
    List Env → Option (historyArray × List Nat)
  | [] => some (ha, input_buffer)
  | env :: envs =>
    (iteration ha input_buffer env).bind fun st =>
      match st.flow with
      | .prompt => runLoop st.ha st.input_buffer envs
      | .exit _ => none

/-- What the loop of `main` keeps true of its ring and input buffer: the buffer has
`COMMAND_LENGTH` bytes, and the ring records a sequence of commands of the recorded shape. -/
def LoopInv (ha : historyArray) (input_buffer : List Nat) : Prop :=
  input_buffer.length = COMMAND_LENGTH ∧
  ∃ cmds, Tracks ha cmds ∧ cmds.length ≤ INT_MAX ∧ ∀ c ∈ cmds, Recorded c

/-- The surroundings of the end-to-end example: the lines `ls -la` and `echo hi &`. -/
def exampleEnvs : List Env :=
  [{ cwd := lit "/", input := .bytes (lit "ls -la\n"), chdirFails := false, forkFails := false },
   { cwd := lit "/", input := .bytes (lit "echo hi &\n"), chdirFails := false,
     forkFails := false }]

/-- The ring and input buffer the loop reaches after the lines of the end-to-end example. -/
def exampleState : historyArray × List Nat :=
  (runLoop (createHistoryArray sampleHeap) (bufferOf []) exampleEnvs).getD
    (createHistoryArray sampleHeap, bufferOf [])

/-- The surroundings of an iteration in which the line `!!` is typed. -/
def bangEnv : Env :=
  { cwd := lit "/", input := .bytes (33 :: [33] ++ [10]), chdirFails := false,
    forkFails := false }

/-- What `detectHistoryCommands` leaves in the example state for the line `!!`. -/
def exampleRecall : Recall :=
  (detectHistoryCommands exampleState.1 (33 :: 33 :: 0 :: 0 :: exampleState.2.drop 4)
    [some (lit "!!"), none]).getD
    { status := 0, input_buffer := [], tokens := [], written := [] }

/-! ## Facts about C strings -/

theorem lit_space : lit " " = [32] := by decide

theorem lit_amp : lit "&" = [38] := by decide

theorem cstr_nil : cstr [] = [] := rfl

theorem cstr_cons (a : Nat) (b : List Nat) :
    cstr (a :: b) = if a = 0 then [] else a :: cstr b := by
  by_cases h : a = 0 <;> simp [cstr, List.takeWhile_cons, h]

theorem cstr_cons_zero (r : List Nat) : cstr (0 :: r) = [] := by
  simp [cstr_cons]

theorem cstr_no_nul (b : List Nat) : 0 ∉ cstr b := by
  intro h
  have := List.mem_takeWhile_imp h
  simp at this

theorem cstr_append_nul (s r : List Nat) (h : 0 ∉ s) : cstr (s ++ 0 :: r) = s := by
  induction s with
  | nil => simp [cstr_cons]
  | cons a s ih =>
    have ha : a ≠ 0 := fun e => h (by simp [e])
    have hs : 0 ∉ s := fun e => h (by simp [e])
    simp [cstr_cons, ha, ih hs]

theorem cstr_of_no_nul (s : List Nat) (h : 0 ∉ s) : cstr s = s := by
  induction s with
  | nil => rfl
  | cons a s ih =>
    have ha : a ≠ 0 := fun e => h (by simp [e])
    have hs : 0 ∉ s := fun e => h (by simp [e])
    simp [cstr_cons, ha, ih hs]

theorem buf_split (b : List Nat) (h : 0 ∈ b) :
    b = cstr b ++ 0 :: b.drop ((cstr b).length + 1) := by
  induction b with
  | nil => simp at h
  | cons a b ih =>
    by_cases ha : a = 0
    · subst ha; simp [cstr_cons]
    · have hb : 0 ∈ b := by
        rcases List.mem_cons.mp h with e | e
        · exact absurd e.symm ha
        · exact e
      have := ih hb
      simp only [cstr_cons, ha, if_false, List.length_cons, List.drop_succ_cons,
        List.cons_append, List.cons.injEq, true_and]
      exact this

theorem cstr_length_lt (b : List Nat) (h : 0 ∈ b) : (cstr b).length < b.length := by
  have := congrArg List.length (buf_split b h)
  simp at this
  omega

theorem take_cstr (b : List Nat) : b.take (cstr b).length = cstr b := by
  induction b with
  | nil => rfl
  | cons a b ih =>
    by_cases ha : a = 0
    · subst ha; simp [cstr_cons]
    · simp [cstr_cons, ha, ih]

theorem strlen_eq (b : List Nat) (h : 0 ∈ b) : strlen b = some (cstr b).length := by
  simp [strlen, h]

/-- Effect of `strcat` on an array with room for the appended string. -/
theorem strcat_spec (dst src : List Nat)
    (h : (cstr dst).length + (cstr src).length < dst.length) :
    ∃ d, strcat dst src = some d ∧ d.length = dst.length ∧ 0 ∈ d ∧
      cstr d = cstr dst ++ cstr src := by
  refine ⟨dst.take (cstr dst).length ++ cstr src ++
    0 :: dst.drop ((cstr dst).length + (cstr src).length + 1), ?_, ?_, ?_, ?_⟩
  · simp only [strcat, h, if_true]
  · simp [List.length_take]
    omega
  · simp
  · rw [take_cstr]
    have : 0 ∉ cstr dst ++ cstr src := by
      simp [cstr_no_nul]
    exact cstr_append_nul _ _ this

theorem drop_cstr (b : List Nat) (h : 0 ∈ b) :
    b.drop (cstr b).length = 0 :: b.drop ((cstr b).length + 1) := by
  induction b with
  | nil => simp at h
  | cons a b ih =>
    by_cases ha : a = 0
    · subst ha; simp [cstr_cons]
    · have hb : 0 ∈ b := by
        rcases List.mem_cons.mp h with e | e
        · exact absurd e.symm ha
        · exact e
      simpa [cstr_cons, ha] using ih hb

theorem getElem_cstr_length (b : List Nat) (h : 0 ∈ b) :
    b[(cstr b).length]? = some 0 := by
  have := drop_cstr b h
  rw [← List.head?_drop, this]
  rfl

/-- Storing NUL over the terminator of a string changes nothing. -/
theorem poke_terminator (b : List Nat) (h : 0 ∈ b) : poke b (cstr b).length 0 = some b := by
  have hlt := cstr_length_lt b h
  simp only [poke, hlt, if_true, Option.some.injEq]
  apply List.ext_getElem
  · simp
  · intro n h1 h2
    rw [List.getElem_set]
    split
    · next e =>
      subst e
      have h3 := getElem_cstr_length b h
      rw [List.getElem?_eq_getElem h2] at h3
      exact (Option.some.inj h3).symm
    · rfl

/-- Effect of the clearing step `memset(slot, 0, strlen(slot))`. -/
theorem memset_strlen_spec (b : List Nat) (h : 0 ∈ b) :
    ∃ d, ((strlen b).bind fun n => memset b 0 n) = some d ∧ d.length = b.length ∧ 0 ∈ d ∧
      cstr d = [] := by
  have hlt := cstr_length_lt b h
  refine ⟨List.replicate (cstr b).length 0 ++ b.drop (cstr b).length, ?_, ?_, ?_, ?_⟩
  · simp [strlen, h, memset, Nat.le_of_lt hlt]
  · simp; omega
  · rw [drop_cstr b h]; simp
  · rw [drop_cstr b h]
    cases hn : (cstr b).length with
    | zero => simp [cstr_cons]
    | succ k => simp [List.replicate_succ, cstr_cons]


theorem cstr_lit_space : cstr (lit " ") = [32] := by decide

theorem cstr_lit_amp : cstr (lit "&") = [38] := by decide

/-- Effect of the token loop of `addToHistoryArray` on a slot with enough room. -/
theorem addTokens_spec (toks : List (List Nat)) :
    ∀ (slot : List Nat) (totalLen i : Nat), 0 ∈ slot →
      (cstr slot).length = totalLen + i →
      (cstr slot).length + (joinWords (toks.map cstr)).length < slot.length →
      ∃ d, addTokens slot totalLen i toks = some d ∧ d.length = slot.length ∧ 0 ∈ d ∧
        cstr d = cstr slot ++ joinWords (toks.map cstr) := by
  induction toks with
  | nil =>
    intro slot totalLen i h0 _ _
    exact ⟨slot, rfl, rfl, h0, by simp [joinWords]⟩
  | cons t rest ih =>
    intro slot totalLen i h0 hlen hfit
    cases rest with
    | nil =>
      simp only [List.map, joinWords] at hfit ⊢
      obtain ⟨d, hd, hl, hz, hc⟩ := strcat_spec slot t hfit
      refine ⟨d, ?_, hl, hz, hc⟩
      simp only [addTokens, hd, Option.some_bind]
      have : totalLen + (cstr t).length + i = (cstr d).length := by
        rw [hc, List.length_append]; omega
      rw [this]
      exact poke_terminator d hz
    | cons t' rest' =>
      simp only [List.map, joinWords, List.length_append, List.length_cons] at hfit ⊢
      obtain ⟨d, hd, hl, hz, hc⟩ := strcat_spec slot t (by omega)
      obtain ⟨e, he, hl', hz', hc'⟩ := strcat_spec d (lit " ")
        (by rw [hc, cstr_lit_space, hl]; simp; omega)
      have hce : cstr e = cstr slot ++ cstr t ++ [32] := by
        rw [hc', hc, cstr_lit_space]
      obtain ⟨f, hf, hl'', hz'', hc''⟩ := ih e (totalLen + (cstr t).length) (i + 1) hz'
        (by rw [hce]; simp; omega)
        (by rw [hce, hl', hl]; simp only [List.map, List.length_append, List.length_cons,
              List.length_nil]; omega)
      refine ⟨f, ?_, by rw [hl'', hl', hl], hz'', ?_⟩
      · simp only [addTokens, hd, he, Option.some_bind]
        exact hf
      · rw [hc'', hce]
        simp [List.map]



/-- Effect of one `addToHistoryArray` on a well-formed ring. -/
theorem addToHistoryArray_spec (ha : historyArray) (toks : List (List Nat)) (bg : Bool)
    (hok : RingOk ha) (hint : ha.lastItem < INT_MAX) (hfit : Fits (toks, bg)) :
    ∃ ha' d, addToHistoryArray ha toks bg = some ha' ∧
      ha'.lastItem = ha.lastItem + 1 ∧
      ha'.firstItem = (if ha.size = MAX_HISTORY then ha.firstItem + 1 else ha.firstItem) ∧
      ha'.size = (if ha.size = MAX_HISTORY then ha.size else ha.size + 1) ∧
      ha'.items = ha.items.set ((ha.lastItem + 1) % MAX_HISTORY) d ∧
      d.length = COMMAND_LENGTH ∧ 0 ∈ d ∧ cstr d = serialize toks bg := by
  have hidx : (ha.lastItem + 1) % MAX_HISTORY < ha.items.length := by
    rw [hok.count]; exact Nat.mod_lt _ (by decide)
  obtain ⟨slot, hslot⟩ : ∃ slot, ha.items[(ha.lastItem + 1) % MAX_HISTORY]? = some slot :=
    ⟨_, List.getElem?_eq_getElem hidx⟩
  have hmem : slot ∈ ha.items := List.getElem?_mem hslot
  obtain ⟨hsl, hsz⟩ := hok.slots slot hmem
  -- the clearing step
  obtain ⟨c, hc, hcl, hcz, hcc⟩ : ∃ c,
      (if ha.lastItem + 1 > 9 then (strlen slot).bind fun n => memset slot 0 n
        else some slot) = some c ∧ c.length = COMMAND_LENGTH ∧ 0 ∈ c ∧ cstr c = [] := by
    by_cases h9 : ha.lastItem + 1 > 9
    · obtain ⟨d, hd, hl, hz, he⟩ := memset_strlen_spec slot hsz
      exact ⟨d, by simp only [h9, if_true, hd], by rw [hl, hsl], hz, he⟩
    · refine ⟨slot, by simp only [h9, if_false], hsl, hsz, ?_⟩
      have hlt : ha.lastItem + 1 < MAX_HISTORY := by simp only [MAX_HISTORY]; omega
      have hmod : (ha.lastItem + 1) % MAX_HISTORY = ha.lastItem + 1 := Nat.mod_eq_of_lt hlt
      rw [hmod] at hslot
      exact hok.fresh _ slot (by omega) hlt hslot
  have hfit' : (joinWords (toks.map cstr)).length + (if bg then 2 else 0) < COMMAND_LENGTH := by
    have := hfit
    simp only [Fits, serialize, List.length_append] at this
    cases bg <;> simpa using this
  -- the token loop
  obtain ⟨t, ht, htl, htz, htc⟩ := addTokens_spec toks c 0 0 hcz (by simp [hcc])
    (by rw [hcc, hcl]; simp only [List.length_nil]; omega)
  rw [hcc, List.nil_append] at htc
  -- the background marker
  obtain ⟨d, hd, hdl, hdz, hdc⟩ : ∃ d,
      (if bg then (strcat t (lit " ")).bind fun s => strcat s (lit "&") else some t) = some d ∧
        d.length = COMMAND_LENGTH ∧ 0 ∈ d ∧ cstr d = serialize toks bg := by
    cases bg with
    | false =>
      exact ⟨t, by simp, by rw [htl, hcl], htz, by simp [serialize, htc]⟩
    | true =>
      simp only [if_true] at hfit'
      obtain ⟨u, hu, hul, _, huc⟩ := strcat_spec t (lit " ")
        (by rw [htc, cstr_lit_space, htl, hcl]; simp only [List.length_singleton]; omega)
      obtain ⟨v, hv, hvl, hvz, hvc⟩ := strcat_spec u (lit "&")
        (by rw [huc, htc, cstr_lit_space, cstr_lit_amp, hul, htl, hcl]
            simp only [List.length_append, List.length_singleton]; omega)
      refine ⟨v, by simp only [if_true, hu, Option.some_bind, hv], by rw [hvl, hul, htl, hcl],
        hvz, ?_⟩
      rw [hvc, huc, htc, cstr_lit_space, cstr_lit_amp]
      simp [serialize]
  have hni : ¬ ha.lastItem ≥ INT_MAX := by omega
  refine ⟨{ firstItem := if ha.size = MAX_HISTORY then ha.firstItem + 1 else ha.firstItem
            lastItem := ha.lastItem + 1
            size := if ha.size = MAX_HISTORY then ha.size else ha.size + 1
            items := ha.items.set ((ha.lastItem + 1) % MAX_HISTORY) d }, d, ?_,
    rfl, rfl, rfl, rfl, hdl, hdz, hdc⟩
  simp only [addToHistoryArray, hni, if_false, hslot, Option.some_bind, hc, ht, hd]



theorem createHistoryArray_ok (heap : Nat → Nat → Nat) : RingOk (createHistoryArray heap) where
  count := by simp [createHistoryArray]
  slots := by
    intro b hb
    simp only [createHistoryArray, List.mem_map] at hb
    obtain ⟨i, _, rfl⟩ := hb
    simp [COMMAND_LENGTH]
  fresh := by
    intro j b _ hj hb
    simp only [createHistoryArray] at hb
    rw [List.getElem?_map] at hb
    cases hr : (List.range MAX_HISTORY)[j]? with
    | none => simp [hr] at hb
    | some i =>
      simp only [hr, Option.map_some', Option.some.injEq] at hb
      rw [← hb]; exact cstr_cons_zero _

theorem createHistoryArray_tracks (heap : Nat → Nat → Nat) :
    Tracks (createHistoryArray heap) [] where
  ok := createHistoryArray_ok heap
  last := rfl
  size := rfl
  first := rfl
  text := by intro j c _ h; simp at h

/-- One append keeps the ring in step with the command sequence. -/
theorem addToHistoryArray_tracks (ha : historyArray) (cmds : List (List (List Nat) × Bool))
    (c : List (List Nat) × Bool) (htr : Tracks ha cmds) (hint : cmds.length < INT_MAX)
    (hfit : Fits c) :
    ∃ ha', addToHistoryArray ha c.1 c.2 = some ha' ∧ Tracks ha' (cmds ++ [c]) := by
  obtain ⟨ha', d, hadd, hlast, hfirst, hsize, hitems, hdl, hdz, hdc⟩ :=
    addToHistoryArray_spec ha c.1 c.2 htr.ok (by rw [htr.last]; exact hint) hfit
  have hL := htr.last
  have hS := htr.size
  have hF := htr.first
  simp only [MAX_HISTORY] at hS hF hsize hfirst
  have hidx : (ha.lastItem + 1) % MAX_HISTORY < ha.items.length := by
    rw [htr.ok.count]; exact Nat.mod_lt _ (by decide)
  refine ⟨ha', hadd, ?_, ?_, ?_, ?_, ?_⟩
  · refine ⟨by rw [hitems, List.length_set, htr.ok.count], ?_, ?_⟩
    · intro b hb
      rw [hitems] at hb
      rcases List.mem_or_eq_of_mem_set hb with h | h
      · exact htr.ok.slots b h
      · exact h ▸ ⟨hdl, hdz⟩
    · intro j b hj hj10 hb
      rw [hitems, List.getElem?_set_ne] at hb
      · exact htr.ok.fresh j b (by omega) hj10 hb
      · simp only [MAX_HISTORY] at hj10 ⊢; omega
  · rw [hlast, hL]; simp
  · rw [hsize, List.length_append, List.length_singleton]
    simp only [MAX_HISTORY]
    split <;> omega
  · rw [hfirst, List.length_append, List.length_singleton]
    simp only [MAX_HISTORY]
    split <;> omega
  · intro j c' hj hc'
    have hjlen : j - 1 < (cmds ++ [c]).length := (List.getElem?_eq_some.mp hc').1
    rw [List.length_append, List.length_singleton] at hjlen
    have hf1 : 1 ≤ ha.firstItem := by omega
    have hj1 : ha.firstItem ≤ j := by
      rw [hfirst] at hj; split at hj <;> omega
    by_cases hnew : j = cmds.length + 1
    · subst hnew
      have : c' = c := by
        rw [List.getElem?_append_right (by simp)] at hc'
        simpa using hc'.symm
      subst this
      simp only [storedText, hitems, hL]
      rw [← hL, List.getElem?_set_self hidx]
      simp [hdz, hdc]
    · have hjn : j - 1 < cmds.length := by omega
      rw [List.getElem?_append_left hjn] at hc'
      have hold := htr.text j c' hj1 hc'
      simp only [storedText] at hold ⊢
      rw [hitems, List.getElem?_set_ne]
      · exact hold
      · rw [hfirst] at hj
        simp only [MAX_HISTORY]
        split at hj <;> omega

/-- A sequence of appends whose lines all fit is defined and keeps the ring in step. -/
theorem appendAll_tracks (rest : List (List (List Nat) × Bool)) :
    ∀ (ha : historyArray) (pre : List (List (List Nat) × Bool)), Tracks ha pre →
      pre.length + rest.length ≤ INT_MAX → (∀ c ∈ rest, Fits c) →
      ∃ ha', appendAll ha rest = some ha' ∧ Tracks ha' (pre ++ rest) := by
  induction rest with
  | nil =>
    intro ha pre h _ _
    exact ⟨ha, rfl, by simpa using h⟩
  | cons c rest ih =>
    intro ha pre h hlen hfit
    simp only [List.length_cons] at hlen
    obtain ⟨h1, hadd, htr⟩ := addToHistoryArray_tracks ha pre c h (by omega)
      (hfit c (List.mem_cons_self _ _))
    obtain ⟨h2, hall, htr2⟩ := ih h1 (pre ++ [c]) htr
      (by simp only [List.length_append, List.length_singleton]; omega)
      (fun x hx => hfit x (List.mem_cons_of_mem _ hx))
    refine ⟨h2, ?_, by simpa using htr2⟩
    simp only [appendAll, hadd, Option.some_bind, hall]



/-- The display loop lists the stored texts of consecutive logical indices with their
indices. -/
theorem displayLoop_eq (ha : historyArray) (lines : List (List Nat)) :
    ∀ i, (∀ k l, lines[k]? = some l → storedText ha (i + k) = some l) →
      displayLoop ha.items i lines.length = some (lines.enumFrom i) := by
  induction lines with
  | nil => intro i _; rfl
  | cons l ls ih =>
    intro i h
    have h0 := h 0 l (by simp)
    simp only [storedText, Nat.add_zero] at h0
    cases hs : ha.items[i % MAX_HISTORY]? with
    | none => simp [hs] at h0
    | some slot =>
      simp only [hs, Option.some_bind] at h0
      by_cases hz : 0 ∈ slot
      · simp only [hz, if_true, Option.some.injEq] at h0
        have hrest := ih (i + 1) (fun k l' hk => by
          have := h (k + 1) l' (by simpa using hk)
          rwa [show i + (k + 1) = i + 1 + k by omega] at this)
        simp only [List.length_cons, displayLoop, hs, Option.some_bind, strlen, hz, if_true,
          hrest, h0, List.enumFrom_cons]
      · simp [hz] at h0

/-- What `displayHistory` lists for a ring that records `cmds`: the retained commands, oldest
first, each under its logical index. -/
theorem displayEntries_of_tracks (ha : historyArray) (cmds : List (List (List Nat) × Bool))
    (h : Tracks ha cmds) :
    displayEntries ha = some
      (((cmds.drop (ha.firstItem - 1)).map fun c => serialize c.1 c.2).enumFrom
        ha.firstItem) := by
  have hL := h.last
  have hF := h.first
  simp only [MAX_HISTORY] at hF
  have hlen : ((cmds.drop (ha.firstItem - 1)).map fun c => serialize c.1 c.2).length
      = ha.lastItem + 1 - ha.firstItem := by
    simp only [List.length_map, List.length_drop]; omega
  unfold displayEntries
  rw [← hlen]
  apply displayLoop_eq
  intro k l hk
  rw [List.getElem?_map, List.getElem?_drop] at hk
  cases hc : cmds[ha.firstItem - 1 + k]? with
  | none => simp [hc] at hk
  | some c =>
    simp only [hc, Option.map_some', Option.some.injEq] at hk
    rw [← hk]
    apply h.text _ c (by omega)
    rw [← hc]
    congr 1
    omega



/-- A defined `strcat` had room and appended the string. -/
theorem strcat_some (dst src d : List Nat) (h : strcat dst src = some d) :
    (cstr dst).length + (cstr src).length < dst.length ∧ d.length = dst.length ∧ 0 ∈ d ∧
      cstr d = cstr dst ++ cstr src := by
  have hroom : (cstr dst).length + (cstr src).length < dst.length := by
    by_contra hn
    simp [strcat, hn] at h
  obtain ⟨d', hd', h1, h2, h3⟩ := strcat_spec dst src hroom
  rw [h] at hd'
  cases hd'
  exact ⟨hroom, h1, h2, h3⟩

/-- A defined token loop appended the joined words. -/
theorem addTokens_some (toks : List (List Nat)) :
    ∀ (slot : List Nat) (totalLen i : Nat) (d : List Nat), 0 ∈ slot →
      (cstr slot).length = totalLen + i → addTokens slot totalLen i toks = some d →
      d.length = slot.length ∧ 0 ∈ d ∧ cstr d = cstr slot ++ joinWords (toks.map cstr) := by
  induction toks with
  | nil =>
    intro slot totalLen i d h0 _ h
    simp only [addTokens, Option.some.injEq] at h
    subst h
    exact ⟨rfl, h0, by simp [joinWords]⟩
  | cons t rest ih =>
    intro slot totalLen i d h0 hlen h
    cases rest with
    | nil =>
      cases h1 : strcat slot t with
      | none => simp [addTokens, h1] at h
      | some d1 =>
        obtain ⟨_, hl, hz, hc⟩ := strcat_some _ _ _ h1
        simp only [addTokens, h1, Option.some_bind] at h
        have : totalLen + (cstr t).length + i = (cstr d1).length := by
          rw [hc, List.length_append]; omega
        rw [this, poke_terminator d1 hz] at h
        cases h
        exact ⟨hl, hz, by simpa [joinWords] using hc⟩
    | cons t' rest' =>
      cases h1 : strcat slot t with
      | none => simp [addTokens, h1] at h
      | some d1 =>
        obtain ⟨_, hl, hz, hc⟩ := strcat_some _ _ _ h1
        cases h2 : strcat d1 (lit " ") with
        | none => simp [addTokens, h1, h2] at h
        | some d2 =>
          obtain ⟨_, hl2, hz2, hc2⟩ := strcat_some _ _ _ h2
          simp only [addTokens, h1, h2, Option.some_bind] at h
          have hce : cstr d2 = cstr slot ++ cstr t ++ [32] := by
            rw [hc2, hc, cstr_lit_space]
          obtain ⟨hl3, hz3, hc3⟩ := ih d2 (totalLen + (cstr t).length) (i + 1) d hz2
            (by rw [hce]; simp; omega) h
          refine ⟨by rw [hl3, hl2, hl], hz3, ?_⟩
          rw [hc3, hce]
          simp [List.map, joinWords]

/-- A defined `addToHistoryArray` on a well-formed ring was given a line that fits and a
counter below `INT_MAX`. -/
theorem addToHistoryArray_defined (ha ha' : historyArray) (toks : List (List Nat)) (bg : Bool)
    (hok : RingOk ha) (h : addToHistoryArray ha toks bg = some ha') :
    ha.lastItem < INT_MAX ∧ Fits (toks, bg) := by
  have hint : ha.lastItem < INT_MAX := by
    by_contra hn
    have : ha.lastItem ≥ INT_MAX := by omega
    simp [addToHistoryArray, this] at h
  refine ⟨hint, ?_⟩
  have hni : ¬ ha.lastItem ≥ INT_MAX := by omega
  have hidx : (ha.lastItem + 1) % MAX_HISTORY < ha.items.length := by
    rw [hok.count]; exact Nat.mod_lt _ (by decide)
  have hslot : ha.items[(ha.lastItem + 1) % MAX_HISTORY]? =
      some (ha.items[(ha.lastItem + 1) % MAX_HISTORY]) := List.getElem?_eq_getElem hidx
  generalize ha.items[(ha.lastItem + 1) % MAX_HISTORY] = slot at hslot
  obtain ⟨hsl, hsz⟩ := hok.slots slot (List.getElem?_mem hslot)
  obtain ⟨c, hc, hcl, hcz, hcc⟩ : ∃ c,
      (if ha.lastItem + 1 > 9 then (strlen slot).bind fun n => memset slot 0 n
        else some slot) = some c ∧ c.length = COMMAND_LENGTH ∧ 0 ∈ c ∧ cstr c = [] := by
    by_cases h9 : ha.lastItem + 1 > 9
    · obtain ⟨d, hd, hl, hz, he⟩ := memset_strlen_spec slot hsz
      exact ⟨d, by simp only [h9, if_true, hd], by rw [hl, hsl], hz, he⟩
    · refine ⟨slot, by simp only [h9, if_false], hsl, hsz, ?_⟩
      have hlt : ha.lastItem + 1 < MAX_HISTORY := by simp only [MAX_HISTORY]; omega
      have hmod : (ha.lastItem + 1) % MAX_HISTORY = ha.lastItem + 1 := Nat.mod_eq_of_lt hlt
      rw [hmod] at hslot
      exact hok.fresh _ slot (by omega) hlt hslot
  simp only [addToHistoryArray, hni, if_false, hslot, Option.some_bind, hc] at h
  cases ht : addTokens c 0 0 toks with
  | none => simp [ht] at h
  | some t =>
    obtain ⟨htl, htz, htc⟩ := addTokens_some toks c 0 0 t hcz (by simp [hcc]) ht
    rw [hcc, List.nil_append] at htc
    simp only [ht, Option.some_bind] at h
    cases bg with
    | false =>
      have := cstr_length_lt t htz
      simp only [Fits, serialize]
      rw [htc, htl, hcl] at this
      simpa using this
    | true =>
      simp only [if_true] at h
      cases hu : strcat t (lit " ") with
      | none => simp [hu] at h
      | some u =>
        obtain ⟨_, hul, _, huc⟩ := strcat_some _ _ _ hu
        cases hv : strcat u (lit "&") with
        | none => simp [hu, hv] at h
        | some v =>
          obtain ⟨hroom, _, _, _⟩ := strcat_some _ _ _ hv
          rw [huc, htc, cstr_lit_space, cstr_lit_amp, hul, htl, hcl] at hroom
          simp only [Fits, serialize, if_true, List.length_append, List.length_cons,
            List.length_nil] at hroom ⊢
          omega

/-- Every ring reached from `createHistoryArray` by defined appends records exactly the
commands appended. -/
theorem tracks_of_appendAll (rest : List (List (List Nat) × Bool)) :
    ∀ (ha ha' : historyArray) (pre : List (List (List Nat) × Bool)), Tracks ha pre →
      pre.length ≤ INT_MAX → appendAll ha rest = some ha' →
      Tracks ha' (pre ++ rest) ∧ pre.length + rest.length ≤ INT_MAX := by
  induction rest with
  | nil =>
    intro ha ha' pre h hpre hall
    simp only [appendAll, Option.some.injEq] at hall
    subst hall
    exact ⟨by simpa using h, by simpa using hpre⟩
  | cons c rest ih =>
    intro ha ha' pre h _ hall
    cases hadd : addToHistoryArray ha c.1 c.2 with
    | none => simp [appendAll, hadd] at hall
    | some h1 =>
      simp only [appendAll, hadd, Option.some_bind] at hall
      obtain ⟨hint, hfit⟩ := addToHistoryArray_defined ha h1 c.1 c.2 h.ok hadd
      obtain ⟨h1', hadd', htr⟩ := addToHistoryArray_tracks ha pre c h
        (by rw [← h.last]; exact hint) hfit
      rw [hadd] at hadd'
      cases hadd'
      have hint' : pre.length < INT_MAX := by rw [← h.last]; exact hint
      obtain ⟨h2, h3⟩ := ih h1 ha' (pre ++ [c]) htr
        (by simp only [List.length_append, List.length_singleton]; omega) hall
      refine ⟨by simpa using h2, ?_⟩
      simp only [List.length_append, List.length_singleton, List.length_cons] at h3 ⊢
      omega



/-- C1: appending at most `MAX_HISTORY` command lines (each fitting a slot) to the ring made
by `createHistoryArray` is defined, and the loop of `displayHistory` then lists exactly those
lines in insertion order, the `i`-th appended line under logical index `i`, counting from 1. -/
theorem render_within_capacity (heap : Nat → Nat → Nat) (cmds : List (List (List Nat) × Bool))
    (hn : cmds.length ≤ MAX_HISTORY) (hfit : ∀ c ∈ cmds, Fits c) :
    ∃ ha, appendAll (createHistoryArray heap) cmds = some ha ∧
      displayEntries ha = some ((cmds.map fun c => serialize c.1 c.2).enumFrom 1) := by
  obtain ⟨ha, hall, htr⟩ := appendAll_tracks cmds (createHistoryArray heap) []
    (createHistoryArray_tracks heap)
    (by simp only [List.length_nil, MAX_HISTORY, INT_MAX] at hn ⊢; omega) hfit
  rw [List.nil_append] at htr
  refine ⟨ha, hall, ?_⟩
  rw [displayEntries_of_tracks ha cmds htr]
  have hF := htr.first
  simp only [MAX_HISTORY] at hF hn
  have : ha.firstItem = 1 := by omega
  rw [this]
  rfl

theorem render_within_capacity_witness :
    exampleCmds.length ≤ MAX_HISTORY ∧ (∀ c ∈ exampleCmds, Fits c) ∧
    ∃ ha, appendAll (createHistoryArray sampleHeap) exampleCmds = some ha ∧
      displayEntries ha = some [(1, lit "ls -la"), (2, lit "echo hi &")] :=
  ⟨by decide, by decide,
    render_within_capacity sampleHeap exampleCmds (by decide) (by decide)⟩



/-- C2: for every `k ≥ 1`, appending `MAX_HISTORY + k` command lines (each fitting a slot,
their number within `int`) to a fresh ring is defined and leaves `firstItem = k + 1`,
`lastItem = MAX_HISTORY + k`, and `displayHistory` lists exactly the last `MAX_HISTORY`
appended lines in insertion order, the `j`-th appended line under logical index `j`. -/
theorem render_after_wraparound (heap : Nat → Nat → Nat) (k : Nat)
    (cmds : List (List (List Nat) × Bool)) (hk : 1 ≤ k)
    (hn : cmds.length = MAX_HISTORY + k) (hint : cmds.length ≤ INT_MAX)
    (hfit : ∀ c ∈ cmds, Fits c) :
    ∃ ha, appendAll (createHistoryArray heap) cmds = some ha ∧
      ha.firstItem = k + 1 ∧ ha.lastItem = MAX_HISTORY + k ∧
      displayEntries ha =
        some (((cmds.drop k).map fun c => serialize c.1 c.2).enumFrom (k + 1)) ∧
      ((cmds.drop k).map fun c => serialize c.1 c.2).length = MAX_HISTORY := by
  obtain ⟨ha, hall, htr⟩ := appendAll_tracks cmds (createHistoryArray heap) []
    (createHistoryArray_tracks heap) (by simpa using hint) hfit
  rw [List.nil_append] at htr
  have hF := htr.first
  have hL := htr.last
  simp only [MAX_HISTORY] at hF hn ⊢
  have h1 : ha.firstItem = k + 1 := by omega
  refine ⟨ha, hall, h1, by omega, ?_, ?_⟩
  · rw [displayEntries_of_tracks ha cmds htr, h1]
    rfl
  · simp only [List.length_map, List.length_drop]; omega

theorem render_after_wraparound_witness :
    1 ≤ 3 ∧ (sampleCmds 13).length = MAX_HISTORY + 3 ∧ (sampleCmds 13).length ≤ INT_MAX ∧
    (∀ c ∈ sampleCmds 13, Fits c) ∧
    ∃ ha, appendAll (createHistoryArray sampleHeap) (sampleCmds 13) = some ha ∧
      ha.firstItem = 3 + 1 ∧ ha.lastItem = MAX_HISTORY + 3 ∧
      displayEntries ha =
        some ((((sampleCmds 13).drop 3).map fun c => serialize c.1 c.2).enumFrom (3 + 1)) ∧
      (((sampleCmds 13).drop 3).map fun c => serialize c.1 c.2).length = MAX_HISTORY :=
  ⟨by decide, by decide, by decide, by decide,
    render_after_wraparound sampleHeap 3 (sampleCmds 13) (by decide) (by decide) (by decide)
      (by decide)⟩

/-- Rings reached from `createHistoryArray` by defined appends are well-formed and record
the appended commands. -/
theorem reachable_tracks (heap : Nat → Nat → Nat) (cmds : List (List (List Nat) × Bool))
    (ha : historyArray) (h : appendAll (createHistoryArray heap) cmds = some ha) :
    Tracks ha cmds ∧ cmds.length ≤ INT_MAX := by
  have := tracks_of_appendAll cmds (createHistoryArray heap) ha []
    (createHistoryArray_tracks heap) (by simp) h
  simpa using this

/-- For commands that all fit, `ringAfter` is the ring the appends produce. -/
theorem ringAfter_eq (heap : Nat → Nat → Nat) (cmds : List (List (List Nat) × Bool))
    (hint : cmds.length ≤ INT_MAX) (hfit : ∀ c ∈ cmds, Fits c) :
    appendAll (createHistoryArray heap) cmds = some (ringAfter heap cmds) := by
  obtain ⟨ha, hall, _⟩ := appendAll_tracks cmds (createHistoryArray heap) []
    (createHistoryArray_tracks heap) (by simpa using hint) hfit
  simp [ringAfter, hall]

/-- C3: in every ring state reached from `createHistoryArray` by appends, for every word
sequence and background flag whose serialized line fits a slot, `addToHistoryArray` is defined
and the slot of the new `lastItem` then holds exactly the words joined by single spaces,
followed by `" &"` exactly when the flag is set; nothing of the slot's previous occupant
remains in the stored string. -/
theorem append_stores_exact_line (heap : Nat → Nat → Nat)
    (cmds : List (List (List Nat) × Bool)) (ha : historyArray) (toks : List (List Nat))
    (bg : Bool) (hreach : appendAll (createHistoryArray heap) cmds = some ha)
    (hint : ha.lastItem < INT_MAX) (hfit : Fits (toks, bg)) :
    ∃ ha', addToHistoryArray ha toks bg = some ha' ∧
      ha'.lastItem = ha.lastItem + 1 ∧
      storedText ha' ha'.lastItem =
        some (joinWords (toks.map cstr) ++ if bg then lit " &" else []) := by
  obtain ⟨htr, _⟩ := reachable_tracks heap cmds ha hreach
  obtain ⟨ha', d, hadd, hlast, _, _, hitems, _, hdz, hdc⟩ :=
    addToHistoryArray_spec ha toks bg htr.ok hint hfit
  refine ⟨ha', hadd, hlast, ?_⟩
  have hidx : (ha.lastItem + 1) % MAX_HISTORY < ha.items.length := by
    rw [htr.ok.count]; exact Nat.mod_lt _ (by decide)
  simp only [storedText, hitems, hlast, List.getElem?_set_self hidx, Option.some_bind, hdz,
    if_true, hdc]
  rfl

theorem append_stores_exact_line_witness :
    appendAll (createHistoryArray sampleHeap) (sampleCmds 12) =
      some (ringAfter sampleHeap (sampleCmds 12)) ∧
    (ringAfter sampleHeap (sampleCmds 12)).lastItem < INT_MAX ∧
    Fits ([lit "ls"], true) ∧
    ∃ ha', addToHistoryArray (ringAfter sampleHeap (sampleCmds 12)) [lit "ls"] true = some ha' ∧
      ha'.lastItem = (ringAfter sampleHeap (sampleCmds 12)).lastItem + 1 ∧
      storedText ha' ha'.lastItem = some (lit "ls &") :=
  have hr := ringAfter_eq sampleHeap (sampleCmds 12) (by decide) (by decide)
  have hl : (ringAfter sampleHeap (sampleCmds 12)).lastItem < INT_MAX := by
    rw [(reachable_tracks _ _ _ hr).1.last]; decide
  ⟨hr, hl, by decide,
    append_stores_exact_line sampleHeap (sampleCmds 12) _ [lit "ls"] true hr hl (by decide)⟩



/-! ## Facts about recall resolution -/

theorem digitScan_digits (ds tail : List Nat) (h : ∀ d ∈ ds, 48 ≤ d ∧ d < 58) :
    digitScan (ds ++ 0 :: tail) = some true := by
  induction ds with
  | nil => simp [digitScan]
  | cons d ds ih =>
    have hd := h d (List.mem_cons_self _ _)
    have hne : d ≠ 0 := by omega
    have hnn : ¬ (d < 48 ∨ d ≥ 58) := by omega
    simp only [List.cons_append, digitScan, hne, if_false, hnn]
    exact ih (fun x hx => h x (List.mem_cons_of_mem _ hx))

theorem digitScan_nondigit (rest tail : List Nat) (h0 : 0 ∉ rest)
    (h : ∃ c ∈ rest, ¬ (48 ≤ c ∧ c < 58)) :
    digitScan (rest ++ 0 :: tail) = some false := by
  induction rest with
  | nil => simp at h
  | cons d ds ih =>
    have hne : d ≠ 0 := fun e => h0 (by simp [e])
    by_cases hd : d < 48 ∨ d ≥ 58
    · simp only [List.cons_append, digitScan, hne, if_false, hd, if_true]
    · simp only [List.cons_append, digitScan, hne, if_false, hd]
      apply ih (fun e => h0 (List.mem_cons_of_mem _ e))
      obtain ⟨c, hc, hcn⟩ := h
      rcases List.mem_cons.mp hc with e | e
      · subst e; omega
      · exact ⟨c, e, hcn⟩

theorem digitsValue_append_nul (ds tail : List Nat) (acc : Nat) :
    digitsValue (ds ++ 0 :: tail) acc = digitsValue ds acc := by
  induction ds generalizing acc with
  | nil => simp [digitsValue]
  | cons d ds ih =>
    simp only [List.cons_append, digitsValue]
    split
    · exact ih _
    · rfl

theorem toInt32_of_le (n : Nat) (h : n ≤ INT_MAX) : toInt32 n = n := by
  simp only [INT_MAX] at h
  have h1 : n % 4294967296 = n := Nat.mod_eq_of_lt (by omega)
  simp only [toInt32, h1]
  rw [if_pos (by omega)]

theorem atoi_of_le (s : List Nat) (h : digitsValue s 0 ≤ INT_MAX) :
    atoi s = digitsValue s 0 := by
  have : min (digitsValue s 0) LONG_MAX = digitsValue s 0 := by
    simp only [INT_MAX] at h
    simp only [LONG_MAX]; omega
  rw [atoi, this, toInt32_of_le _ h]

/-- A recall that fails wrote the one message and left buffer and tokens alone. -/
theorem detectHistoryCommands_fail (ha : historyArray) (buf : List Nat)
    (toks : List (Option (List Nat))) (r : Recall)
    (h : detectHistoryCommands ha buf toks = some r) (h0 : r.status = 0) :
    r = { status := 0, input_buffer := buf, tokens := toks, written := [unknownHistory] } := by
  have hrs : ∀ slot, recallSlot buf slot = some r → False := by
    intro slot hs
    simp only [recallSlot] at hs
    cases hc : strcpy buf slot with
    | none => simp [hc] at hs
    | some b =>
      simp only [hc, Option.some_bind, Option.some.injEq] at hs
      rw [← hs] at h0
      simp at h0
  have hit : ∀ k : Nat, (ha.items[k]?.bind fun slot => recallSlot buf slot) = some r → False := by
    intro k hk
    cases hi : ha.items[k]? with
    | none => simp [hi] at hk
    | some slot => simp only [hi, Option.some_bind] at hk; exact hrs slot hk
  simp only [detectHistoryCommands] at h
  cases hb : buf[1]? with
  | none => simp [hb] at h
  | some c1 =>
    simp only [hb, Option.some_bind] at h
    split at h
    · split at h
      · exact (Option.some.inj h).symm
      · exact (hit _ h).elim
    · split at h
      · cases hd : digitScan (buf.drop 2) with
        | none => simp [hd] at h
        | some b =>
          simp only [hd, Option.some_bind] at h
          split at h
          · exact (Option.some.inj h).symm
          · split at h
            · exact (Option.some.inj h).symm
            · exact (hit _ h).elim
      · exact (Option.some.inj h).symm

/-- Successful recall of a slot that holds a terminated string no longer than the input
buffer. -/
theorem recallSlot_spec (buf slot : List Nat) (hz : 0 ∈ slot)
    (hlen : slot.length ≤ buf.length) :
    recallSlot buf slot = some
      { status := 1
        input_buffer := (tokenize_command (cstr slot ++ 0 :: buf.drop ((cstr slot).length + 1))).buff
        tokens := (tokenize_command (cstr slot ++ 0 :: buf.drop ((cstr slot).length + 1))).tokens
        written := [cstr slot, lit "\n"] } := by
  have := cstr_length_lt slot hz
  have h2 : (cstr slot).length < buf.length := by omega
  simp [recallSlot, strcpy, hz, h2]



/-- Recall by number on a ring that records `cmds`, for a digit string whose value is a
retained index. -/
theorem recall_number_tracks (ha : historyArray) (cmds : List (List (List Nat) × Bool))
    (ds tail : List Nat) (toks : List (Option (List Nat)))
    (htr : Tracks ha cmds) (hint : cmds.length ≤ INT_MAX)
    (hne : ds ≠ []) (hdig : ∀ d ∈ ds, 48 ≤ d ∧ d < 58)
    (hlo : ha.firstItem ≤ digitsValue ds 0) (hhi : digitsValue ds 0 ≤ ha.lastItem)
    (hbuf : (33 :: (ds ++ 0 :: tail)).length = COMMAND_LENGTH) :
    ∃ c, cmds[digitsValue ds 0 - 1]? = some c ∧
      storedText ha (digitsValue ds 0) = some (serialize c.1 c.2) ∧
      detectHistoryCommands ha (33 :: (ds ++ 0 :: tail)) toks = some
        { status := 1
          input_buffer := (tokenize_command (serialize c.1 c.2 ++
            0 :: (33 :: (ds ++ 0 :: tail)).drop ((serialize c.1 c.2).length + 1))).buff
          tokens := (tokenize_command (serialize c.1 c.2 ++
            0 :: (33 :: (ds ++ 0 :: tail)).drop ((serialize c.1 c.2).length + 1))).tokens
          written := [serialize c.1 c.2, lit "\n"] } := by
  have hL := htr.last
  have hF := htr.first
  simp only [MAX_HISTORY] at hF
  have hN1 : 1 ≤ digitsValue ds 0 := by omega
  have hidx : digitsValue ds 0 - 1 < cmds.length := by omega
  refine ⟨cmds[digitsValue ds 0 - 1], List.getElem?_eq_getElem hidx, ?_, ?_⟩
  · exact htr.text _ _ hlo (List.getElem?_eq_getElem hidx)
  · have htext := htr.text _ _ hlo (List.getElem?_eq_getElem hidx)
    generalize cmds[digitsValue ds 0 - 1] = c at htext ⊢
    simp only [storedText] at htext
    cases hs : ha.items[digitsValue ds 0 % MAX_HISTORY]? with
    | none => simp [hs] at htext
    | some slot =>
      simp only [hs, Option.some_bind] at htext
      have hz : 0 ∈ slot := by
        by_contra hn
        simp [hn] at htext
      simp only [hz, if_true, Option.some.injEq] at htext
      obtain ⟨hsl, _⟩ := htr.ok.slots slot (List.getElem?_mem hs)
      have hrec := recallSlot_spec (33 :: (ds ++ 0 :: tail)) slot hz (by rw [hsl, hbuf])
      rw [htext] at hrec
      obtain ⟨d, ds', rfl⟩ : ∃ d ds', ds = d :: ds' := by
        cases ds with
        | nil => exact absurd rfl hne
        | cons d ds' => exact ⟨d, ds', rfl⟩
      have hd := hdig d (List.mem_cons_self _ _)
      have hscan := digitScan_digits ds' tail (fun x hx => hdig x (List.mem_cons_of_mem _ hx))
      have hval : atoi (d :: (ds' ++ 0 :: tail)) = (digitsValue (d :: ds') 0 : Nat) := by
        rw [← List.cons_append, atoi_of_le] <;> rw [digitsValue_append_nul]
        omega
      have hd33 : d ≠ 33 := by omega
      have hlo' : ¬ ((digitsValue (d :: ds') 0 : Int) > ha.lastItem ∨
          (digitsValue (d :: ds') 0 : Int) < ha.firstItem) := by omega
      simp only [detectHistoryCommands, List.getElem?_cons_succ, List.cons_append,
        List.getElem?_cons_zero, Option.some_bind, hd33, if_false, ge_iff_le, hd.1, hd.2,
        and_self, if_true, List.drop_succ_cons, List.drop_zero, hscan, Bool.true_eq_false,
        hval, hlo', Int.toNat_ofNat, hs]
      simpa using hrec

/-- C4: in every ring state reached by a sequence of appends, for every recall `!N` whose
digits name an index with `firstItem ≤ N ≤ lastItem`, `detectHistoryCommands` returns 1; the
slot read is `N mod 10`, it holds the serialized line of the `N`-th appended command, and that
text is echoed, copied over the input line and tokenized again. -/
theorem recall_by_number (heap : Nat → Nat → Nat) (cmds : List (List (List Nat) × Bool))
    (ha : historyArray) (ds tail : List Nat) (toks : List (Option (List Nat)))
    (hreach : appendAll (createHistoryArray heap) cmds = some ha)
    (hne : ds ≠ []) (hdig : ∀ d ∈ ds, 48 ≤ d ∧ d < 58)
    (hlo : ha.firstItem ≤ digitsValue ds 0) (hhi : digitsValue ds 0 ≤ ha.lastItem)
    (hbuf : (33 :: (ds ++ 0 :: tail)).length = COMMAND_LENGTH) :
    ∃ c, cmds[digitsValue ds 0 - 1]? = some c ∧
      storedText ha (digitsValue ds 0) = some (serialize c.1 c.2) ∧
      detectHistoryCommands ha (33 :: (ds ++ 0 :: tail)) toks = some
        { status := 1
          input_buffer := (tokenize_command (serialize c.1 c.2 ++
            0 :: (33 :: (ds ++ 0 :: tail)).drop ((serialize c.1 c.2).length + 1))).buff
          tokens := (tokenize_command (serialize c.1 c.2 ++
            0 :: (33 :: (ds ++ 0 :: tail)).drop ((serialize c.1 c.2).length + 1))).tokens
          written := [serialize c.1 c.2, lit "\n"] } := by
  obtain ⟨htr, hint⟩ := reachable_tracks heap cmds ha hreach
  exact recall_number_tracks ha cmds ds tail toks htr hint hne hdig hlo hhi hbuf



theorem exampleRing_reach :
    appendAll (createHistoryArray sampleHeap) exampleCmds = some exampleRing := by decide

theorem exampleRing_first : exampleRing.firstItem = 1 := by
  have := (reachable_tracks _ _ _ exampleRing_reach).1.first
  simpa [exampleCmds, MAX_HISTORY] using this

theorem exampleRing_last : exampleRing.lastItem = 2 := by
  have := (reachable_tracks _ _ _ exampleRing_reach).1.last
  simpa [exampleCmds] using this

theorem recall_by_number_witness :
    appendAll (createHistoryArray sampleHeap) exampleCmds = some exampleRing ∧
    lit "1" ≠ [] ∧ (∀ d ∈ lit "1", 48 ≤ d ∧ d < 58) ∧
    exampleRing.firstItem ≤ digitsValue (lit "1") 0 ∧
    digitsValue (lit "1") 0 ≤ exampleRing.lastItem ∧
    (33 :: (lit "1" ++ 0 :: List.replicate 1021 0)).length = COMMAND_LENGTH ∧
    ∃ c, exampleCmds[digitsValue (lit "1") 0 - 1]? = some c ∧
      storedText exampleRing (digitsValue (lit "1") 0) = some (serialize c.1 c.2) ∧
      detectHistoryCommands exampleRing (33 :: (lit "1" ++ 0 :: List.replicate 1021 0)) [] = some
        { status := 1
          input_buffer := (tokenize_command (serialize c.1 c.2 ++
            0 :: (33 :: (lit "1" ++ 0 :: List.replicate 1021 0)).drop
              ((serialize c.1 c.2).length + 1))).buff
          tokens := (tokenize_command (serialize c.1 c.2 ++
            0 :: (33 :: (lit "1" ++ 0 :: List.replicate 1021 0)).drop
              ((serialize c.1 c.2).length + 1))).tokens
          written := [serialize c.1 c.2, lit "\n"] } :=
  have h1 : exampleRing.firstItem ≤ digitsValue (lit "1") 0 := by
    rw [exampleRing_first]; decide
  have h2 : digitsValue (lit "1") 0 ≤ exampleRing.lastItem := by
    rw [exampleRing_last]; decide
  have h3 : (33 :: (lit "1" ++ 0 :: List.replicate 1021 0)).length = COMMAND_LENGTH := by
    rw [List.length_cons, List.length_append, List.length_cons, List.length_replicate]
    decide
  ⟨exampleRing_reach, by decide, by decide, h1, h2, h3,
    recall_by_number sampleHeap exampleCmds exampleRing (lit "1") (List.replicate 1021 0) []
      exampleRing_reach (by decide) (by decide) h1 h2 h3⟩

/-- The end-to-end example of the specification: on the ring holding `ls -la` and
`echo hi &`, `!1` resolves to `ls -la` and `!!` to `echo hi &`. -/
theorem example_recalls :
    (detectHistoryCommands exampleRing (bufferOf (lit "!1")) []).map
        (fun r => (r.status, r.written, r.tokens)) =
      some (1, [lit "ls -la", lit "\n"], [some (lit "ls"), some (lit "-la"), none]) ∧
    (detectHistoryCommands exampleRing (bufferOf (lit "!!")) []).map
        (fun r => (r.status, r.written, r.tokens)) =
      some (1, [lit "echo hi &", lit "\n"],
        [some (lit "echo"), some (lit "hi"), some (lit "&"), none]) := by
  decide



/-- A recall `!N` whose digits have a value within `int` and outside
`[firstItem, lastItem]` fails. -/
theorem recall_out_of_range (ha : historyArray) (ds tail : List Nat)
    (toks : List (Option (List Nat))) (hne : ds ≠ []) (hdig : ∀ d ∈ ds, 48 ≤ d ∧ d < 58)
    (hint : digitsValue ds 0 ≤ INT_MAX)
    (hout : digitsValue ds 0 < ha.firstItem ∨ ha.lastItem < digitsValue ds 0) :
    detectHistoryCommands ha (33 :: (ds ++ 0 :: tail)) toks = some
      { status := 0, input_buffer := 33 :: (ds ++ 0 :: tail), tokens := toks,
        written := [unknownHistory] } := by
  obtain ⟨d, ds', rfl⟩ : ∃ d ds', ds = d :: ds' := by
    cases ds with
    | nil => exact absurd rfl hne
    | cons d ds' => exact ⟨d, ds', rfl⟩
  have hd := hdig d (List.mem_cons_self _ _)
  have hscan := digitScan_digits ds' tail (fun x hx => hdig x (List.mem_cons_of_mem _ hx))
  have hval : atoi (d :: (ds' ++ 0 :: tail)) = (digitsValue (d :: ds') 0 : Nat) := by
    rw [← List.cons_append, atoi_of_le] <;> rw [digitsValue_append_nul]
    exact hint
  have hd33 : d ≠ 33 := by omega
  have hlo' : ((digitsValue (d :: ds') 0 : Int) > ha.lastItem ∨
      (digitsValue (d :: ds') 0 : Int) < ha.firstItem) := by omega
  simp only [detectHistoryCommands, List.getElem?_cons_succ, List.cons_append,
    List.getElem?_cons_zero, Option.some_bind, hd33, if_false, ge_iff_le, hd.1, hd.2,
    and_self, if_true, List.drop_succ_cons, List.drop_zero, hscan, Bool.true_eq_false,
    hval, hlo']

/-- On a ring with `firstItem = 1` and `lastItem = 0` every recall `!N` fails, whatever the
digits. -/
theorem recall_number_empty_ring (ha : historyArray) (ds tail : List Nat)
    (toks : List (Option (List Nat))) (hne : ds ≠ []) (hdig : ∀ d ∈ ds, 48 ≤ d ∧ d < 58)
    (hf : ha.firstItem = 1) (hl : ha.lastItem = 0) :
    detectHistoryCommands ha (33 :: (ds ++ 0 :: tail)) toks = some
      { status := 0, input_buffer := 33 :: (ds ++ 0 :: tail), tokens := toks,
        written := [unknownHistory] } := by
  obtain ⟨d, ds', rfl⟩ : ∃ d ds', ds = d :: ds' := by
    cases ds with
    | nil => exact absurd rfl hne
    | cons d ds' => exact ⟨d, ds', rfl⟩
  have hd := hdig d (List.mem_cons_self _ _)
  have hscan := digitScan_digits ds' tail (fun x hx => hdig x (List.mem_cons_of_mem _ hx))
  have hd33 : d ≠ 33 := by omega
  have hlo' : (atoi (d :: (ds' ++ 0 :: tail)) > (ha.lastItem : Int) ∨
      atoi (d :: (ds' ++ 0 :: tail)) < (ha.firstItem : Int)) := by
    rw [hf, hl]; omega
  simp only [detectHistoryCommands, List.getElem?_cons_succ, List.cons_append,
    List.getElem?_cons_zero, Option.some_bind, hd33, if_false, ge_iff_le, hd.1, hd.2,
    and_self, if_true, List.drop_succ_cons, List.drop_zero, hscan, Bool.true_eq_false,
    hlo']

/-- C5 (evaluation at the failing input): on the ring holding `ls -la` and `echo hi &`
(`firstItem = 1`, `lastItem = 2`) the recall `!4294967297`, whose digits have the value
`2^32 + 1 > lastItem`, is resolved: `atoi` yields 1, `detectHistoryCommands` returns 1 and
entry 1 is echoed; the loop iteration then records and runs `ls -la`. -/
theorem recall_digits_wrap :
    digitsValue (lit "4294967297") 0 = 4294967297 ∧
    exampleRing.lastItem = 2 ∧
    atoi (lit "4294967297") = 1 ∧
    (detectHistoryCommands exampleRing (bufferOf (lit "!4294967297")) []).map
        (fun r => (r.status, r.written)) = some (1, [lit "ls -la", lit "\n"]) ∧
    (iteration exampleRing (bufferOf [])
        { cwd := lit "/", input := .bytes (lit "!4294967297\n"),
          chdirFails := false, forkFails := false }).map
        (fun s => (s.ha.lastItem, s.events.drop 2)) =
      some (3, [.write STDOUT_FILENO (lit "ls -la"), .write STDOUT_FILENO (lit "\n"), .fork,
        .exec (lit "ls") [lit "ls", lit "-la"], .wait]) := by
  refine ⟨by decide, exampleRing_last, by decide, by decide, by decide⟩

/-- C6: for every ring and every recall word `!` + digit + rest in which `rest` holds a
character that is not a decimal digit, `detectHistoryCommands` writes the message and
returns 0, also when the leading digits name a retained entry. -/
theorem recall_malformed_digits (ha : historyArray) (d : Nat) (rest tail : List Nat)
    (toks : List (Option (List Nat))) (hd : 48 ≤ d ∧ d < 58) (h0 : 0 ∉ rest)
    (hbad : ∃ c ∈ rest, ¬ (48 ≤ c ∧ c < 58)) :
    detectHistoryCommands ha (33 :: d :: (rest ++ 0 :: tail)) toks = some
      { status := 0, input_buffer := 33 :: d :: (rest ++ 0 :: tail), tokens := toks,
        written := [unknownHistory] } := by
  have hscan := digitScan_nondigit rest tail h0 hbad
  have hd33 : d ≠ 33 := by omega
  simp only [detectHistoryCommands, List.getElem?_cons_succ, List.getElem?_cons_zero,
    Option.some_bind, hd33, if_false, ge_iff_le, hd.1, hd.2, and_self, if_true,
    List.drop_succ_cons, List.drop_zero, hscan]

theorem recall_malformed_digits_witness :
    (48 ≤ 49 ∧ 49 < 58) ∧ 0 ∉ lit "a" ∧ (∃ c ∈ lit "a", ¬ (48 ≤ c ∧ c < 58)) ∧
    exampleRing.firstItem = 1 ∧
    detectHistoryCommands exampleRing (33 :: 49 :: (lit "a" ++ 0 :: List.replicate 1020 0)) [] =
      some { status := 0, input_buffer := 33 :: 49 :: (lit "a" ++ 0 :: List.replicate 1020 0),
             tokens := [], written := [unknownHistory] } :=
  ⟨by decide, by decide, by decide, exampleRing_first,
    recall_malformed_digits exampleRing 49 (lit "a") (List.replicate 1020 0) [] (by decide)
      (by decide) (by decide)⟩



/-- An iteration whose line starts with `!` and whose recall returns 0 goes back to the
prompt with the ring as it was, having written only the prompt and the one message. -/
theorem iteration_recall_failed (ha : historyArray) (input_buffer : List Nat) (env : Env)
    (buff : List Nat) (tokens : List (Option (List Nat))) (bg : Bool) (r : Recall)
    (hread : read_command input_buffer env.input = some (.ok buff tokens bg))
    (hbang : buff[0]? = some 33)
    (hrec : detectHistoryCommands ha buff tokens = some r) (hfail : r.status = 0) :
    iteration ha input_buffer env = some
      { ha := ha, input_buffer := buff, flow := .prompt
        events := [.write STDOUT_FILENO (cstr env.cwd), .write STDOUT_FILENO (lit "$ "),
          .write STDOUT_FILENO unknownHistory] } := by
  have hr := detectHistoryCommands_fail ha buff tokens r hrec hfail
  subst hr
  simp only [iteration, hread, Option.some_bind, hbang, if_true, hrec]
  rfl

/-- What `read_command` makes of the line `!!`. -/
theorem read_command_bang_bang (input_buffer : List Nat)
    (hlen : input_buffer.length = COMMAND_LENGTH) :
    read_command input_buffer (.bytes (lit "!!\n")) = some
      (.ok (33 :: 33 :: 0 :: 0 :: input_buffer.drop 4) [some (lit "!!"), none] false) := by
  have h1 : lit "!!\n" = [33, 33, 10] := by decide
  have h2 : lit "!!" = [33, 33] := by decide
  have h3 : lit "&" = [38] := by decide
  simp only [COMMAND_LENGTH] at hlen
  simp [read_command, h1, h2, h3, hlen, COMMAND_LENGTH, cstr_cons, tokenize_command, strnlen,
    tokenizeLoop, isDelim]



theorem bufferOf_length (s : List Nat) (h : s.length ≤ COMMAND_LENGTH) :
    (bufferOf s).length = COMMAND_LENGTH := by
  simp only [bufferOf, List.length_append, List.length_replicate]
  omega

/-- Recall `!!` on a ring with `size = 0`. -/
theorem detect_bang_bang_empty (ha : historyArray) (c0 : Nat) (tail : List Nat)
    (toks : List (Option (List Nat))) (hsize : ha.size = 0) :
    detectHistoryCommands ha (c0 :: 33 :: tail) toks = some
      { status := 0, input_buffer := c0 :: 33 :: tail, tokens := toks,
        written := [unknownHistory] } := by
  simp [detectHistoryCommands, hsize]

/-- C7: on a ring with `size = 0` the recall `!!` fails: `detectHistoryCommands` writes the
message and returns 0, and the loop iteration for the line `!!` ends at the prompt with the
ring (`firstItem`, `lastItem`, `size` and every slot) exactly as before. -/
theorem recall_last_on_empty_ring (ha : historyArray) (input_buffer : List Nat) (env : Env)
    (toks : List (Option (List Nat))) (hsize : ha.size = 0)
    (hlen : input_buffer.length = COMMAND_LENGTH) (hin : env.input = .bytes (lit "!!\n")) :
    detectHistoryCommands ha (33 :: 33 :: 0 :: 0 :: input_buffer.drop 4) toks = some
      { status := 0, input_buffer := 33 :: 33 :: 0 :: 0 :: input_buffer.drop 4, tokens := toks,
        written := [unknownHistory] } ∧
    iteration ha input_buffer env = some
      { ha := ha, input_buffer := 33 :: 33 :: 0 :: 0 :: input_buffer.drop 4, flow := .prompt
        events := [.write STDOUT_FILENO (cstr env.cwd), .write STDOUT_FILENO (lit "$ "),
          .write STDOUT_FILENO unknownHistory] } := by
  refine ⟨detect_bang_bang_empty ha 33 _ toks hsize, ?_⟩
  have hread := read_command_bang_bang input_buffer hlen
  rw [← hin] at hread
  exact iteration_recall_failed ha input_buffer env _ _ false _ hread rfl
    (detect_bang_bang_empty ha 33 _ _ hsize) rfl

theorem recall_last_on_empty_ring_witness :
    (createHistoryArray sampleHeap).size = 0 ∧ (bufferOf []).length = COMMAND_LENGTH ∧
    detectHistoryCommands (createHistoryArray sampleHeap)
        (33 :: 33 :: 0 :: 0 :: (bufferOf []).drop 4) [] = some
      { status := 0, input_buffer := 33 :: 33 :: 0 :: 0 :: (bufferOf []).drop 4, tokens := [],
        written := [unknownHistory] } ∧
    iteration (createHistoryArray sampleHeap) (bufferOf [])
        { cwd := lit "/", input := .bytes (lit "!!\n"), chdirFails := false,
          forkFails := false } = some
      { ha := createHistoryArray sampleHeap
        input_buffer := 33 :: 33 :: 0 :: 0 :: (bufferOf []).drop 4, flow := .prompt
        events := [.write STDOUT_FILENO (cstr (lit "/")), .write STDOUT_FILENO (lit "$ "),
          .write STDOUT_FILENO unknownHistory] } :=
  have hl : (bufferOf []).length = COMMAND_LENGTH := bufferOf_length [] (by decide)
  ⟨rfl, hl,
    recall_last_on_empty_ring (createHistoryArray sampleHeap) (bufferOf [])
      { cwd := lit "/", input := .bytes (lit "!!\n"), chdirFails := false, forkFails := false }
      [] rfl hl rfl⟩

/-- Recall `!!` on a ring that records a non-empty command sequence. -/
theorem recall_last_tracks (ha : historyArray) (cmds : List (List (List Nat) × Bool))
    (c0 : Nat) (tail : List Nat) (toks : List (Option (List Nat)))
    (htr : Tracks ha cmds) (hsize : 0 < ha.size)
    (hbuf : (c0 :: 33 :: tail).length = COMMAND_LENGTH) :
    ∃ c, cmds.getLast? = some c ∧
      storedText ha ha.lastItem = some (serialize c.1 c.2) ∧
      detectHistoryCommands ha (c0 :: 33 :: tail) toks = some
        { status := 1
          input_buffer := (tokenize_command (serialize c.1 c.2 ++
            0 :: (c0 :: 33 :: tail).drop ((serialize c.1 c.2).length + 1))).buff
          tokens := (tokenize_command (serialize c.1 c.2 ++
            0 :: (c0 :: 33 :: tail).drop ((serialize c.1 c.2).length + 1))).tokens
          written := [serialize c.1 c.2, lit "\n"] } := by
  have hL := htr.last
  have hS := htr.size
  have hF := htr.first
  simp only [MAX_HISTORY] at hS hF
  have hn : 0 < cmds.length := by omega
  have hidx : ha.lastItem - 1 < cmds.length := by omega
  have hget : cmds[ha.lastItem - 1]? = some cmds[ha.lastItem - 1] :=
    List.getElem?_eq_getElem hidx
  have htext := htr.text ha.lastItem _ (by omega) hget
  refine ⟨cmds[ha.lastItem - 1], ?_, htext, ?_⟩
  · rw [List.getLast?_eq_getElem?, ← hL]; exact hget
  · generalize cmds[ha.lastItem - 1] = c at htext ⊢
    simp only [storedText] at htext
    cases hs : ha.items[ha.lastItem % MAX_HISTORY]? with
    | none => simp [hs] at htext
    | some slot =>
      simp only [hs, Option.some_bind] at htext
      have hz : 0 ∈ slot := by
        by_contra hn
        simp [hn] at htext
      simp only [hz, if_true, Option.some.injEq] at htext
      obtain ⟨hsl, _⟩ := htr.ok.slots slot (List.getElem?_mem hs)
      have hrec := recallSlot_spec (c0 :: 33 :: tail) slot hz (by rw [hsl, hbuf])
      rw [htext] at hrec
      have hs0 : ha.size ≠ 0 := by omega
      simp only [detectHistoryCommands, List.getElem?_cons_succ, List.getElem?_cons_zero,
        Option.some_bind, if_true, hs0, if_false, hs]
      exact hrec



/-- C8: in every non-empty ring state reached by appends (`size > 0`), the recall `!!`
succeeds and resolves to the stored text of the most recently appended command, and the
recall `!N` with `N = lastItem` succeeds and resolves to the very same text. -/
theorem recall_last_eq_recall_lastItem (heap : Nat → Nat → Nat)
    (cmds : List (List (List Nat) × Bool)) (ha : historyArray)
    (tail ds tail' : List Nat) (toks toks' : List (Option (List Nat)))
    (hreach : appendAll (createHistoryArray heap) cmds = some ha) (hsize : 0 < ha.size)
    (hbuf : (33 :: 33 :: tail).length = COMMAND_LENGTH)
    (hne : ds ≠ []) (hdig : ∀ d ∈ ds, 48 ≤ d ∧ d < 58) (hval : digitsValue ds 0 = ha.lastItem)
    (hbuf' : (33 :: (ds ++ 0 :: tail')).length = COMMAND_LENGTH) :
    ∃ c, cmds.getLast? = some c ∧
      storedText ha ha.lastItem = some (serialize c.1 c.2) ∧
      detectHistoryCommands ha (33 :: 33 :: tail) toks = some
        { status := 1
          input_buffer := (tokenize_command (serialize c.1 c.2 ++
            0 :: (33 :: 33 :: tail).drop ((serialize c.1 c.2).length + 1))).buff
          tokens := (tokenize_command (serialize c.1 c.2 ++
            0 :: (33 :: 33 :: tail).drop ((serialize c.1 c.2).length + 1))).tokens
          written := [serialize c.1 c.2, lit "\n"] } ∧
      detectHistoryCommands ha (33 :: (ds ++ 0 :: tail')) toks' = some
        { status := 1
          input_buffer := (tokenize_command (serialize c.1 c.2 ++
            0 :: (33 :: (ds ++ 0 :: tail')).drop ((serialize c.1 c.2).length + 1))).buff
          tokens := (tokenize_command (serialize c.1 c.2 ++
            0 :: (33 :: (ds ++ 0 :: tail')).drop ((serialize c.1 c.2).length + 1))).tokens
          written := [serialize c.1 c.2, lit "\n"] } := by
  obtain ⟨htr, hint⟩ := reachable_tracks heap cmds ha hreach
  obtain ⟨c, hc, htext, hdet⟩ := recall_last_tracks ha cmds 33 tail toks htr hsize hbuf
  have hS := htr.size
  have hF := htr.first
  have hL := htr.last
  simp only [MAX_HISTORY] at hS hF
  obtain ⟨c', hc', _, hdet'⟩ := recall_number_tracks ha cmds ds tail' toks' htr hint hne hdig
    (by omega) (by omega) hbuf'
  have hcc : c' = c := by
    rw [List.getLast?_eq_getElem?] at hc
    rw [hval, hL, hc] at hc'
    exact (Option.some.inj hc').symm
  subst hcc
  exact ⟨c', hc, htext, hdet, hdet'⟩

theorem recall_last_eq_recall_lastItem_witness :
    appendAll (createHistoryArray sampleHeap) exampleCmds = some exampleRing ∧
    0 < exampleRing.size ∧
    (33 :: 33 :: 0 :: List.replicate 1021 0).length = COMMAND_LENGTH ∧
    lit "2" ≠ [] ∧ (∀ d ∈ lit "2", 48 ≤ d ∧ d < 58) ∧
    digitsValue (lit "2") 0 = exampleRing.lastItem ∧
    (33 :: (lit "2" ++ 0 :: List.replicate 1021 0)).length = COMMAND_LENGTH ∧
    ∃ c, exampleCmds.getLast? = some c ∧
      storedText exampleRing exampleRing.lastItem = some (serialize c.1 c.2) ∧
      detectHistoryCommands exampleRing (33 :: 33 :: 0 :: List.replicate 1021 0) [] = some
        { status := 1
          input_buffer := (tokenize_command (serialize c.1 c.2 ++
            0 :: (33 :: 33 :: 0 :: List.replicate 1021 0).drop
              ((serialize c.1 c.2).length + 1))).buff
          tokens := (tokenize_command (serialize c.1 c.2 ++
            0 :: (33 :: 33 :: 0 :: List.replicate 1021 0).drop
              ((serialize c.1 c.2).length + 1))).tokens
          written := [serialize c.1 c.2, lit "\n"] } ∧
      detectHistoryCommands exampleRing (33 :: (lit "2" ++ 0 :: List.replicate 1021 0)) [] = some
        { status := 1
          input_buffer := (tokenize_command (serialize c.1 c.2 ++
            0 :: (33 :: (lit "2" ++ 0 :: List.replicate 1021 0)).drop
              ((serialize c.1 c.2).length + 1))).buff
          tokens := (tokenize_command (serialize c.1 c.2 ++
            0 :: (33 :: (lit "2" ++ 0 :: List.replicate 1021 0)).drop
              ((serialize c.1 c.2).length + 1))).tokens
          written := [serialize c.1 c.2, lit "\n"] } :=
  have hs : 0 < exampleRing.size := by
    have := (reachable_tracks _ _ _ exampleRing_reach).1.size
    rw [this]; decide
  have hb : (33 :: 33 :: 0 :: List.replicate 1021 0).length = COMMAND_LENGTH := by
    simp only [List.length_cons, List.length_replicate]; decide
  have hv : digitsValue (lit "2") 0 = exampleRing.lastItem := by
    rw [exampleRing_last]; decide
  have hb' : (33 :: (lit "2" ++ 0 :: List.replicate 1021 0)).length = COMMAND_LENGTH := by
    rw [List.length_cons, List.length_append, List.length_cons, List.length_replicate]
    decide
  ⟨exampleRing_reach, hs, hb, by decide, by decide, hv, hb',
    recall_last_eq_recall_lastItem sampleHeap exampleCmds exampleRing _ (lit "2") _ [] []
      exampleRing_reach hs hb (by decide) (by decide) hv hb'⟩

/-- C9 (counterexample): the lines `!!abc` and `!1 abc` begin with `!`, are not `!!` and are
not `!` followed only by digits, yet on the ring holding `ls -la` and `echo hi &` their
recall succeeds: `detectHistoryCommands` returns 1 and echoes `echo hi &`, respectively
`ls -la`, not the message. -/
theorem recall_forms_counterexample :
    (lit "!!abc").head? = some 33 ∧ lit "!!abc" ≠ lit "!!" ∧ isBangDigits (lit "!!abc") = false ∧
    (lit "!1 abc").head? = some 33 ∧ lit "!1 abc" ≠ lit "!!" ∧
    isBangDigits (lit "!1 abc") = false ∧
    (∃ buff tokens bg,
      read_command (bufferOf []) (.bytes (lit "!!abc\n")) = some (.ok buff tokens bg) ∧
      (detectHistoryCommands exampleRing buff tokens).map (fun r => (r.status, r.written)) =
        some (1, [lit "echo hi &", lit "\n"])) ∧
    (∃ buff tokens bg,
      read_command (bufferOf []) (.bytes (lit "!1 abc\n")) = some (.ok buff tokens bg) ∧
      (detectHistoryCommands exampleRing buff tokens).map (fun r => (r.status, r.written)) =
        some (1, [lit "ls -la", lit "\n"])) := by
  refine ⟨by decide, by decide, by decide, by decide, by decide, by decide,
    ⟨bufferOf (lit "!!abc"), [some (lit "!!abc"), none], false, by decide, by decide⟩,
    ⟨lit "!1" ++ 0 :: lit "abc" ++ List.replicate 1018 0,
      [some (lit "!1"), some (lit "abc"), none], false, by decide, by decide⟩⟩



/-! ## Facts about `tokenize_command` and `read_command` -/

/-- The loop of `tokenize_command` rewrites every delimiter to NUL and keeps the rest. -/
theorem tokenizeLoop_fst (l : List Nat) :
    ∀ (i : Nat) (t : Bool),
      (tokenizeLoop l i t).1 = l.map fun c => if isDelim c = true then 0 else c := by
  induction l with
  | nil => intro i t; rfl
  | cons c cs ih =>
    intro i t
    by_cases h : isDelim c = true
    · simp only [tokenizeLoop, h, if_true, List.map_cons, ih]
    · simp only [tokenizeLoop, h, if_false, List.map_cons, ih]
      simp

/-- The string at the start of a tokenized line is the line's leading run of
non-delimiters. -/
theorem cstr_map_delim (l tail : List Nat) (h0 : 0 ∉ l) :
    cstr ((l.map fun c => if isDelim c = true then 0 else c) ++ 0 :: tail) =
      l.takeWhile fun c => !isDelim c := by
  induction l with
  | nil => simp [cstr_cons]
  | cons c cs ih =>
    have hc : c ≠ 0 := fun e => h0 (by simp [e])
    have hcs : 0 ∉ cs := fun e => h0 (List.mem_cons_of_mem _ e)
    by_cases h : isDelim c = true
    · simp [cstr_cons, h, List.takeWhile_cons]
    · simp [cstr_cons, h, hc, List.takeWhile_cons, ih hcs]

/-- What `read_command` leaves in the buffer for a line ended by a newline: the line with
its delimiters rewritten to NUL, so that the string at the start of the buffer is the line's
leading run of non-delimiters (its first word, when the line does not start with a
delimiter). -/
theorem read_command_line (input_buffer line : List Nat)
    (hlen : input_buffer.length = COMMAND_LENGTH) (hline : line.length + 1 < COMMAND_LENGTH)
    (h0 : 0 ∉ line) :
    ∃ buff tokens bg,
      read_command input_buffer (.bytes (line ++ [10])) = some (.ok buff tokens bg) ∧
      buff = (line.map fun c => if isDelim c = true then 0 else c) ++
        0 :: 0 :: input_buffer.drop (line.length + 2) ∧
      0 ∈ buff ∧ cstr buff = line.takeWhile fun c => !isDelim c := by
  simp only [COMMAND_LENGTH] at hlen hline
  have hc1 : cstr (line ++ [10] ++ 0 :: input_buffer.drop ((line ++ [10]).length + 1)) =
      line ++ [10] := cstr_append_nul _ _ (by simp [h0])
  have hcond : (line ++ [10]).length ≤ COMMAND_LENGTH - 1 ∧
      (line ++ [10]).length < input_buffer.length := by
    simp only [List.length_append, List.length_singleton, COMMAND_LENGTH, hlen]; omega
  have hn : (line ++ [10]).length ≠ 0 := by simp
  have hget : (line ++ [10] ++ 0 :: input_buffer.drop ((line ++ [10]).length + 1))[
      (line ++ [10]).length - 1]? = some 10 := by
    have : (line ++ [10]).length - 1 = line.length := by simp
    rw [this, List.append_assoc, List.getElem?_append_right (Nat.le_refl _)]
    simp
  have hset : (line ++ [10] ++ 0 :: input_buffer.drop ((line ++ [10]).length + 1)).set
      ((line ++ [10]).length - 1) 0 = line ++ 0 :: 0 :: input_buffer.drop (line.length + 2) := by
    simp [List.set_append_left, List.set_append_right]
  have hc2 : cstr (line ++ 0 :: 0 :: input_buffer.drop (line.length + 2)) = line :=
    cstr_append_nul _ _ h0
  have hmin : min line.length COMMAND_LENGTH = line.length := by
    simp only [COMMAND_LENGTH]; omega
  have htok : (tokenize_command (line ++ 0 :: 0 :: input_buffer.drop (line.length + 2))).buff =
      (line.map fun c => if isDelim c = true then 0 else c) ++
        0 :: 0 :: input_buffer.drop (line.length + 2) := by
    simp only [tokenize_command, strnlen, hc2, hmin, List.take_left', List.drop_left',
      tokenizeLoop_fst]
  have hres : ∀ c : Command, (∃ t b, c = .ok
      (tokenize_command (line ++ 0 :: 0 :: input_buffer.drop (line.length + 2))).buff t b) →
      ∃ buff tokens bg, some c = some (Command.ok buff tokens bg) ∧
        buff = (line.map fun c => if isDelim c = true then 0 else c) ++
          0 :: 0 :: input_buffer.drop (line.length + 2) ∧
        0 ∈ buff ∧ cstr buff = line.takeWhile fun c => !isDelim c := by
    rintro c ⟨t, b, rfl⟩
    refine ⟨_, t, b, rfl, htok, ?_, ?_⟩
    · rw [htok]; simp
    · rw [htok]; exact cstr_map_delim line _ h0
  simp only [read_command, hcond, and_self, if_true, hc1, hn, if_false, hget, hset]
  split
  · exact hres _ ⟨_, _, rfl⟩
  · split
    · exact hres _ ⟨_, _, rfl⟩
    · exact hres _ ⟨_, _, rfl⟩



/-- A buffer whose string is `!` followed by `w` fails to resolve when `w` does not start
with `!` and `!w` is not `!<digits>`. -/
theorem detect_unknown_form (ha : historyArray) (buf w : List Nat)
    (toks : List (Option (List Nat))) (hz : 0 ∈ buf) (hw : cstr buf = 33 :: w)
    (h1 : w.head? ≠ some 33) (h2 : isBangDigits (33 :: w) = false) :
    detectHistoryCommands ha buf toks = some
      { status := 0, input_buffer := buf, tokens := toks, written := [unknownHistory] } := by
  have hsplit := buf_split buf hz
  have hw0 : 0 ∉ w := by
    have := cstr_no_nul buf
    rw [hw] at this
    exact fun e => this (List.mem_cons_of_mem _ e)
  rw [hw] at hsplit
  generalize buf.drop ((33 :: w).length + 1) = tail at hsplit
  subst hsplit
  cases w with
  | nil => simp [detectHistoryCommands]
  | cons c w' =>
    have hc33 : c ≠ 33 := by simpa using h1
    by_cases hd : 48 ≤ c ∧ c < 58
    · have hbad : ∃ x ∈ w', ¬ (48 ≤ x ∧ x < 58) := by
        simp only [isBangDigits, List.all_cons, hd, and_self, decide_True, Bool.true_and,
          List.all_eq_false, decide_eq_true_eq] at h2
        exact h2
      have hscan := digitScan_nondigit w' tail (fun e => hw0 (List.mem_cons_of_mem _ e)) hbad
      simp only [detectHistoryCommands, List.cons_append, List.getElem?_cons_succ,
        List.getElem?_cons_zero, Option.some_bind, hc33, if_false, ge_iff_le, hd.1, hd.2,
        and_self, if_true, List.drop_succ_cons, List.drop_zero, hscan]
    · have hd' : ¬ (c ≥ 48 ∧ c < 58) := hd
      simp only [detectHistoryCommands, List.cons_append, List.getElem?_cons_succ,
        List.getElem?_cons_zero, Option.some_bind, hc33, if_false, hd']

/-- C9 (amended): for every ring and every input line whose first word is `!` followed by
`w`, where `w` does not start with `!` and `!w` is not `!` followed only by one or more
decimal digits, `read_command` is defined and `detectHistoryCommands` writes
`SHELL: Unknown history command.\n` and returns 0. -/
theorem recall_unknown_form (ha : historyArray) (input_buffer line w : List Nat)
    (hlen : input_buffer.length = COMMAND_LENGTH) (hline : line.length + 1 < COMMAND_LENGTH)
    (h0 : 0 ∉ line) (hw : (line.takeWhile fun c => !isDelim c) = 33 :: w)
    (h1 : w.head? ≠ some 33) (h2 : isBangDigits (33 :: w) = false) :
    ∃ buff tokens bg,
      read_command input_buffer (.bytes (line ++ [10])) = some (.ok buff tokens bg) ∧
      buff[0]? = some 33 ∧
      detectHistoryCommands ha buff tokens = some
        { status := 0, input_buffer := buff, tokens := tokens, written := [unknownHistory] } := by
  obtain ⟨buff, tokens, bg, hread, _, hz, hc⟩ := read_command_line input_buffer line hlen hline h0
  refine ⟨buff, tokens, bg, hread, ?_, ?_⟩
  · have := buf_split buff hz
    rw [hc, hw] at this
    rw [this]; simp
  · exact detect_unknown_form ha buff w tokens hz (hc.trans hw) h1 h2

theorem recall_unknown_form_witness :
    (bufferOf []).length = COMMAND_LENGTH ∧ (lit "!ls -la").length + 1 < COMMAND_LENGTH ∧
    0 ∉ lit "!ls -la" ∧ ((lit "!ls -la").takeWhile fun c => !isDelim c) = 33 :: lit "ls" ∧
    (lit "ls").head? ≠ some 33 ∧ isBangDigits (33 :: lit "ls") = false ∧
    ∃ buff tokens bg,
      read_command (bufferOf []) (.bytes (lit "!ls -la" ++ [10])) = some (.ok buff tokens bg) ∧
      buff[0]? = some 33 ∧
      detectHistoryCommands exampleRing buff tokens = some
        { status := 0, input_buffer := buff, tokens := tokens, written := [unknownHistory] } :=
  ⟨bufferOf_length [] (by decide), by decide, by decide, by decide, by decide, by decide,
    recall_unknown_form exampleRing (bufferOf []) (lit "!ls -la") (lit "ls")
      (bufferOf_length [] (by decide)) (by decide) (by decide) (by decide) (by decide)
      (by decide)⟩

/-- C10: for every ring state and every input line beginning with `!` whose recall
resolution fails (`detectHistoryCommands` returns 0: empty ring, index out of range,
malformed digits or unknown form), the loop iteration goes back to the prompt with the ring
unchanged (`firstItem`, `lastItem`, `size` and all slots), and the only actions performed are
the writes of the prompt and of the message: nothing is forked, executed or dispatched. -/
theorem failed_recall_abandons_iteration (ha : historyArray) (input_buffer : List Nat)
    (env : Env) (buff : List Nat) (tokens : List (Option (List Nat))) (bg : Bool) (r : Recall)
    (hread : read_command input_buffer env.input = some (.ok buff tokens bg))
    (hbang : buff[0]? = some 33)
    (hrec : detectHistoryCommands ha buff tokens = some r) (hfail : r.status = 0) :
    iteration ha input_buffer env = some
      { ha := ha, input_buffer := buff, flow := .prompt
        events := [.write STDOUT_FILENO (cstr env.cwd), .write STDOUT_FILENO (lit "$ "),
          .write STDOUT_FILENO unknownHistory] } :=
  iteration_recall_failed ha input_buffer env buff tokens bg r hread hbang hrec hfail

theorem failed_recall_abandons_iteration_witness :
    read_command (bufferOf [])
        (Env.mk (lit "/home") (.bytes (lit "!3\n")) false false).input =
      some (.ok (bufferOf (lit "!3")) [some (lit "!3"), none] false) ∧
    (bufferOf (lit "!3"))[0]? = some 33 ∧
    detectHistoryCommands exampleRing (bufferOf (lit "!3")) [some (lit "!3"), none] =
      some { status := 0, input_buffer := bufferOf (lit "!3"),
             tokens := [some (lit "!3"), none], written := [unknownHistory] } ∧
    iteration exampleRing (bufferOf []) (Env.mk (lit "/home") (.bytes (lit "!3\n")) false false) =
      some
        { ha := exampleRing, input_buffer := bufferOf (lit "!3"), flow := .prompt
          events := [.write STDOUT_FILENO (cstr (lit "/home")),
            .write STDOUT_FILENO (lit "$ "), .write STDOUT_FILENO unknownHistory] } :=
  have h1 : read_command (bufferOf [])
        (Env.mk (lit "/home") (.bytes (lit "!3\n")) false false).input =
      some (.ok (bufferOf (lit "!3")) [some (lit "!3"), none] false) := by decide
  have h2 : detectHistoryCommands exampleRing (bufferOf (lit "!3")) [some (lit "!3"), none] =
      some { status := 0, input_buffer := bufferOf (lit "!3"),
             tokens := [some (lit "!3"), none], written := [unknownHistory] } := by decide
  ⟨h1, by decide, h2,
    failed_recall_abandons_iteration exampleRing (bufferOf [])
      (Env.mk (lit "/home") (.bytes (lit "!3\n")) false false) (bufferOf (lit "!3"))
      [some (lit "!3"), none] false _ h1 (by decide) h2 rfl⟩



/-- C11: every ring state reached from `createHistoryArray` by `addToHistoryArray` calls has
`firstItem ≥ 1`, `size ≤ 10` and `size = lastItem - firstItem + 1`; and an append of a line
that fits (counter below `INT_MAX`) is defined and increases `lastItem` by exactly 1,
increasing `size` when `size < 10` and otherwise increasing `firstItem` by 1. -/
theorem ring_counters_invariant (heap : Nat → Nat → Nat)
    (cmds : List (List (List Nat) × Bool)) (ha : historyArray) (toks : List (List Nat))
    (bg : Bool) (hreach : appendAll (createHistoryArray heap) cmds = some ha)
    (hint : ha.lastItem < INT_MAX) (hfit : Fits (toks, bg)) :
    1 ≤ ha.firstItem ∧ ha.size ≤ MAX_HISTORY ∧ ha.size + ha.firstItem = ha.lastItem + 1 ∧
    ∃ ha', addToHistoryArray ha toks bg = some ha' ∧ ha'.lastItem = ha.lastItem + 1 ∧
      (ha.size < MAX_HISTORY → ha'.size = ha.size + 1 ∧ ha'.firstItem = ha.firstItem) ∧
      (¬ ha.size < MAX_HISTORY → ha'.size = ha.size ∧ ha'.firstItem = ha.firstItem + 1) := by
  obtain ⟨htr, _⟩ := reachable_tracks heap cmds ha hreach
  have hL := htr.last
  have hS := htr.size
  have hF := htr.first
  obtain ⟨ha', _, hadd, hlast, hfirst, hsize, _⟩ :=
    addToHistoryArray_spec ha toks bg htr.ok hint hfit
  simp only [MAX_HISTORY] at hS hF hfirst hsize ⊢
  refine ⟨by omega, by omega, by omega, ha', hadd, hlast, ?_, ?_⟩
  · intro h
    rw [hfirst, hsize]
    have : ha.size ≠ 10 := by omega
    simp [this]
  · intro h
    rw [hfirst, hsize]
    have : ha.size = 10 := by omega
    simp [this]

theorem ring_counters_invariant_witness :
    appendAll (createHistoryArray sampleHeap) (sampleCmds 12) =
      some (ringAfter sampleHeap (sampleCmds 12)) ∧
    (ringAfter sampleHeap (sampleCmds 12)).lastItem < INT_MAX ∧ Fits ([lit "ls"], true) ∧
    1 ≤ (ringAfter sampleHeap (sampleCmds 12)).firstItem ∧
    (ringAfter sampleHeap (sampleCmds 12)).size ≤ MAX_HISTORY ∧
    (ringAfter sampleHeap (sampleCmds 12)).size + (ringAfter sampleHeap (sampleCmds 12)).firstItem
      = (ringAfter sampleHeap (sampleCmds 12)).lastItem + 1 ∧
    ∃ ha', addToHistoryArray (ringAfter sampleHeap (sampleCmds 12)) [lit "ls"] true = some ha' ∧
      ha'.lastItem = (ringAfter sampleHeap (sampleCmds 12)).lastItem + 1 ∧
      ((ringAfter sampleHeap (sampleCmds 12)).size < MAX_HISTORY →
        ha'.size = (ringAfter sampleHeap (sampleCmds 12)).size + 1 ∧
        ha'.firstItem = (ringAfter sampleHeap (sampleCmds 12)).firstItem) ∧
      (¬ (ringAfter sampleHeap (sampleCmds 12)).size < MAX_HISTORY →
        ha'.size = (ringAfter sampleHeap (sampleCmds 12)).size ∧
        ha'.firstItem = (ringAfter sampleHeap (sampleCmds 12)).firstItem + 1) :=
  have hr := ringAfter_eq sampleHeap (sampleCmds 12) (by decide) (by decide)
  have hl : (ringAfter sampleHeap (sampleCmds 12)).lastItem < INT_MAX := by
    rw [(reachable_tracks _ _ _ hr).1.last]; decide
  ⟨hr, hl, by decide,
    ring_counters_invariant sampleHeap (sampleCmds 12) _ [lit "ls"] true hr hl (by decide)⟩



theorem splitOnP_head (l : List Nat) :
    ∃ t, l.splitOnP isDelim = (l.takeWhile fun c => !isDelim c) :: t := by
  induction l with
  | nil => exact ⟨[], by simp [List.splitOnP_nil]⟩
  | cons c cs ih =>
    obtain ⟨t, ht⟩ := ih
    rw [List.splitOnP_cons]
    by_cases h : isDelim c = true
    · exact ⟨cs.splitOnP isDelim, by simp [h, List.takeWhile_cons]⟩
    · exact ⟨t, by simp [h, ht, List.takeWhile_cons]⟩

theorem splitOnP_pieces (l : List Nat) :
    ∀ w ∈ l.splitOnP isDelim, ∀ c ∈ w, c ∈ l ∧ isDelim c = false := by
  induction l with
  | nil => intro w hw c hc; simp [List.splitOnP_nil] at hw; subst hw; simp at hc
  | cons x xs ih =>
    intro w hw c hc
    rw [List.splitOnP_cons] at hw
    by_cases h : isDelim x = true
    · simp only [h, if_true, List.mem_cons] at hw
      rcases hw with rfl | hw
      · simp at hc
      · exact ⟨List.mem_cons_of_mem _ (ih w hw c hc).1, (ih w hw c hc).2⟩
    · simp only [h] at hw
      cases hs : xs.splitOnP isDelim with
      | nil => simp [hs] at hw
      | cons p ps =>
        rw [hs] at hw ih
        simp only [Bool.false_eq_true, if_false, List.modifyHead_cons, List.mem_cons] at hw
        rcases hw with rfl | hw
        · rcases List.mem_cons.mp hc with rfl | hc'
          · exact ⟨List.mem_cons_self _ _, by simpa using h⟩
          · have := ih p (List.mem_cons_self _ _) c hc'
            exact ⟨List.mem_cons_of_mem _ this.1, this.2⟩
        · have := ih w (List.mem_cons_of_mem _ hw) c hc
          exact ⟨List.mem_cons_of_mem _ this.1, this.2⟩

/-- Every word is non-empty, holds no delimiter, and is made of characters of the line. -/
theorem wordsOf_word (s w : List Nat) (hw : w ∈ wordsOf s) :
    w ≠ [] ∧ ∀ c ∈ w, c ∈ s ∧ isDelim c = false := by
  simp only [wordsOf, List.mem_filter] at hw
  refine ⟨?_, splitOnP_pieces s w hw.1⟩
  intro e; subst e; simp at hw



theorem tokenizeLoop_snd_shift (l : List Nat) :
    ∀ (i : Nat) (t : Bool),
      (tokenizeLoop l i t).2 = (tokenizeLoop l 0 t).2.map fun j => j + i := by
  induction l with
  | nil => intro i t; rfl
  | cons c cs ih =>
    intro i t
    by_cases h : isDelim c = true
    · simp only [tokenizeLoop, h, if_true]
      rw [ih (i + 1) false, ih (0 + 1) false]
      simp [Nat.add_assoc, Nat.add_comm 1 i]
    · simp only [tokenizeLoop, h]
      rw [ih (i + 1) true, ih (0 + 1) true]
      cases t <;> simp [Nat.add_assoc, Nat.add_comm 1 i]

/-- The strings the token pointers of the loop of `tokenize_command` point to, read from the
rewritten bytes followed by a terminator: the non-empty pieces of the line, without the first
piece when the loop is entered inside a token. -/
theorem tokenizeLoop_strings (l : List Nat) (h0 : 0 ∉ l) (tail : List Nat) :
    ∀ t : Bool,
      ((tokenizeLoop l 0 t).2.map fun j =>
        cstr (((l.map fun c => if isDelim c = true then 0 else c) ++ 0 :: tail).drop j)) =
      ((l.splitOnP isDelim).drop (if t = true then 1 else 0)).filter fun w => !w.isEmpty := by
  induction l with
  | nil => intro t; cases t <;> simp [tokenizeLoop, List.splitOnP_nil]
  | cons c cs ih =>
    intro t
    have hc0 : c ≠ 0 := fun e => h0 (by simp [e])
    have hcs : 0 ∉ cs := fun e => h0 (List.mem_cons_of_mem _ e)
    have ih' := ih hcs
    rw [List.splitOnP_cons]
    by_cases h : isDelim c = true
    · have := ih' false
      simp only [Bool.false_eq_true, if_false, List.drop_zero] at this
      simp only [tokenizeLoop, h, if_true, List.map_cons, List.cons_append]
      rw [tokenizeLoop_snd_shift cs (0 + 1) false, List.map_map]
      cases t
      · simpa using this
      · simpa using this
    · obtain ⟨p, hp⟩ := splitOnP_head cs
      have := ih' true
      rw [hp] at this ⊢
      simp only [if_true, List.drop_succ_cons, List.drop_zero] at this
      simp only [tokenizeLoop, h, List.map_cons, List.cons_append]
      rw [tokenizeLoop_snd_shift cs (0 + 1) true]
      cases t
      · have hfirst := cstr_map_delim (c :: cs) tail h0
        simp only [List.map_cons, h, List.cons_append, List.takeWhile_cons] at hfirst
        simp only [Bool.false_eq_true, if_false, List.map_cons, List.drop_zero, List.map_map,
          List.modifyHead_cons]
        rw [List.filter_cons_of_pos (by simp)]
        congr 1
      · simp only [if_true, List.map_map, List.modifyHead_cons, List.drop_succ_cons,
          List.drop_zero]
        simpa using this



/-- What `tokenize_command` computes on a terminated buffer of at most `COMMAND_LENGTH`
characters. -/
theorem tokenize_command_eq (buff : List Nat) (hz : 0 ∈ buff)
    (hlen : (cstr buff).length ≤ COMMAND_LENGTH) :
    tokenize_command buff =
      { buff := ((cstr buff).map fun c => if isDelim c = true then 0 else c) ++
          buff.drop (cstr buff).length
        tokens := (wordsOf (cstr buff)).map some ++ [none]
        token_count := (wordsOf (cstr buff)).length } := by
  have hmin : min (cstr buff).length COMMAND_LENGTH = (cstr buff).length := by omega
  have hstr := tokenizeLoop_strings (cstr buff) (cstr_no_nul buff)
    (buff.drop ((cstr buff).length + 1)) false
  simp only [Bool.false_eq_true, if_false, List.drop_zero] at hstr
  have hmap : (tokenizeLoop (cstr buff) 0 false).2.map (fun i => some (cstr
      ((((cstr buff).map fun c => if isDelim c = true then 0 else c) ++
        buff.drop (cstr buff).length).drop i))) = (wordsOf (cstr buff)).map some := by
    rw [wordsOf, ← hstr, List.map_map, drop_cstr buff hz]
    rfl
  have hcount : (tokenizeLoop (cstr buff) 0 false).2.length = (wordsOf (cstr buff)).length := by
    rw [wordsOf, ← hstr, List.length_map]
  simp only [tokenize_command, strnlen, hmin, take_cstr, tokenizeLoop_fst, hmap, hcount]

theorem argvOf_map_some (ws : List (List Nat)) (rest : List (Option (List Nat))) :
    argvOf (ws.map some ++ none :: rest) = ws := by
  induction ws with
  | nil => rfl
  | cons w ws ih => simp [argvOf, ih]

/-- C16: for every NUL-terminated buffer of fewer than `COMMAND_LENGTH` characters,
`tokenize_command` returns the number of words of the string, its tokens are exactly the
words (the maximal runs of characters other than space, tab and newline) in their order of
occurrence, every token is non-empty and holds no delimiter, and the token array has a null
entry at the index equal to the returned count. -/
theorem tokenize_command_words (buff : List Nat) (hz : 0 ∈ buff)
    (hlen : (cstr buff).length < COMMAND_LENGTH) :
    (tokenize_command buff).token_count = (wordsOf (cstr buff)).length ∧
    (tokenize_command buff).tokens = (wordsOf (cstr buff)).map some ++ [none] ∧
    argvOf (tokenize_command buff).tokens = wordsOf (cstr buff) ∧
    (∀ w ∈ wordsOf (cstr buff), w ≠ [] ∧ ∀ c ∈ w, isDelim c = false) ∧
    (tokenize_command buff).tokens[(tokenize_command buff).token_count]? = some none := by
  rw [tokenize_command_eq buff hz (Nat.le_of_lt hlen)]
  refine ⟨rfl, rfl, argvOf_map_some _ _, ?_, ?_⟩
  · intro w hw
    exact ⟨(wordsOf_word _ w hw).1, fun c hc => ((wordsOf_word _ w hw).2 c hc).2⟩
  · simp only
    rw [List.getElem?_append_right (by simp)]
    simp

theorem tokenize_command_words_witness :
    0 ∈ bufferOf (lit " ls  -la\t\tx &\n") ∧
    (cstr (bufferOf (lit " ls  -la\t\tx &\n"))).length < COMMAND_LENGTH ∧
    wordsOf (cstr (bufferOf (lit " ls  -la\t\tx &\n"))) = [lit "ls", lit "-la", lit "x", lit "&"] ∧
    (tokenize_command (bufferOf (lit " ls  -la\t\tx &\n"))).token_count =
      (wordsOf (cstr (bufferOf (lit " ls  -la\t\tx &\n")))).length ∧
    (tokenize_command (bufferOf (lit " ls  -la\t\tx &\n"))).tokens =
      (wordsOf (cstr (bufferOf (lit " ls  -la\t\tx &\n")))).map some ++ [none] ∧
    argvOf (tokenize_command (bufferOf (lit " ls  -la\t\tx &\n"))).tokens =
      wordsOf (cstr (bufferOf (lit " ls  -la\t\tx &\n"))) ∧
    (∀ w ∈ wordsOf (cstr (bufferOf (lit " ls  -la\t\tx &\n"))),
      w ≠ [] ∧ ∀ c ∈ w, isDelim c = false) ∧
    (tokenize_command (bufferOf (lit " ls  -la\t\tx &\n"))).tokens[
      (tokenize_command (bufferOf (lit " ls  -la\t\tx &\n"))).token_count]? = some none :=
  ⟨by decide, by decide, by decide,
    tokenize_command_words (bufferOf (lit " ls  -la\t\tx &\n")) (by decide) (by decide)⟩



theorem splitOnP_append_delim (d : List Nat) (c : Nat) (hc : isDelim c = true) :
    (d ++ [c]).splitOnP isDelim = d.splitOnP isDelim ++ [[]] := by
  induction d with
  | nil => simp [List.splitOnP_cons, hc]
  | cons x xs ih =>
    rw [List.cons_append, List.splitOnP_cons, List.splitOnP_cons, ih]
    by_cases h : isDelim x = true
    · simp [h]
    · cases hs : xs.splitOnP isDelim with
      | nil => exact absurd hs (List.splitOnP_ne_nil _ _)
      | cons p ps => simp [h]

theorem wordsOf_append_delim (d : List Nat) (c : Nat) (hc : isDelim c = true) :
    wordsOf (d ++ [c]) = wordsOf d := by
  simp [wordsOf, splitOnP_append_delim d c hc]

theorem tokens_last (ws : List (List Nat)) (hne : ws ≠ []) :
    (ws.map some ++ [none])[ws.length - 1]? = some (some (ws.getLast hne)) ∧
    argvOf ((ws.map some ++ [none]).set (ws.length - 1) none) = ws.dropLast := by
  have hsplit := List.dropLast_append_getLast hne
  generalize ws.getLast hne = l at hsplit
  generalize hdl : ws.dropLast = dl at hsplit
  subst hsplit
  have hlen : (dl ++ [l]).length - 1 = (dl.map some).length := by simp
  rw [hlen]
  constructor
  · simp only [List.map_append, List.map_cons, List.map_nil, List.append_assoc]
    rw [List.getElem?_append_right (Nat.le_refl _)]
    simp
  · simp only [List.map_append, List.map_cons, List.map_nil, List.append_assoc]
    rw [List.set_append_right _ _ (Nat.le_refl _)]
    simp only [Nat.sub_self, List.cons_append, List.nil_append, List.set_cons_zero]
    exact argvOf_map_some dl _

/-- C17: for every non-empty line read (at most `COMMAND_LENGTH - 1` bytes, none of them NUL),
`read_command` is defined, sets `in_background` exactly when the line has a last word and that
word is `&`, and leaves as token sequence the words of the line without that one final `&`
when it is set, and the words of the line unchanged otherwise. -/
theorem read_command_background (input_buffer data : List Nat)
    (hlen : input_buffer.length = COMMAND_LENGTH) (hdata : data.length < COMMAND_LENGTH)
    (hne : data ≠ []) (h0 : 0 ∉ data) :
    ∃ buff tokens bg,
      read_command input_buffer (.bytes data) = some (.ok buff tokens bg) ∧
      (bg = true ↔ (wordsOf data).getLast? = some (lit "&")) ∧
      argvOf tokens = (if bg = true then (wordsOf data).dropLast else wordsOf data) := by
  simp only [COMMAND_LENGTH] at hlen hdata
  have key : ∀ b2 : List Nat, 0 ∈ b2 → (cstr b2).length < COMMAND_LENGTH →
      wordsOf (cstr b2) = wordsOf data →
      ∃ buff tokens bg,
        (if (tokenize_command b2).token_count = 0 then
          some (Command.ok (tokenize_command b2).buff (tokenize_command b2).tokens false)
        else if (tokenize_command b2).tokens[(tokenize_command b2).token_count - 1]? =
            some (some (lit "&")) then
          some (Command.ok (tokenize_command b2).buff
            ((tokenize_command b2).tokens.set ((tokenize_command b2).token_count - 1) none) true)
        else some (Command.ok (tokenize_command b2).buff (tokenize_command b2).tokens false)) =
          some (Command.ok buff tokens bg) ∧
        (bg = true ↔ (wordsOf data).getLast? = some (lit "&")) ∧
        argvOf tokens = (if bg = true then (wordsOf data).dropLast else wordsOf data) := by
    intro b2 hz hl hw
    rw [tokenize_command_eq b2 hz (Nat.le_of_lt hl), hw]
    simp only
    by_cases hws : wordsOf data = []
    · refine ⟨((cstr b2).map fun c => if isDelim c = true then 0 else c) ++ b2.drop (cstr b2).length,
        (wordsOf data).map some ++ [none], false, ?_, by simp [hws], ?_⟩
      · rw [if_pos (by simp [hws])]
      · simp [hws, argvOf]
    · have hcount : (wordsOf data).length ≠ 0 := by simpa using hws
      obtain ⟨hlast, hargv⟩ := tokens_last (wordsOf data) hws
      have hgl : (wordsOf data).getLast? = some ((wordsOf data).getLast hws) :=
        List.getLast?_eq_getLast _ hws
      by_cases hamp : (wordsOf data).getLast hws = lit "&"
      · refine ⟨((cstr b2).map fun c => if isDelim c = true then 0 else c) ++ b2.drop (cstr b2).length,
          ((wordsOf data).map some ++ [none]).set ((wordsOf data).length - 1) none, true, ?_,
          by simp [hgl, hamp], by simpa using hargv⟩
        rw [if_neg hcount, hlast, hamp, if_pos rfl]
      · refine ⟨((cstr b2).map fun c => if isDelim c = true then 0 else c) ++ b2.drop (cstr b2).length,
          (wordsOf data).map some ++ [none], false, ?_, by simp [hgl, hamp], ?_⟩
        · rw [if_neg hcount, hlast, if_neg (by simpa using hamp)]
        · simpa using argvOf_map_some (wordsOf data) []
  have hc1 : cstr (data ++ 0 :: input_buffer.drop (data.length + 1)) = data :=
    cstr_append_nul _ _ h0
  have hcond : data.length ≤ COMMAND_LENGTH - 1 ∧ data.length < input_buffer.length := by
    simp only [COMMAND_LENGTH, hlen]; omega
  have hn : data.length ≠ 0 := by simpa using hne
  simp only [read_command, hcond, and_self, if_true, hc1, hn, if_false]
  by_cases hnl : (data ++ 0 :: input_buffer.drop (data.length + 1))[data.length - 1]? = some 10
  · simp only [hnl, if_true]
    have hsplit := List.dropLast_append_getLast hne
    have hlast : data.getLast hne = 10 := by
      have h1 : (data ++ 0 :: input_buffer.drop (data.length + 1))[data.length - 1]? =
          data[data.length - 1]? := List.getElem?_append_left (by omega)
      rw [h1, ← List.getLast?_eq_getElem?, List.getLast?_eq_getLast _ hne] at hnl
      exact Option.some.inj hnl
    rw [hlast] at hsplit
    obtain ⟨d, rfl⟩ : ∃ d, data = d ++ [10] := ⟨data.dropLast, hsplit.symm⟩
    have hset : (d ++ [10] ++ 0 :: input_buffer.drop ((d ++ [10]).length + 1)).set
        ((d ++ [10]).length - 1) 0 =
        d ++ 0 :: 0 :: input_buffer.drop ((d ++ [10]).length + 1) := by
      have : (d ++ [10]).length - 1 = d.length := by simp
      rw [this, List.append_assoc, List.set_append_right _ _ (Nat.le_refl _)]
      simp
    rw [hset]
    have h0' : 0 ∉ d := fun e => h0 (List.mem_append_left _ e)
    have hc2 : cstr (d ++ 0 :: 0 :: input_buffer.drop ((d ++ [10]).length + 1)) = d :=
      cstr_append_nul _ _ h0'
    apply key _ (by simp)
    · rw [hc2, COMMAND_LENGTH]
      simp only [List.length_append, List.length_singleton] at hdata
      omega
    · rw [hc2]
      exact (wordsOf_append_delim d 10 (by decide)).symm
  · simp only [hnl, if_false]
    apply key _ (by simp)
    · rw [hc1, COMMAND_LENGTH]; exact hdata
    · rw [hc1]

theorem read_command_background_witness :
    (bufferOf []).length = COMMAND_LENGTH ∧ (lit "sleep 5 & &\n").length < COMMAND_LENGTH ∧
    lit "sleep 5 & &\n" ≠ [] ∧ 0 ∉ lit "sleep 5 & &\n" ∧
    wordsOf (lit "sleep 5 & &\n") = [lit "sleep", lit "5", lit "&", lit "&"] ∧
    ∃ buff tokens bg,
      read_command (bufferOf []) (.bytes (lit "sleep 5 & &\n")) = some (.ok buff tokens bg) ∧
      (bg = true ↔ (wordsOf (lit "sleep 5 & &\n")).getLast? = some (lit "&")) ∧
      argvOf tokens = (if bg = true then (wordsOf (lit "sleep 5 & &\n")).dropLast
        else wordsOf (lit "sleep 5 & &\n")) :=
  ⟨bufferOf_length [] (by decide), by decide, by decide, by decide, by decide,
    read_command_background (bufferOf []) (lit "sleep 5 & &\n") (bufferOf_length [] (by decide))
      (by decide) (by decide) (by decide)⟩



theorem digitChar_toNat (d : Nat) (h : d < 10) : (Nat.digitChar d).toNat = 48 + d := by
  interval_cases d <;> rfl

theorem decimalAux_eq_toDigitsCore (fuel : Nat) :
    ∀ (n : Nat) (ds : List Char),
      decimalAux fuel n (ds.map Char.toNat) = (Nat.toDigitsCore 10 fuel n ds).map Char.toNat := by
  induction fuel with
  | zero => intro n ds; rfl
  | succ fuel ih =>
    intro n ds
    have hd := digitChar_toNat (n % 10) (Nat.mod_lt _ (by decide))
    by_cases h : n < 10
    · have h1 : n / 10 = 0 := by omega
      have h2 : n % 10 = n := by omega
      rw [h2] at hd
      simp only [decimalAux, h, if_true, Nat.toDigitsCore, h1, List.map_cons, hd, h2]
    · have h1 : n / 10 ≠ 0 := by omega
      simp only [decimalAux, h, if_false, Nat.toDigitsCore, h1]
      rw [← ih, List.map_cons, hd]

/-- The characters of `decimal n` are those of the usual decimal numeral of `n`. -/
theorem decimal_eq_repr (n : Nat) : decimal n = lit (Nat.repr n) := by
  have := decimalAux_eq_toDigitsCore (n + 1) n []
  simpa [decimal, lit, Nat.repr, Nat.toDigits] using this

theorem decimalAux_length (fuel : Nat) :
    ∀ (k n : Nat) (acc : List Nat), 1 ≤ k → k ≤ fuel → n < 10 ^ k →
      (decimalAux fuel n acc).length ≤ acc.length + k := by
  induction fuel with
  | zero => intro k n acc h1 h2; omega
  | succ fuel ih =>
    intro k n acc h1 h2 h3
    by_cases h : n < 10
    · simp only [decimalAux, h, if_true, List.length_cons]; omega
    · simp only [decimalAux, h, if_false]
      have hk : 2 ≤ k := by
        by_contra hk
        have : k = 1 := by omega
        subst this
        simp at h3; omega
      have h4 : n / 10 < 10 ^ (k - 1) := by
        have : 10 ^ k = 10 ^ (k - 1) * 10 := by
          rw [← Nat.pow_succ]; congr 1; omega
        rw [this] at h3
        exact Nat.div_lt_of_lt_mul (by rwa [Nat.mul_comm] at h3)
      have := ih (k - 1) (n / 10) ((48 + n % 10) :: acc) (by omega) (by omega) h4
      simp only [List.length_cons] at this
      omega

theorem decimal_length (n : Nat) (h : n < 1000000000) : (decimal n).length ≤ 9 := by
  by_cases h9 : 9 ≤ n + 1
  · have := decimalAux_length (n + 1) 9 n [] (by omega) h9 (by norm_num; omega)
    simpa [decimal] using this
  · have hlt : n < 10 ^ (n + 1) := by
      have : n + 1 < 10 ^ (n + 1) := Nat.lt_pow_self (by decide) _
      omega
    have := decimalAux_length (n + 1) (n + 1) n [] (by omega) (Nat.le_refl _) hlt
    simp only [decimal, List.length_nil] at this ⊢
    omega

theorem numeral_eq (i : Nat) (h1 : 1 ≤ i) (h2 : i < 1000000000) :
    numeral i = some (decimal i) := by
  have := decimal_length i h2
  have hi : i ≠ 0 := by omega
  simp only [numeral, hi, if_false]
  rw [if_pos (by omega)]
  simp



theorem displayLines_eq (es : List (Nat × List Nat))
    (h : ∀ e ∈ es, 1 ≤ e.1 ∧ e.1 < 1000000000) :
    displayLines es = some (listingOf es) := by
  induction es with
  | nil => rfl
  | cons e es ih =>
    have he := h e (List.mem_cons_self _ _)
    have := ih (fun x hx => h x (List.mem_cons_of_mem _ hx))
    simp only [displayLines, displayLine, numeral_eq e.1 he.1 he.2, Option.some_bind, this,
      listingOf]

theorem mem_enumFrom_bounds (l : List (List Nat)) :
    ∀ (n : Nat) (e : Nat × List Nat), e ∈ l.enumFrom n → n ≤ e.1 ∧ e.1 < n + l.length := by
  induction l with
  | nil => intro n e h; simp at h
  | cons x xs ih =>
    intro n e h
    simp only [List.enumFrom_cons, List.mem_cons] at h
    rcases h with rfl | h
    · simp
    · have := ih (n + 1) e h
      simp only [List.length_cons]; omega

/-- On a ring that records `cmds`, with `lastItem` below one thousand million,
`displayHistory` writes, for each retained index in increasing order, the decimal numeral of
the index, a tab, the stored line and a newline, and nothing else. -/
theorem displayHistory_of_tracks (ha : historyArray) (cmds : List (List (List Nat) × Bool))
    (h : Tracks ha cmds) (hlast : ha.lastItem < 1000000000) :
    displayHistory ha = some (listingOf
      (((cmds.drop (ha.firstItem - 1)).map fun c => serialize c.1 c.2).enumFrom
        ha.firstItem)) := by
  have hF := h.first
  have hL := h.last
  simp only [MAX_HISTORY] at hF
  rw [displayHistory, displayEntries_of_tracks ha cmds h, Option.some_bind]
  apply displayLines_eq
  intro e he
  have := mem_enumFrom_bounds _ _ e he
  simp only [List.length_map, List.length_drop] at this
  omega

/-- C12 (evaluation at the failing input): on a ring with `lastItem = 1000000000` the loop
of `displayHistory` reaches index 1000000000, whose numeral has 10 digits, so
`numberOfDigits` is 11 and `snprintf` stores 11 bytes in the 10-byte array `c`: the call has
no defined result, although every entry to list is well defined.  On the ring of the
end-to-end example the output is `1\tls -la\n2\techo hi &\n`. -/
theorem displayHistory_numeral_overflow :
    (displayEntries lateRing).isSome = true ∧
    (decimal 1000000000).length + 1 = 11 ∧
    numeral 1000000000 = none ∧
    displayHistory lateRing = none ∧
    (displayHistory exampleRing).map stdoutBytes = some (lit "1\tls -la\n2\techo hi &\n") := by
  refine ⟨by decide, by decide, by decide, by decide, by decide⟩



/-- Whenever the part of an iteration after recall resolution gets past the empty-line check
and comes to an end, the ring it leaves is the one `addToHistoryArray` made from the tokens:
the entry is recorded before the command is looked at. -/
theorem dispatch_records (ha : historyArray) (env : Env) (buf : List Nat)
    (toks : List (Option (List Nat))) (bg : Bool) (ev : List Event) (st : Step)
    (hne : cstr buf ≠ []) (h : dispatch ha env buf toks bg ev = some st) :
    addToHistoryArray ha (argvOf toks) bg = some st.ha := by
  simp only [dispatch, hne, if_false] at h
  cases hadd : addToHistoryArray ha (argvOf toks) bg with
  | none => simp [hadd] at h
  | some ha' =>
    simp only [hadd, Option.some_bind] at h
    cases hb : detectHardcodedCommands env.cwd buf toks env.chdirFails with
    | none => simp [hb] at h
    | some b =>
      simp only [hb, Option.some_bind] at h
      cases b with
      | exited => simp only [Option.some.injEq] at h; rw [← h]
      | returned s evs =>
        cases s with
        | zero => simp only [Option.some.injEq] at h; rw [← h]
        | succ k =>
          simp only at h
          split at h
          · cases hd : displayHistory ha' with
            | none => simp [hd] at h
            | some d => simp only [hd, Option.some_bind, Option.some.injEq] at h; rw [← h]
          · cases hs : ampScan (toks.drop 1) with
            | none => rw [hs] at h; simp at h
            | some sc =>
              rw [hs] at h
              simp only [Option.some_bind] at h
              split at h <;> (simp only [Option.some.injEq] at h; rw [← h])

/-- C13 (evaluation at the failing input): the line ` ls` (a blank, then `ls`) does not begin
with `!` and holds the word `ls`, yet the iteration goes back to the prompt with the ring
unchanged and nothing run: after tokenization the buffer starts with NUL, so the empty-line
check abandons the iteration.  The same line without the blank is recorded and run. -/
theorem leading_blank_line_dropped :
    wordsOf (lit " ls\n") = [lit "ls"] ∧ (lit " ls\n").head? ≠ some 33 ∧
    (iteration exampleRing (bufferOf [])
        { cwd := lit "/", input := .bytes (lit " ls\n"), chdirFails := false,
          forkFails := false }).map (fun s => (s.ha, s.flow, s.events)) =
      some (exampleRing, .prompt,
        [.write STDOUT_FILENO (lit "/"), .write STDOUT_FILENO (lit "$ ")]) ∧
    (iteration exampleRing (bufferOf [])
        { cwd := lit "/", input := .bytes (lit "ls\n"), chdirFails := false,
          forkFails := false }).map (fun s => (s.ha.lastItem, s.flow, s.events)) =
      some (3, .prompt,
        [.write STDOUT_FILENO (lit "/"), .write STDOUT_FILENO (lit "$ "), .fork,
          .exec (lit "ls") [lit "ls"], .wait]) := by
  refine ⟨by decide, by decide, by decide, by decide⟩



/-- What the `&` scan of `main` does to the tokens after the first: every `&` becomes a
null pointer, and the flag tells whether there was one. -/
theorem ampScan_spec (ws : List (List Nat)) (rest : List (Option (List Nat))) :
    ampScan (ws.map some ++ none :: rest) =
      some ((ws.map fun w => if w = lit "&" then none else some w) ++ none :: rest,
        decide (lit "&" ∈ ws)) := by
  induction ws with
  | nil => simp [ampScan]
  | cons w ws ih =>
    simp only [List.map_cons, List.cons_append, ampScan, List.append_eq]
    rw [ih]
    by_cases h : w = lit "&"
    · simp [h]
    · have h' : ¬ lit "&" = w := fun e => h e.symm
      simp [h, h']

/-- The argument vector left by the `&` scan ends at the first `&` after the first token. -/
theorem argvOf_ampScan (ws : List (List Nat)) (rest : List (Option (List Nat))) :
    argvOf ((ws.map fun w => if w = lit "&" then none else some w) ++ none :: rest) =
      ws.takeWhile fun w => decide (w ≠ lit "&") := by
  induction ws with
  | nil => simp [argvOf]
  | cons w ws ih =>
    by_cases h : w = lit "&"
    · simp [h, argvOf]
    · simp [h, argvOf, ih]

/-- C15 (evaluation at the failing input): for the line `echo & foo` the tokens are `echo`,
`&`, `foo`; the scan finds the `&` and the command is run in the background (no wait), but
the argument vector handed to `execvp` is `echo` alone: `foo`, which follows the `&`, is
lost, where the token sequence without the `&` is `echo`, `foo`. -/
theorem ampersand_truncates_argv :
    read_command (bufferOf []) (.bytes (lit "echo & foo\n")) =
      some (.ok (lit "echo" ++ 0 :: lit "&" ++ 0 :: lit "foo" ++ List.replicate 1014 0)
        [some (lit "echo"), some (lit "&"), some (lit "foo"), none] false) ∧
    [lit "echo", lit "&", lit "foo"].filter (fun w => decide (w ≠ lit "&")) =
      [lit "echo", lit "foo"] ∧
    (iteration exampleRing (bufferOf [])
        { cwd := lit "/", input := .bytes (lit "echo & foo\n"), chdirFails := false,
          forkFails := false }).map (fun s => s.events.drop 2) =
      some [.fork, .exec (lit "echo") [lit "echo"]] := by
  refine ⟨by decide, by decide, by decide⟩



theorem displayLines_no_fork (es : List (Nat × List Nat)) :
    ∀ d, displayLines es = some d → Event.fork ∉ d := by
  induction es with
  | nil => intro d h; simp only [displayLines, Option.some.injEq] at h; subst h; simp
  | cons e es ih =>
    intro d h
    simp only [displayLines, displayLine] at h
    cases hn : numeral e.1 with
    | none => simp [hn] at h
    | some c =>
      cases hr : displayLines es with
      | none => simp [hn, hr] at h
      | some r =>
        simp only [hn, hr, Option.some_bind, Option.some.injEq] at h
        subst h
        have := ih r hr
        simp [this]

theorem displayHistory_no_fork (ha : historyArray) (d : List Event)
    (h : displayHistory ha = some d) : Event.fork ∉ d := by
  simp only [displayHistory] at h
  cases he : displayEntries ha with
  | none => simp [he] at h
  | some es => rw [he] at h; exact displayLines_no_fork es d h

/-- What the dispatcher does with an accepted command: the entry is recorded, a child is
forked exactly when the string in the buffer (the first token) is none of `exit`, `pwd`,
`cd`, `type` and `history`, and the loop goes back to the prompt unless the command is
`exit`, which ends the process. -/
theorem dispatch_fork_iff (ha ha' : historyArray) (env : Env) (buf : List Nat)
    (t0 : Option (List Nat)) (vs : List (List Nat)) (rest : List (Option (List Nat)))
    (bg : Bool) (ev : List Event) (hne : cstr buf ≠ [])
    (hadd : addToHistoryArray ha (argvOf (t0 :: (vs.map some ++ none :: rest))) bg = some ha')
    (hhist : cstr buf = lit "history" → ∃ d, displayHistory ha' = some d)
    (hev : Event.fork ∉ ev) :
    ∃ st, dispatch ha env buf (t0 :: (vs.map some ++ none :: rest)) bg ev = some st ∧
      st.ha = ha' ∧
      (Event.fork ∈ st.events ↔
        cstr buf ∉ [lit "exit", lit "pwd", lit "cd", lit "type", lit "history"]) ∧
      st.flow = (if cstr buf = lit "exit" then Flow.exit 0 else Flow.prompt) := by
  have q1 : lit "exit" ≠ lit "pwd" := by decide
  have q2 : lit "exit" ≠ lit "cd" := by decide
  have q3 : lit "exit" ≠ lit "type" := by decide
  have q4 : lit "exit" ≠ lit "history" := by decide
  have q5 : lit "pwd" ≠ lit "exit" := by decide
  have q6 : lit "pwd" ≠ lit "cd" := by decide
  have q7 : lit "pwd" ≠ lit "type" := by decide
  have q8 : lit "pwd" ≠ lit "history" := by decide
  have q9 : lit "cd" ≠ lit "exit" := by decide
  have q10 : lit "cd" ≠ lit "pwd" := by decide
  have q11 : lit "cd" ≠ lit "type" := by decide
  have q12 : lit "cd" ≠ lit "history" := by decide
  have q13 : lit "type" ≠ lit "exit" := by decide
  have q14 : lit "type" ≠ lit "pwd" := by decide
  have q15 : lit "type" ≠ lit "cd" := by decide
  have q16 : lit "type" ≠ lit "history" := by decide
  have q17 : lit "history" ≠ lit "exit" := by decide
  have q18 : lit "history" ≠ lit "pwd" := by decide
  have q19 : lit "history" ≠ lit "cd" := by decide
  have q20 : lit "history" ≠ lit "type" := by decide
  have hamp := ampScan_spec vs rest
  obtain ⟨a, hL⟩ : ∃ a, (vs.map some ++ none :: rest)[0]? = some a := by
    cases vs with
    | nil => exact ⟨none, by simp⟩
    | cons v vs => exact ⟨some v, by simp⟩
  generalize hLdef : vs.map some ++ none :: rest = L at hadd hamp hL ⊢
  have ht1 : (t0 :: L)[1]? = some a := by simpa using hL
  have hdrop : (t0 :: L).drop 1 = L := rfl
  simp only [dispatch, hne, if_false, hadd, Option.some_bind]
  by_cases h1 : cstr buf = lit "exit"
  · simp only [detectHardcodedCommands, h1, if_true, Option.some_bind]
    refine ⟨_, rfl, rfl, ?_, ?_⟩
    · simp [h1, hev, q1, q2, q3, q4, q5, q6, q7, q8, q9, q10, q11, q12, q13, q14, q15, q16, q17, q18, q19, q20]
    · simp [h1, q1, q2, q3, q4, q5, q6, q7, q8, q9, q10, q11, q12, q13, q14, q15, q16, q17, q18, q19, q20]
  by_cases h2 : cstr buf = lit "pwd"
  · simp only [detectHardcodedCommands, h1, if_false, h2, if_true, Option.some_bind]
    refine ⟨_, rfl, rfl, ?_, ?_⟩
    · simp [h2, hev, q1, q2, q3, q4, q5, q6, q7, q8, q9, q10, q11, q12, q13, q14, q15, q16, q17, q18, q19, q20]
    · simp [h1, q1, q2, q3, q4, q5, q6, q7, q8, q9, q10, q11, q12, q13, q14, q15, q16, q17, q18, q19, q20]
  by_cases h3 : cstr buf = lit "cd"
  · by_cases hc : a = none ∨ env.chdirFails = true
    · simp only [detectHardcodedCommands, h1, if_false, h2, h3, if_true, ht1, Option.some_bind, hc]
      refine ⟨_, rfl, rfl, ?_, ?_⟩
      · simp [h3, hev, q1, q2, q3, q4, q5, q6, q7, q8, q9, q10, q11, q12, q13, q14, q15, q16, q17, q18, q19, q20]
      · simp [h1, q1, q2, q3, q4, q5, q6, q7, q8, q9, q10, q11, q12, q13, q14, q15, q16, q17, q18, q19, q20]
    · simp only [detectHardcodedCommands, h1, if_false, h2, h3, if_true, ht1, Option.some_bind, hc]
      refine ⟨_, rfl, rfl, ?_, ?_⟩
      · simp [h3, hev, q1, q2, q3, q4, q5, q6, q7, q8, q9, q10, q11, q12, q13, q14, q15, q16, q17, q18, q19, q20]
      · simp [h1, q1, q2, q3, q4, q5, q6, q7, q8, q9, q10, q11, q12, q13, q14, q15, q16, q17, q18, q19, q20]
  by_cases h4 : cstr buf = lit "type"
  · cases a with
    | none =>
      simp only [detectHardcodedCommands, h1, if_false, h2, h3, h4, if_true, ht1, Option.some_bind]
      refine ⟨_, rfl, rfl, ?_, ?_⟩
      · simp [h4, hev, q1, q2, q3, q4, q5, q6, q7, q8, q9, q10, q11, q12, q13, q14, q15, q16, q17, q18, q19, q20]
      · simp [h1, q1, q2, q3, q4, q5, q6, q7, q8, q9, q10, q11, q12, q13, q14, q15, q16, q17, q18, q19, q20]
    | some x =>
      by_cases hx : x = lit "exit" ∨ x = lit "pwd" ∨ x = lit "cd" ∨ x = lit "type"
      · simp only [detectHardcodedCommands, h1, if_false, h2, h3, h4, if_true, ht1, Option.some_bind, hx]
        refine ⟨_, rfl, rfl, ?_, ?_⟩
        · simp [h4, hev, q1, q2, q3, q4, q5, q6, q7, q8, q9, q10, q11, q12, q13, q14, q15, q16, q17, q18, q19, q20]
        · simp [h1, q1, q2, q3, q4, q5, q6, q7, q8, q9, q10, q11, q12, q13, q14, q15, q16, q17, q18, q19, q20]
      · simp only [detectHardcodedCommands, h1, if_false, h2, h3, h4, if_true, ht1, Option.some_bind, hx]
        refine ⟨_, rfl, rfl, ?_, ?_⟩
        · simp [h4, hev, q1, q2, q3, q4, q5, q6, q7, q8, q9, q10, q11, q12, q13, q14, q15, q16, q17, q18, q19, q20]
        · simp [h1, q1, q2, q3, q4, q5, q6, q7, q8, q9, q10, q11, q12, q13, q14, q15, q16, q17, q18, q19, q20]
  have hdet : detectHardcodedCommands env.cwd buf (t0 :: L) env.chdirFails =
      some (.returned 1 []) := by
    simp only [detectHardcodedCommands, h1, if_false, h2, h3, h4]
  by_cases h5 : cstr buf = lit "history"
  · obtain ⟨d, hd⟩ := hhist h5
    simp only [hdet, Option.some_bind, h5, if_true, hd]
    refine ⟨_, rfl, rfl, ?_, ?_⟩
    · have := displayHistory_no_fork ha' d hd
      simp [h5, hev, this, q1, q2, q3, q4, q5, q6, q7, q8, q9, q10, q11, q12, q13, q14, q15, q16, q17, q18, q19, q20]
    · simp [h1, q1, q2, q3, q4, q5, q6, q7, q8, q9, q10, q11, q12, q13, q14, q15, q16, q17, q18, q19, q20]
  · by_cases hf : env.forkFails = true
    · simp only [hdet, Option.some_bind, h5, if_false, hdrop, hamp, hf, if_true]
      refine ⟨_, rfl, rfl, ?_, ?_⟩
      · simp [h1, h2, h3, h4, h5, q1, q2, q3, q4, q5, q6, q7, q8, q9, q10, q11, q12, q13, q14, q15, q16, q17, q18, q19, q20]
      · simp [h1, q1, q2, q3, q4, q5, q6, q7, q8, q9, q10, q11, q12, q13, q14, q15, q16, q17, q18, q19, q20]
    · simp only [hdet, Option.some_bind, h5, if_false, hdrop, hamp, hf]
      refine ⟨_, rfl, rfl, ?_, ?_⟩
      · simp [h1, h2, h3, h4, h5, q1, q2, q3, q4, q5, q6, q7, q8, q9, q10, q11, q12, q13, q14, q15, q16, q17, q18, q19, q20]
      · simp [h1, q1, q2, q3, q4, q5, q6, q7, q8, q9, q10, q11, q12, q13, q14, q15, q16, q17, q18, q19, q20]



/-- C18 (counterexample): the accepted line `exit` has a built-in name as its first token,
and the loop does not return to the prompt: the iteration ends the process with status 0
(without forking). -/
theorem exit_leaves_the_loop :
    (iteration exampleRing (bufferOf [])
        { cwd := lit "/", input := .bytes (lit "exit\n"), chdirFails := false,
          forkFails := false }).map (fun s => (s.flow, s.events.drop 2)) =
      some (Flow.exit 0, []) ∧
    Flow.exit 0 ≠ Flow.prompt := by
  refine ⟨by decide, by decide⟩

/-- C18 (amended): for every accepted command (non-empty string in the buffer, which is the
line's first token), once it is recorded the loop forks a child if and only if that first
token is none of `exit`, `pwd`, `cd`, `type` and `history`; for `pwd`, `cd`, `type` and
`history` the loop goes back to the prompt without forking, and for `exit` the process ends
without forking, whatever the remaining tokens and the background flag are. -/
theorem fork_iff_not_builtin (ha ha' : historyArray) (env : Env) (buf : List Nat)
    (t0 : Option (List Nat)) (vs : List (List Nat)) (rest : List (Option (List Nat)))
    (bg : Bool) (ev : List Event) (hne : cstr buf ≠ [])
    (hadd : addToHistoryArray ha (argvOf (t0 :: (vs.map some ++ none :: rest))) bg = some ha')
    (hhist : cstr buf = lit "history" → ∃ d, displayHistory ha' = some d)
    (hev : Event.fork ∉ ev) :
    ∃ st, dispatch ha env buf (t0 :: (vs.map some ++ none :: rest)) bg ev = some st ∧
      st.ha = ha' ∧
      (Event.fork ∈ st.events ↔
        cstr buf ∉ [lit "exit", lit "pwd", lit "cd", lit "type", lit "history"]) ∧
      st.flow = (if cstr buf = lit "exit" then Flow.exit 0 else Flow.prompt) :=
  dispatch_fork_iff ha ha' env buf t0 vs rest bg ev hne hadd hhist hev

theorem fork_iff_not_builtin_witness :
    cstr (bufferOf (lit "pwd")) ≠ [] ∧
    addToHistoryArray exampleRing
        (argvOf (some (lit "pwd") :: (([] : List (List Nat)).map some ++ none :: [none]))) true =
      some (ringAfter sampleHeap (exampleCmds ++ [([lit "pwd"], true)])) ∧
    (cstr (bufferOf (lit "pwd")) = lit "history" →
      ∃ d, displayHistory (ringAfter sampleHeap (exampleCmds ++ [([lit "pwd"], true)])) =
        some d) ∧
    Event.fork ∉ ([] : List Event) ∧
    ∃ st, dispatch exampleRing (Env.mk (lit "/") (.bytes (lit "pwd &\n")) false false)
        (bufferOf (lit "pwd"))
        (some (lit "pwd") :: (([] : List (List Nat)).map some ++ none :: [none])) true [] =
          some st ∧
      st.ha = ringAfter sampleHeap (exampleCmds ++ [([lit "pwd"], true)]) ∧
      (Event.fork ∈ st.events ↔
        cstr (bufferOf (lit "pwd")) ∉
          [lit "exit", lit "pwd", lit "cd", lit "type", lit "history"]) ∧
      st.flow = (if cstr (bufferOf (lit "pwd")) = lit "exit" then Flow.exit 0
        else Flow.prompt) :=
  have h1 : cstr (bufferOf (lit "pwd")) ≠ [] := by decide
  have h2 : addToHistoryArray exampleRing
        (argvOf (some (lit "pwd") :: (([] : List (List Nat)).map some ++ none :: [none]))) true =
      some (ringAfter sampleHeap (exampleCmds ++ [([lit "pwd"], true)])) := by decide
  have h3 : cstr (bufferOf (lit "pwd")) = lit "history" →
      ∃ d, displayHistory (ringAfter sampleHeap (exampleCmds ++ [([lit "pwd"], true)])) =
        some d := fun e => absurd e (by decide)
  ⟨h1, h2, h3, by simp,
    fork_iff_not_builtin exampleRing _ (Env.mk (lit "/") (.bytes (lit "pwd &\n")) false false)
      (bufferOf (lit "pwd")) (some (lit "pwd")) [] [none] true [] h1 h2 h3 (by simp)⟩

/-- C19 (evaluation at the failing input): from the empty ring the line of 1022 letters `a`
(1023 bytes with its newline) is recorded as an entry of 1022 characters; the next line
`!! &` recalls it with the background flag set, so `addToHistoryArray` has to store
1022 + 2 = 1024 characters and a terminator in the 1024-byte slot: the `strcat` of `&` writes
past the slot and the iteration has no defined result. -/
theorem recall_with_ampersand_overflows :
    (lit "!! &\n").length ≤ COMMAND_LENGTH - 1 ∧
    (List.replicate 1022 97 ++ [10]).length ≤ COMMAND_LENGTH - 1 ∧
    (iteration (createHistoryArray sampleHeap) (bufferOf [])
        { cwd := lit "/", input := .bytes (List.replicate 1022 97 ++ [10]),
          chdirFails := false, forkFails := false }).map (fun s => s.ha) =
      some (ringAfter sampleHeap [longCmd]) ∧
    read_command (bufferOf []) (.bytes (lit "!! &\n")) =
      some (.ok (lit "!!" ++ 0 :: lit "&" ++ List.replicate 1020 0)
        [some (lit "!!"), none, none] true) ∧
    (detectHistoryCommands (ringAfter sampleHeap [longCmd])
        (lit "!!" ++ 0 :: lit "&" ++ List.replicate 1020 0) [some (lit "!!"), none, none]).map
        (fun r => (r.status, r.tokens)) =
      some (1, [some (List.replicate 1022 97), none]) ∧
    (serialize [List.replicate 1022 97] true).length = COMMAND_LENGTH ∧
    addToHistoryArray (ringAfter sampleHeap [longCmd]) [List.replicate 1022 97] true = none ∧
    iteration (ringAfter sampleHeap [longCmd]) (bufferOf [])
        { cwd := lit "/", input := .bytes (lit "!! &\n"), chdirFails := false,
          forkFails := false } = none := by
  refine ⟨by decide, by decide, by decide!, by decide, by decide!, by decide!, by decide!,
    by decide!⟩



/-- What `read_command` makes of the line `history`. -/
theorem read_command_history (input_buffer : List Nat)
    (hlen : input_buffer.length = COMMAND_LENGTH) :
    read_command input_buffer (.bytes (lit "history\n")) = some
      (.ok (lit "history" ++ 0 :: 0 :: input_buffer.drop 9) [some (lit "history"), none]
        false) := by
  have h1 : lit "history\n" = [104, 105, 115, 116, 111, 114, 121, 10] := by decide
  have h2 : lit "history" = [104, 105, 115, 116, 111, 114, 121] := by decide
  have h3 : lit "&" = [38] := by decide
  simp only [COMMAND_LENGTH] at hlen
  simp [read_command, h1, h2, h3, hlen, COMMAND_LENGTH, cstr_cons, tokenize_command, strnlen,
    tokenizeLoop, isDelim]

theorem listingOf_append (a b : List (Nat × List Nat)) :
    listingOf (a ++ b) = listingOf a ++ listingOf b := by
  induction a with
  | nil => rfl
  | cons e es ih => simp [listingOf, ih]

theorem enumFrom_append_singleton (l : List (List Nat)) (x : List Nat) :
    ∀ n, (l ++ [x]).enumFrom n = l.enumFrom n ++ [(n + l.length, x)] := by
  induction l with
  | nil => intro n; simp
  | cons y ys ih =>
    intro n
    simp only [List.cons_append, List.enumFrom_cons, ih, List.length_cons]
    have : n + 1 + ys.length = n + (ys.length + 1) := by omega
    rw [this]

/-- The iteration for the line `history` on a ring that records `cmds`, with `lastItem + 1`
below one thousand million: the command is appended first, and the listing written is that
of the ring after the append; its last line is the new `lastItem`, a tab, `history` and a
newline. -/
theorem history_lists_itself (ha : historyArray) (cmds : List (List (List Nat) × Bool))
    (input_buffer : List Nat) (env : Env) (htr : Tracks ha cmds)
    (hlast : ha.lastItem + 1 < 1000000000) (hlen : input_buffer.length = COMMAND_LENGTH)
    (hin : env.input = .bytes (lit "history\n")) :
    ∃ ha' older,
      addToHistoryArray ha [lit "history"] false = some ha' ∧
      ha'.lastItem = ha.lastItem + 1 ∧
      (ha.size = MAX_HISTORY → ha'.firstItem = ha.firstItem + 1) ∧
      displayEntries ha' = some (older ++ [(ha.lastItem + 1, lit "history")]) ∧
      (∀ e ∈ older, ha'.firstItem ≤ e.1) ∧
      iteration ha input_buffer env = some
        { ha := ha', input_buffer := lit "history" ++ 0 :: 0 :: input_buffer.drop 9
          flow := .prompt
          events := [.write STDOUT_FILENO (cstr env.cwd), .write STDOUT_FILENO (lit "$ ")] ++
            listingOf older ++
            [.write STDOUT_FILENO (decimal (ha.lastItem + 1)), .write STDOUT_FILENO (lit "\t"),
              .write STDOUT_FILENO (lit "history"), .write STDOUT_FILENO (lit "\n")] } := by
  have hL := htr.last
  have hint : cmds.length < INT_MAX := by
    simp only [INT_MAX]; omega
  obtain ⟨ha', hadd, htr'⟩ := addToHistoryArray_tracks ha cmds ([lit "history"], false) htr hint
    (by decide)
  obtain ⟨_, _, hadd2, hlast', hfirst', _⟩ :=
    addToHistoryArray_spec ha [lit "history"] false htr.ok (by rw [hL]; exact hint) (by decide)
  simp only at hadd
  rw [hadd] at hadd2
  cases hadd2
  have hF' := htr'.first
  have hL' := htr'.last
  simp only [MAX_HISTORY, List.length_append, List.length_singleton] at hF' hL'
  have hk : ha'.firstItem - 1 ≤ cmds.length := by omega
  have hdisp := displayHistory_of_tracks ha' _ htr' (by omega)
  have hent := displayEntries_of_tracks ha' _ htr'
  have hser : serialize [lit "history"] false = lit "history" := by decide
  have hlist : (((cmds ++ [([lit "history"], false)]).drop (ha'.firstItem - 1)).map
      fun c => serialize c.1 c.2).enumFrom ha'.firstItem =
      ((cmds.drop (ha'.firstItem - 1)).map fun c => serialize c.1 c.2).enumFrom ha'.firstItem ++
        [(ha.lastItem + 1, lit "history")] := by
    rw [List.drop_append_of_le_length hk, List.map_append, List.map_cons, List.map_nil,
      enumFrom_append_singleton, hser]
    congr 3
    simp only [List.length_map, List.length_drop]
    omega
  rw [hlist] at hdisp hent
  refine ⟨ha', _, hadd, hlast', ?_, hent, ?_, ?_⟩
  · intro hs
    rw [hfirst', if_pos hs]
  · intro e he
    exact (mem_enumFrom_bounds _ _ e he).1
  · have hread := read_command_history input_buffer hlen
    rw [← hin] at hread
    have hc : cstr (lit "history" ++ 0 :: 0 :: input_buffer.drop 9) = lit "history" :=
      cstr_append_nul _ _ (by decide)
    have hb0 : (lit "history" ++ 0 :: 0 :: input_buffer.drop 9)[0]? ≠ some 33 := by
      have : lit "history" = [104, 105, 115, 116, 111, 114, 121] := by decide
      rw [this]; simp
    have hne : ¬ lit "history" = [] := by decide
    have q1 : ¬ lit "history" = lit "exit" := by decide
    have q2 : ¬ lit "history" = lit "pwd" := by decide
    have q3 : ¬ lit "history" = lit "cd" := by decide
    have q4 : ¬ lit "history" = lit "type" := by decide
    rw [listingOf_append] at hdisp
    simp only [iteration, hread, Option.some_bind, hb0, if_false, dispatch, hc, hne, argvOf,
      hadd, detectHardcodedCommands, q1, q2, q3, q4, if_true, hdisp]
    simp [listingOf]

/-- C20 (evaluation at the failing input): on a ring with `lastItem = 999999999` the line
`history` is appended under index 1000000000, and the listing of that iteration has to print
this 10-digit numeral through the 10-byte array of `displayHistory`: the iteration has no
defined result (the defect of C12).  On the ring of the end-to-end example the iteration
prints the two old entries and then `3\thistory\n`. -/
theorem history_listing_overflow :
    (addToHistoryArray lateRing9 [lit "history"] false).map (fun h => h.lastItem) =
      some 1000000000 ∧
    numeral 1000000000 = none ∧
    iteration lateRing9 (bufferOf [])
        { cwd := lit "/", input := .bytes (lit "history\n"), chdirFails := false,
          forkFails := false } = none ∧
    (iteration exampleRing (bufferOf [])
        { cwd := lit "/", input := .bytes (lit "history\n"), chdirFails := false,
          forkFails := false }).map (fun s => (s.ha.lastItem, stdoutBytes (s.events.drop 2))) =
      some (3, lit "1\tls -la\n2\techo hi &\n3\thistory\n") := by
  refine ⟨by decide, by decide, by decide, by decide⟩



theorem splitOnP_word_append (w rest : List Nat) (hw : ∀ c ∈ w, isDelim c = false) :
    (w ++ rest).splitOnP isDelim = (rest.splitOnP isDelim).modifyHead (w ++ ·) := by
  induction w with
  | nil =>
    cases h : rest.splitOnP isDelim with
    | nil => exact absurd h (List.splitOnP_ne_nil _ _)
    | cons p ps => simp [h]
  | cons c cs ih =>
    have hc : isDelim c = false := hw c (List.mem_cons_self _ _)
    rw [List.cons_append, List.splitOnP_cons, ih (fun x hx => hw x (List.mem_cons_of_mem _ hx))]
    cases h : rest.splitOnP isDelim with
    | nil => exact absurd h (List.splitOnP_ne_nil _ _)
    | cons p ps => simp [hc]

theorem wordsOf_word_space (w s : List Nat) (hne : w ≠ [])
    (hw : ∀ c ∈ w, isDelim c = false) : wordsOf (w ++ 32 :: s) = w :: wordsOf s := by
  have h32 : isDelim 32 = true := by decide
  rw [wordsOf, splitOnP_word_append w _ hw, List.splitOnP_cons]
  simp only [h32, if_true, List.modifyHead_cons, List.append_nil]
  rw [List.filter_cons_of_pos (by simpa using hne)]
  rfl

theorem wordsOf_single (w : List Nat) (hne : w ≠ []) (hw : ∀ c ∈ w, isDelim c = false) :
    wordsOf w = [w] := by
  have := splitOnP_word_append w [] hw
  simp only [List.append_nil, List.splitOnP_nil, List.modifyHead_cons] at this
  rw [wordsOf, this]
  simp [hne]

theorem wordsOf_space (s : List Nat) : wordsOf (32 :: s) = wordsOf s := by
  have h32 : isDelim 32 = true := by decide
  simp [wordsOf, List.splitOnP_cons, h32]

/-- Tokenizing words joined by single spaces gives the words back. -/
theorem wordsOf_joinWords (ws : List (List Nat))
    (h : ∀ w ∈ ws, w ≠ [] ∧ ∀ c ∈ w, isDelim c = false) :
    wordsOf (joinWords ws) = ws := by
  induction ws with
  | nil => simp [joinWords, wordsOf]
  | cons w ws ih =>
    have hw := h w (List.mem_cons_self _ _)
    have ih' := ih (fun x hx => h x (List.mem_cons_of_mem _ hx))
    cases ws with
    | nil => simpa [joinWords] using wordsOf_single w hw.1 hw.2
    | cons w' r =>
      simp only [joinWords]
      rw [wordsOf_word_space w _ hw.1 hw.2, ih']

/-- Tokenizing words joined by single spaces and followed by ` &` gives the words and `&`. -/
theorem wordsOf_joinWords_amp (ws : List (List Nat))
    (h : ∀ w ∈ ws, w ≠ [] ∧ ∀ c ∈ w, isDelim c = false) :
    wordsOf (joinWords ws ++ [32, 38]) = ws ++ [[38]] := by
  have hamp : wordsOf [38] = [[38]] := by decide
  induction ws with
  | nil => simpa [joinWords, wordsOf_space] using hamp
  | cons w ws ih =>
    have hw := h w (List.mem_cons_self _ _)
    have ih' := ih (fun x hx => h x (List.mem_cons_of_mem _ hx))
    cases ws with
    | nil =>
      simp only [joinWords, List.nil_append, List.cons_append]
      rw [wordsOf_word_space w _ hw.1 hw.2, hamp]
    | cons w' r =>
      simp only [joinWords, List.cons_append, List.append_assoc]
      rw [wordsOf_word_space w _ hw.1 hw.2]
      simp only [List.cons_append, List.append_assoc] at ih'
      rw [ih']

theorem joinWords_append_amp (ws : List (List Nat)) (hne : ws ≠ []) :
    joinWords (ws ++ [[38]]) = joinWords ws ++ [32, 38] := by
  induction ws with
  | nil => exact absurd rfl hne
  | cons w ws ih =>
    cases ws with
    | nil => simp [joinWords]
    | cons w' r =>
      have := ih (by simp)
      simp only [List.cons_append, joinWords, List.append_eq] at this ⊢
      rw [this]
      simp



theorem wordsOf_isWord (b : List Nat) : ∀ w ∈ wordsOf (cstr b), IsWord w := by
  intro w hw
  obtain ⟨hne, hc⟩ := wordsOf_word (cstr b) w hw
  refine ⟨hne, fun c hcw => ⟨?_, (hc c hcw).2⟩⟩
  intro e
  subst e
  exact cstr_no_nul b (hc 0 hcw).1

/-- Facts about `tokenize_command` on a terminated buffer of `COMMAND_LENGTH` bytes. -/
theorem tokenize_command_buffer (b : List Nat) (hz : 0 ∈ b) (hlen : b.length = COMMAND_LENGTH) :
    (tokenize_command b).buff.length = COMMAND_LENGTH ∧ 0 ∈ (tokenize_command b).buff ∧
    (tokenize_command b).tokens = (wordsOf (cstr b)).map some ++ [none] ∧
    (tokenize_command b).token_count = (wordsOf (cstr b)).length ∧
    cstr (tokenize_command b).buff = (cstr b).takeWhile fun c => !isDelim c := by
  have hlt := cstr_length_lt b hz
  rw [tokenize_command_eq b hz (by omega)]
  refine ⟨?_, ?_, rfl, rfl, ?_⟩
  · simp only [List.length_append, List.length_map, List.length_drop]; omega
  · rw [drop_cstr b hz]; simp
  · simp only
    rw [drop_cstr b hz]
    exact cstr_map_delim _ _ (cstr_no_nul b)

/-- What `read_command` returns with status 0: a terminated buffer of `COMMAND_LENGTH` bytes
and either all the words of the line, the last one not `&`, with the flag clear, or the words
in front of a final `&`, with the flag set. -/
theorem read_command_ok (input_buffer : List Nat) (input : ReadResult) (b : List Nat)
    (t : List (Option (List Nat))) (bg : Bool) (hlen : input_buffer.length = COMMAND_LENGTH)
    (h : read_command input_buffer input = some (.ok b t bg)) :
    b.length = COMMAND_LENGTH ∧ 0 ∈ b ∧
    ∃ ws : List (List Nat), (∀ w ∈ ws, IsWord w) ∧
      ((t = ws.map some ++ [none] ∧ bg = false ∧ ws.getLast? ≠ some (lit "&") ∧
          (cstr b ≠ [] → ws ≠ [])) ∨
        (t = ws.map some ++ [none, none] ∧ bg = true)) := by
  cases input with
  | failed => simp [read_command] at h
  | interrupted => simp [read_command] at h
  | bytes data =>
    simp only [read_command] at h
    split at h
    · next hcond =>
      split at h
      · simp at h
      · next hn =>
        have key : ∀ b2 : List Nat, 0 ∈ b2 → b2.length = COMMAND_LENGTH →
            (if (tokenize_command b2).token_count = 0 then
              some (Command.ok (tokenize_command b2).buff (tokenize_command b2).tokens false)
            else if (tokenize_command b2).tokens[(tokenize_command b2).token_count - 1]? =
                some (some (lit "&")) then
              some (Command.ok (tokenize_command b2).buff
                ((tokenize_command b2).tokens.set ((tokenize_command b2).token_count - 1) none)
                true)
            else some (Command.ok (tokenize_command b2).buff (tokenize_command b2).tokens
              false)) = some (Command.ok b t bg) →
            b.length = COMMAND_LENGTH ∧ 0 ∈ b ∧
            ∃ ws : List (List Nat), (∀ w ∈ ws, IsWord w) ∧
              ((t = ws.map some ++ [none] ∧ bg = false ∧ ws.getLast? ≠ some (lit "&") ∧
                  (cstr b ≠ [] → ws ≠ [])) ∨
                (t = ws.map some ++ [none, none] ∧ bg = true)) := by
          intro b2 hz hl hres
          obtain ⟨hbl, hbz, htok, hcount, hcs⟩ := tokenize_command_buffer b2 hz hl
          have hwords := wordsOf_isWord b2
          rw [htok, hcount] at hres
          by_cases hws : wordsOf (cstr b2) = []
          · rw [if_pos (by simp [hws])] at hres
            simp only [Option.some.injEq, Command.ok.injEq] at hres
            obtain ⟨rfl, rfl, rfl⟩ := hres
            refine ⟨hbl, hbz, [], by simp, Or.inl ⟨by simp [hws], rfl, by simp, ?_⟩⟩
            intro hc
            exfalso
            apply hc
            rw [hcs]
            have hh := splitOnP_head (cstr b2)
            obtain ⟨tl, htl⟩ := hh
            simp only [wordsOf, htl] at hws
            by_contra hne
            rw [List.filter_cons_of_pos (by simpa using hne)] at hws
            simp at hws
          · have hcnt : (wordsOf (cstr b2)).length ≠ 0 := by simpa using hws
            obtain ⟨hlast, _⟩ := tokens_last (wordsOf (cstr b2)) hws
            rw [if_neg hcnt, hlast] at hres
            by_cases hamp : (wordsOf (cstr b2)).getLast hws = lit "&"
            · rw [if_pos (by rw [hamp])] at hres
              simp only [Option.some.injEq, Command.ok.injEq] at hres
              obtain ⟨rfl, rfl, rfl⟩ := hres
              have hsplit := List.dropLast_append_getLast hws
              refine ⟨hbl, hbz, (wordsOf (cstr b2)).dropLast,
                fun w hw => hwords w (List.mem_of_mem_dropLast hw), Or.inr ⟨?_, rfl⟩⟩
              conv_lhs => rw [← hsplit]
              simp only [List.map_append, List.map_cons, List.map_nil, List.append_assoc,
                List.length_append, List.length_singleton, Nat.add_sub_cancel]
              have : (wordsOf (cstr b2)).dropLast.length =
                  ((wordsOf (cstr b2)).dropLast.map some).length := by simp
              rw [this, List.set_append_right _ _ (Nat.le_refl _)]
              simp
            · rw [if_neg (by simpa using hamp)] at hres
              simp only [Option.some.injEq, Command.ok.injEq] at hres
              obtain ⟨rfl, rfl, rfl⟩ := hres
              refine ⟨hbl, hbz, wordsOf (cstr b2), hwords, Or.inl ⟨rfl, rfl, ?_, fun _ => hws⟩⟩
              rw [List.getLast?_eq_getLast _ hws]
              simpa using hamp
        have hl1 : (data ++ 0 :: input_buffer.drop (data.length + 1)).length =
            COMMAND_LENGTH := by
          simp only [List.length_append, List.length_cons, List.length_drop]
          omega
        split at h
        · have hz1 : (0 : Nat) ∈ data ++ 0 :: input_buffer.drop (data.length + 1) := by simp
          have hlt1 := cstr_length_lt _ hz1
          exact key _ (List.mem_set _ _ (by omega) _) (by rw [List.length_set, hl1]) h
        · exact key _ (by simp) hl1 h
    · simp at h



/-- Recalling a retained index of a ring that records `cmds` yields the serialized line of
one of the commands. -/
theorem recall_index_tracks (ha : historyArray) (cmds : List (List (List Nat) × Bool))
    (b : List Nat) (j : Nat) (r : Recall) (htr : Tracks ha cmds)
    (hlen : b.length = COMMAND_LENGTH) (hlo : ha.firstItem ≤ j) (hhi : j ≤ ha.lastItem)
    (h : (ha.items[j % MAX_HISTORY]?.bind fun slot => recallSlot b slot) = some r) :
    ∃ c ∈ cmds, (∃ i, ha.firstItem ≤ i ∧ i ≤ ha.lastItem ∧
        storedText ha i = some (serialize c.1 c.2)) ∧
      (serialize c.1 c.2).length < COMMAND_LENGTH ∧ r =
      { status := 1
        input_buffer := (tokenize_command (serialize c.1 c.2 ++
          0 :: b.drop ((serialize c.1 c.2).length + 1))).buff
        tokens := (tokenize_command (serialize c.1 c.2 ++
          0 :: b.drop ((serialize c.1 c.2).length + 1))).tokens
        written := [serialize c.1 c.2, lit "\n"] } := by
  have hL := htr.last
  have hF := htr.first
  simp only [MAX_HISTORY] at hF
  have hidx : j - 1 < cmds.length := by omega
  have hget : cmds[j - 1]? = some cmds[j - 1] := List.getElem?_eq_getElem hidx
  have htext := htr.text j _ hlo hget
  refine ⟨cmds[j - 1], List.getElem_mem _, ⟨j, hlo, hhi, htext⟩, ?_⟩
  generalize cmds[j - 1] = c at htext ⊢
  simp only [storedText] at htext
  cases hs : ha.items[j % MAX_HISTORY]? with
  | none => simp [hs] at htext
  | some slot =>
    simp only [hs, Option.some_bind] at htext h
    have hz : 0 ∈ slot := by
      by_contra hn
      simp [hn] at htext
    simp only [hz, if_true, Option.some.injEq] at htext
    obtain ⟨hsl, _⟩ := htr.ok.slots slot (List.getElem?_mem hs)
    have hrec := recallSlot_spec b slot hz (by rw [hsl, hlen])
    have hlt := cstr_length_lt slot hz
    rw [htext] at hrec hlt
    rw [hrec] at h
    exact ⟨by rw [← hsl]; exact hlt, (Option.some.inj h).symm⟩

/-- A recall that succeeds on a ring that records `cmds` resolved to the serialized line of
one of the commands: that line is echoed, copied into the buffer and tokenized. -/
theorem detectHistoryCommands_success (ha : historyArray)
    (cmds : List (List (List Nat) × Bool)) (b : List Nat) (toks : List (Option (List Nat)))
    (r : Recall) (htr : Tracks ha cmds) (hlen : b.length = COMMAND_LENGTH)
    (h : detectHistoryCommands ha b toks = some r) (hs : r.status ≠ 0) :
    ∃ c ∈ cmds, (∃ i, ha.firstItem ≤ i ∧ i ≤ ha.lastItem ∧
        storedText ha i = some (serialize c.1 c.2)) ∧
      (serialize c.1 c.2).length < COMMAND_LENGTH ∧ r =
      { status := 1
        input_buffer := (tokenize_command (serialize c.1 c.2 ++
          0 :: b.drop ((serialize c.1 c.2).length + 1))).buff
        tokens := (tokenize_command (serialize c.1 c.2 ++
          0 :: b.drop ((serialize c.1 c.2).length + 1))).tokens
        written := [serialize c.1 c.2, lit "\n"] } := by
  have hL := htr.last
  have hS := htr.size
  have hF := htr.first
  simp only [MAX_HISTORY] at hS hF
  have hfail : ∀ x : Recall, x.status = 0 → some x = some r → False := by
    intro x hx hxr
    rw [Option.some.inj hxr] at hx
    exact hs hx
  simp only [detectHistoryCommands] at h
  cases hb : b[1]? with
  | none => simp [hb] at h
  | some c1 =>
    simp only [hb, Option.some_bind] at h
    split at h
    · split at h
      · exact (hfail _ rfl h).elim
      · next hsz =>
        exact recall_index_tracks ha cmds b ha.lastItem r htr hlen (by omega) (Nat.le_refl _) h
    · split at h
      · cases hd : digitScan (b.drop 2) with
        | none => simp [hd] at h
        | some v =>
          simp only [hd, Option.some_bind] at h
          split at h
          · exact (hfail _ rfl h).elim
          · split at h
            · exact (hfail _ rfl h).elim
            · next hrange =>
              have h1 : (ha.firstItem : Int) ≤ atoi (b.drop 1) := by omega
              have h2 : atoi (b.drop 1) ≤ (ha.lastItem : Int) := by omega
              exact recall_index_tracks ha cmds b (atoi (b.drop 1)).toNat r htr hlen
                (by omega) (by omega) h
      · exact (hfail _ rfl h).elim

/-- The dispatcher leaves the input buffer as it is, and leaves the ring as it is when the
buffer holds the empty string. -/
theorem dispatch_buffer (ha : historyArray) (env : Env) (buf : List Nat)
    (toks : List (Option (List Nat))) (bg : Bool) (ev : List Event) (st : Step)
    (h : dispatch ha env buf toks bg ev = some st) :
    st.input_buffer = buf ∧ (cstr buf = [] → st.ha = ha) := by
  by_cases hne : cstr buf = []
  · simp only [dispatch, hne, if_true, Option.some.injEq] at h
    rw [← h]; exact ⟨rfl, fun _ => rfl⟩
  · refine ⟨?_, fun e => absurd e hne⟩
    simp only [dispatch, hne, if_false] at h
    cases hadd : addToHistoryArray ha (argvOf toks) bg with
    | none => simp [hadd] at h
    | some ha' =>
      simp only [hadd, Option.some_bind] at h
      cases hb : detectHardcodedCommands env.cwd buf toks env.chdirFails with
      | none => simp [hb] at h
      | some b =>
        simp only [hb, Option.some_bind] at h
        cases b with
        | exited => simp only [Option.some.injEq] at h; rw [← h]
        | returned s evs =>
          cases s with
          | zero => simp only [Option.some.injEq] at h; rw [← h]
          | succ k =>
            simp only at h
            split at h
            · cases hd : displayHistory ha' with
              | none => simp [hd] at h
              | some d => simp only [hd, Option.some_bind, Option.some.injEq] at h; rw [← h]
            · cases hs : ampScan (toks.drop 1) with
              | none => rw [hs] at h; simp at h
              | some sc =>
                rw [hs] at h
                simp only [Option.some_bind] at h
                split at h <;> (simp only [Option.some.injEq] at h; rw [← h])



theorem isWord_amp : IsWord (lit "&") := by
  refine ⟨by decide, ?_⟩
  intro c hc
  have : c = 38 := by simpa [lit] using hc
  subst this
  decide

theorem map_cstr_words (ws : List (List Nat)) (h : ∀ w ∈ ws, IsWord w) : ws.map cstr = ws := by
  induction ws with
  | nil => rfl
  | cons w ws ih =>
    have hw := h w (List.mem_cons_self _ _)
    rw [List.map_cons, ih (fun x hx => h x (List.mem_cons_of_mem _ hx)),
      cstr_of_no_nul w (fun e => (hw.2 0 e).1 rfl)]

theorem joinWords_no_nul (ws : List (List Nat)) (h : ∀ w ∈ ws, IsWord w) :
    0 ∉ joinWords ws := by
  induction ws with
  | nil => simp [joinWords]
  | cons w ws ih =>
    have hw := h w (List.mem_cons_self _ _)
    have hw0 : 0 ∉ w := fun e => (hw.2 0 e).1 rfl
    have ih' := ih (fun x hx => h x (List.mem_cons_of_mem _ hx))
    cases ws with
    | nil => simpa [joinWords] using hw0
    | cons w' r => simp [joinWords, hw0, ih']

theorem serialize_no_nul (a : List (List Nat)) (b : Bool) (h : ∀ w ∈ a, IsWord w) :
    0 ∉ serialize a b := by
  have := joinWords_no_nul a h
  cases b <;> simp [serialize, map_cstr_words a h, this]

/-- Tokenizing the serialized line of a recorded command gives its tokens back, followed by
`&` when it was backgrounded. -/
theorem wordsOf_serialize (a : List (List Nat)) (b : Bool) (h : ∀ w ∈ a, IsWord w) :
    wordsOf (serialize a b) = a ++ (if b = true then [lit "&"] else []) := by
  have hw : ∀ w ∈ a, w ≠ [] ∧ ∀ c ∈ w, isDelim c = false :=
    fun w hw => ⟨(h w hw).1, fun c hc => ((h w hw).2 c hc).2⟩
  have hamp : lit "&" = [38] := by decide
  cases b with
  | false => simp [serialize, map_cstr_words a h, wordsOf_joinWords a hw]
  | true =>
    simp only [serialize, map_cstr_words a h, if_true, hamp]
    exact wordsOf_joinWords_amp a hw

/-- Serializing again the tokens of a serialized line reproduces it, when the command has a
token. -/
theorem serialize_wordsOf_serialize (a : List (List Nat)) (b : Bool)
    (h : ∀ w ∈ a, IsWord w) (hne : a ≠ []) :
    serialize (wordsOf (serialize a b)) false = serialize a b := by
  have hamp : lit "&" = [38] := by decide
  rw [wordsOf_serialize a b h]
  cases b with
  | false => simp [serialize, map_cstr_words a h]
  | true =>
    have hall : ∀ w ∈ a ++ [[38]], IsWord w := by
      intro w hw
      rcases List.mem_append.mp hw with e | e
      · exact h w e
      · rw [List.mem_singleton.mp e, ← hamp]; exact isWord_amp
    simp only [if_true, hamp, serialize, Bool.false_eq_true, if_false, List.append_nil]
    rw [map_cstr_words _ hall, map_cstr_words a h, joinWords_append_amp a hne]



/-- The dispatcher keeps the loop invariant, provided the command it may record has the
recorded shape. -/
theorem dispatch_inv (ha : historyArray) (env : Env) (buf : List Nat)
    (toks : List (Option (List Nat))) (bg : Bool) (ev : List Event) (st : Step)
    (hinv : LoopInv ha buf) (hrec : cstr buf ≠ [] → Recorded (argvOf toks, bg))
    (h : dispatch ha env buf toks bg ev = some st) :
    LoopInv st.ha st.input_buffer := by
  obtain ⟨hlen, cmds, htr, hint, hall⟩ := hinv
  obtain ⟨hbuf, hsame⟩ := dispatch_buffer ha env buf toks bg ev st h
  by_cases hne : cstr buf = []
  · rw [hbuf, hsame hne]
    exact ⟨hlen, cmds, htr, hint, hall⟩
  · have hadd := dispatch_records ha env buf toks bg ev st hne h
    obtain ⟨hlt, hfit⟩ := addToHistoryArray_defined ha st.ha _ _ htr.ok hadd
    have hlt' : cmds.length < INT_MAX := by rw [← htr.last]; exact hlt
    obtain ⟨ha', hadd', htr'⟩ := addToHistoryArray_tracks ha cmds (argvOf toks, bg) htr hlt' hfit
    simp only at hadd'
    rw [hadd] at hadd'
    cases hadd'
    rw [hbuf]
    refine ⟨hlen, cmds ++ [(argvOf toks, bg)], htr', ?_, ?_⟩
    · simp only [List.length_append, List.length_singleton]; omega
    · intro c hc
      rcases List.mem_append.mp hc with e | e
      · exact hall c e
      · rw [List.mem_singleton.mp e]; exact hrec hne

/-- The tokens of a successful recall, and why the command recorded from them has the
recorded shape. -/
theorem recall_tokens (c : List (List Nat) × Bool) (b : List Nat) (bg : Bool)
    (hc : Recorded c) (hfit : (serialize c.1 c.2).length < COMMAND_LENGTH)
    (hlen : b.length = COMMAND_LENGTH) :
    (tokenize_command (serialize c.1 c.2 ++
        0 :: b.drop ((serialize c.1 c.2).length + 1))).buff.length = COMMAND_LENGTH ∧
    (tokenize_command (serialize c.1 c.2 ++
        0 :: b.drop ((serialize c.1 c.2).length + 1))).tokens =
      (c.1 ++ (if c.2 = true then [lit "&"] else [])).map some ++ [none] ∧
    (cstr (tokenize_command (serialize c.1 c.2 ++
        0 :: b.drop ((serialize c.1 c.2).length + 1))).buff ≠ [] →
      c.1 ≠ [] ∧ Recorded (c.1 ++ (if c.2 = true then [lit "&"] else []), bg)) := by
  have h0 := serialize_no_nul c.1 c.2 hc.1
  have hcs : cstr (serialize c.1 c.2 ++ 0 :: b.drop ((serialize c.1 c.2).length + 1)) =
      serialize c.1 c.2 := cstr_append_nul _ _ h0
  have hl : (serialize c.1 c.2 ++ 0 :: b.drop ((serialize c.1 c.2).length + 1)).length =
      COMMAND_LENGTH := by
    simp only [List.length_append, List.length_cons, List.length_drop]
    omega
  obtain ⟨h1, _, h3, _, h5⟩ := tokenize_command_buffer _ (by simp) hl
  rw [hcs] at h3 h5
  rw [wordsOf_serialize c.1 c.2 hc.1] at h3
  refine ⟨h1, h3, ?_⟩
  intro hne
  rw [h5] at hne
  have hc1 : c.1 ≠ [] := by
    intro e
    apply hne
    cases hb : c.2 <;> simp [serialize, e, joinWords, hb, List.takeWhile_cons, isDelim]
  refine ⟨hc1, ?_, ?_⟩
  · intro w hw
    rcases List.mem_append.mp hw with e | e
    · exact hc.1 w e
    · cases hb : c.2
      · simp [hb] at e
      · simp only [hb, if_true, List.mem_singleton] at e
        rw [e]; exact isWord_amp
  · intro _ hlast
    cases hb : c.2
    · simp only [hb, Bool.false_eq_true, if_false, List.append_nil] at hlast ⊢
      exact hc.2 hb hlast
    · simp only [hb, if_true, List.length_append, List.length_singleton]
      have : 0 < c.1.length := List.length_pos.mpr hc1
      omega

/-- One iteration of the loop of `main` keeps the loop invariant. -/
theorem iteration_inv (ha : historyArray) (buf : List Nat) (env : Env) (st : Step)
    (hinv : LoopInv ha buf) (h : iteration ha buf env = some st) :
    LoopInv st.ha st.input_buffer := by
  have hinv' := hinv
  obtain ⟨hlen, cmds, htr, hint, hall⟩ := hinv
  simp only [iteration] at h
  cases hr : read_command buf env.input with
  | none => simp [hr] at h
  | some cmd =>
    simp only [hr, Option.some_bind] at h
    cases cmd with
    | terminated => simp only [Option.some.injEq] at h; rw [← h]; exact hinv'
    | interrupted => simp only [Option.some.injEq] at h; rw [← h]; exact hinv'
    | ok b t bg =>
      obtain ⟨hbl, hbz, ws, hws, hshape⟩ := read_command_ok buf env.input b t bg hlen hr
      have hinvb : LoopInv ha b := ⟨hbl, cmds, htr, hint, hall⟩
      simp only at h
      split at h
      · cases hd : detectHistoryCommands ha b t with
        | none => simp [hd] at h
        | some r =>
          simp only [hd, Option.some_bind] at h
          split at h
          · next hs0 =>
            have := detectHistoryCommands_fail ha b t r hd hs0
            simp only [Option.some.injEq] at h
            rw [← h, this]
            exact hinvb
          · next hs1 =>
            obtain ⟨c, hc, _, hfit, hreq⟩ := detectHistoryCommands_success ha cmds b t r htr hbl hd
              hs1
            obtain ⟨hl1, htoks, hrecd⟩ := recall_tokens c b bg (hall c hc) hfit hbl
            rw [hreq] at h
            simp only at h
            refine dispatch_inv ha env _ _ bg _ st ⟨hl1, cmds, htr, hint, hall⟩ ?_ h
            intro hne
            rw [htoks, argvOf_map_some]
            exact (hrecd hne).2
      · refine dispatch_inv ha env b t bg _ st hinvb ?_ h
        intro hne
        rcases hshape with ⟨ht, hbg, hlast, _⟩ | ⟨ht, hbg⟩
        · rw [ht, argvOf_map_some, hbg]
          exact ⟨hws, fun _ hl => absurd hl hlast⟩
        · rw [ht, argvOf_map_some, hbg]
          exact ⟨hws, fun hf => by simp at hf⟩

/-- Every state the loop of `main` reaches from `createHistoryArray` satisfies the loop
invariant. -/
theorem runLoop_inv (envs : List Env) :
    ∀ (ha : historyArray) (buf : List Nat) (ha' : historyArray) (buf' : List Nat),
      LoopInv ha buf → runLoop ha buf envs = some (ha', buf') → LoopInv ha' buf' := by
  induction envs with
  | nil =>
    intro ha buf ha' buf' hinv h
    simp only [runLoop, Option.some.injEq, Prod.mk.injEq] at h
    rw [← h.1, ← h.2]; exact hinv
  | cons env envs ih =>
    intro ha buf ha' buf' hinv h
    simp only [runLoop] at h
    cases hi : iteration ha buf env with
    | none => simp [hi] at h
    | some st =>
      simp only [hi, Option.some_bind] at h
      have := iteration_inv ha buf env st hinv hi
      split at h
      · exact ih _ _ _ _ this h
      · simp at h

theorem loopInv_start (heap : Nat → Nat → Nat) (buf : List Nat)
    (h : buf.length = COMMAND_LENGTH) : LoopInv (createHistoryArray heap) buf :=
  ⟨h, [], createHistoryArray_tracks heap, by simp, by simp⟩



/-- The dispatcher on an external command when `fork` succeeds: the command is recorded, a
child is forked and executes it, and the parent waits for it unless the command is
backgrounded by the flag or by a `&` among the tokens after the first. -/
theorem dispatch_external (ha ha' : historyArray) (env : Env) (buf : List Nat)
    (t0 : Option (List Nat)) (vs : List (List Nat)) (rest : List (Option (List Nat)))
    (bg : Bool) (ev : List Event) (hne : cstr buf ≠ [])
    (hadd : addToHistoryArray ha (argvOf (t0 :: (vs.map some ++ none :: rest))) bg = some ha')
    (hext : cstr buf ∉ [lit "exit", lit "pwd", lit "cd", lit "type", lit "history"])
    (hfork : env.forkFails = false) :
    dispatch ha env buf (t0 :: (vs.map some ++ none :: rest)) bg ev = some
      { ha := ha', input_buffer := buf, flow := .prompt
        events := ev ++ [.fork, .exec (cstr buf)
            (argvOf (t0 :: ((vs.map fun w => if w = lit "&" then none else some w) ++
              none :: rest)))] ++
          if (bg || decide (lit "&" ∈ vs)) = true then [] else [.wait] } := by
  simp only [List.mem_cons, List.mem_singleton, not_or, List.not_mem_nil, or_false] at hext
  obtain ⟨h1, h2, h3, h4, h5⟩ := hext
  have hamp := ampScan_spec vs rest
  have hdrop : (t0 :: (vs.map some ++ none :: rest)).drop 1 = vs.map some ++ none :: rest := rfl
  have htake : (t0 :: (vs.map some ++ none :: rest)).take 1 = [t0] := rfl
  simp only [dispatch, hne, if_false, hadd, Option.some_bind, detectHardcodedCommands, h1, h2,
    h3, h4, h5, hdrop, hamp, htake, hfork, Bool.false_eq_true]
  rfl

/-- C14: in every state the loop of `main` reaches from `createHistoryArray`, for a line that
is a single word starting with `!` (such as exactly `!!` or `!N`) whose recall succeeds and
whose resolved line is not abandoned by the empty-line check, the entry then appended has
exactly the text of the recalled entry (tokenizing a stored line and serializing it again
reproduces it, a trailing ` &` included), and when the recalled line ends in the token `&`
and is an external command, it is forked without the parent waiting for it. -/
theorem recall_records_same_text (heap : Nat → Nat → Nat) (buf0 : List Nat)
    (envs : List Env) (ha : historyArray) (buf : List Nat) (env : Env) (w b : List Nat)
    (t : List (Option (List Nat))) (bg : Bool) (r : Recall)
    (hb0 : buf0.length = COMMAND_LENGTH)
    (hreach : runLoop (createHistoryArray heap) buf0 envs = some (ha, buf))
    (hw : ∀ c ∈ w, c ≠ 0 ∧ isDelim c = false) (hwl : w.length + 2 < COMMAND_LENGTH)
    (hin : env.input = .bytes (33 :: w ++ [10]))
    (hread : read_command buf env.input = some (.ok b t bg))
    (hrec : detectHistoryCommands ha b t = some r) (hok : r.status = 1)
    (hne : cstr r.input_buffer ≠ []) (hint : ha.lastItem < INT_MAX) :
    ∃ text ha',
      (∃ i, ha.firstItem ≤ i ∧ i ≤ ha.lastItem ∧ storedText ha i = some text) ∧
      r.written = [text, lit "\n"] ∧
      serialize (wordsOf text) false = text ∧
      addToHistoryArray ha (argvOf r.tokens) bg = some ha' ∧
      ha'.lastItem = ha.lastItem + 1 ∧
      storedText ha' ha'.lastItem = some text ∧
      (∀ st, iteration ha buf env = some st → st.ha = ha') ∧
      ((wordsOf text).getLast? = some (lit "&") →
        cstr r.input_buffer ∉ [lit "exit", lit "pwd", lit "cd", lit "type", lit "history"] →
        env.forkFails = false →
        ∃ argv, iteration ha buf env = some
          { ha := ha', input_buffer := r.input_buffer, flow := .prompt
            events := [.write STDOUT_FILENO (cstr env.cwd), .write STDOUT_FILENO (lit "$ "),
              .write STDOUT_FILENO text, .write STDOUT_FILENO (lit "\n"), .fork,
              .exec (cstr r.input_buffer) argv] }) := by
  obtain ⟨hlen, cmds, htr, hcl, hall⟩ := runLoop_inv envs _ _ _ _ (loopInv_start heap buf0 hb0)
    hreach
  -- the line read: one word, so the flag is clear and the buffer starts with `!`
  have hw0 : 0 ∉ (33 :: w) := by
    intro e
    rcases List.mem_cons.mp e with e | e
    · exact absurd e (by decide)
    · exact (hw 0 e).1 rfl
  have hwd : ∀ c ∈ (33 :: w), isDelim c = false := by
    intro c hc
    rcases List.mem_cons.mp hc with e | e
    · rw [e]; decide
    · exact (hw c e).2
  obtain ⟨b1, t1, bg1, hread1, hb1, _, _⟩ := read_command_line buf (33 :: w) hlen
    (by simp only [List.length_cons]; omega) hw0
  have hdata0 : 0 ∉ (33 :: w) ++ [10] := by
    intro e
    rcases List.mem_append.mp e with e | e
    · exact hw0 e
    · simp at e
  obtain ⟨b2, t2, bg2, hread2, hbg2, _⟩ := read_command_background buf ((33 :: w) ++ [10]) hlen
    (by simp only [List.length_append, List.length_cons, List.length_nil]; omega) (by simp)
    hdata0
  rw [hin] at hread
  rw [hread] at hread1 hread2
  simp only [Option.some.injEq, Command.ok.injEq] at hread1 hread2
  obtain ⟨rfl, _, _⟩ := hread1
  obtain ⟨_, _, rfl⟩ := hread2
  have hbgf : bg = false := by
    cases hbg : bg with
    | false => rfl
    | true =>
      have := hbg2.mp hbg
      rw [wordsOf_append_delim _ 10 (by decide), wordsOf_single (33 :: w) (by simp) hwd] at this
      simp only [List.getLast?_singleton, Option.some.injEq] at this
      have h38 : lit "&" = [38] := by decide
      rw [h38] at this
      simp at this
  subst hbgf
  have hb33 : b[0]? = some 33 := by
    rw [hb1]
    simp [isDelim]
  have hbl : b.length = COMMAND_LENGTH := by
    rw [hb1]
    simp only [List.length_append, List.length_map, List.length_cons, List.length_drop]
    simp only [COMMAND_LENGTH] at hlen hwl ⊢
    omega
  -- the recall
  obtain ⟨c, hc, hidx, hfit, hreq⟩ := detectHistoryCommands_success ha cmds b t r htr hbl hrec
    (by omega)
  obtain ⟨_, htoks, hrecd⟩ := recall_tokens c b false (hall c hc) hfit hbl
  have hrt : r.tokens = (c.1 ++ (if c.2 = true then [lit "&"] else [])).map some ++ [none] := by
    rw [hreq]; exact htoks
  have hrb : cstr (tokenize_command (serialize c.1 c.2 ++
      0 :: b.drop ((serialize c.1 c.2).length + 1))).buff ≠ [] := by
    rw [hreq] at hne; exact hne
  obtain ⟨hc1, hrecorded⟩ := hrecd hrb
  have hwords := wordsOf_serialize c.1 c.2 (hall c hc).1
  have hround := serialize_wordsOf_serialize c.1 c.2 (hall c hc).1 hc1
  have hargv : argvOf r.tokens = wordsOf (serialize c.1 c.2) := by
    rw [hrt, argvOf_map_some, hwords]
  -- the append
  have hfit' : Fits (argvOf r.tokens, false) := by
    simp only [Fits, hargv, hround]; exact hfit
  obtain ⟨ha', d, hadd, hlast, _, _, hitems, _, hdz, hdc⟩ :=
    addToHistoryArray_spec ha (argvOf r.tokens) false htr.ok hint hfit'
  have hidx' : (ha.lastItem + 1) % MAX_HISTORY < ha.items.length := by
    rw [htr.ok.count]; exact Nat.mod_lt _ (by decide)
  have hstored : storedText ha' ha'.lastItem = some (serialize c.1 c.2) := by
    simp only [storedText, hitems, hlast, List.getElem?_set_self hidx', Option.some_bind, hdz,
      if_true, hdc, hargv, hround]
  have hiter : ∀ st, iteration ha buf env = some st → st.ha = ha' := by
    intro st hst
    simp only [iteration, hin, hread, Option.some_bind, hb33, if_true, hrec] at hst
    rw [if_neg (by omega)] at hst
    have := dispatch_records ha env _ _ false _ st hne hst
    rw [hadd] at this
    exact (Option.some.inj this).symm
  refine ⟨serialize c.1 c.2, ha', hidx, by rw [hreq], hround, hadd, hlast, hstored, hiter, ?_⟩
  intro hlastw hext hfork
  -- the tokens after the first hold the final `&`
  obtain ⟨w0, vs, hcons⟩ : ∃ w0 vs, c.1 ++ (if c.2 = true then [lit "&"] else []) = w0 :: vs := by
    cases hcs : c.1 with
    | nil => exact absurd hcs hc1
    | cons w0 ws => exact ⟨w0, ws ++ (if c.2 = true then [lit "&"] else []), rfl⟩
  have htoks' : r.tokens = some w0 :: (vs.map some ++ none :: []) := by
    rw [hrt, hcons]; rfl
  have hamp : lit "&" ∈ vs := by
    rw [hwords, hcons] at hlastw
    have h2 := hrecorded.2 rfl (by rw [hcons]; exact hlastw)
    rw [hcons] at h2
    cases vs with
    | nil => simp at h2
    | cons v vs' =>
      simp only [List.getLast?_cons_cons] at hlastw
      exact List.mem_of_getLast?_eq_some hlastw
  rw [htoks'] at hadd
  have hd := dispatch_external ha ha' env r.input_buffer (some w0) vs [] false
    ([.write STDOUT_FILENO (cstr env.cwd), .write STDOUT_FILENO (lit "$ ")] ++
      r.written.map (.write STDOUT_FILENO)) hne hadd hext hfork
  refine ⟨argvOf (some w0 :: ((vs.map fun w => if w = lit "&" then none else some w) ++
    none :: [])), ?_⟩
  simp only [iteration, hin, hread, Option.some_bind, hb33, if_true, hrec]
  rw [if_neg (by omega), htoks', hd]
  simp [hamp, hreq]



theorem exampleState_reach :
    runLoop (createHistoryArray sampleHeap) (bufferOf []) exampleEnvs =
      some (exampleState.1, exampleState.2) := by decide

theorem exampleRecall_eq :
    detectHistoryCommands exampleState.1 (33 :: 33 :: 0 :: 0 :: exampleState.2.drop 4)
      [some (lit "!!"), none] = some exampleRecall := by decide

theorem exampleRecall_written :
    exampleRecall.written = [lit "echo hi &", lit "\n"] := by decide

theorem recall_records_same_text_witness :
    (bufferOf []).length = COMMAND_LENGTH ∧
    runLoop (createHistoryArray sampleHeap) (bufferOf []) exampleEnvs =
      some (exampleState.1, exampleState.2) ∧
    (∀ c ∈ [33], c ≠ 0 ∧ isDelim c = false) ∧ [33].length + 2 < COMMAND_LENGTH ∧
    bangEnv.input = .bytes (33 :: [33] ++ [10]) ∧
    read_command exampleState.2 bangEnv.input =
      some (.ok (33 :: 33 :: 0 :: 0 :: exampleState.2.drop 4) [some (lit "!!"), none] false) ∧
    detectHistoryCommands exampleState.1 (33 :: 33 :: 0 :: 0 :: exampleState.2.drop 4)
      [some (lit "!!"), none] = some exampleRecall ∧
    exampleRecall.status = 1 ∧ cstr exampleRecall.input_buffer ≠ [] ∧
    exampleState.1.lastItem < INT_MAX ∧
    ∃ text ha',
      (∃ i, exampleState.1.firstItem ≤ i ∧ i ≤ exampleState.1.lastItem ∧
        storedText exampleState.1 i = some text) ∧
      exampleRecall.written = [text, lit "\n"] ∧
      serialize (wordsOf text) false = text ∧
      addToHistoryArray exampleState.1 (argvOf exampleRecall.tokens) false = some ha' ∧
      ha'.lastItem = exampleState.1.lastItem + 1 ∧
      storedText ha' ha'.lastItem = some text ∧
      (∀ st, iteration exampleState.1 exampleState.2 bangEnv = some st → st.ha = ha') ∧
      ((wordsOf text).getLast? = some (lit "&") →
        cstr exampleRecall.input_buffer ∉
          [lit "exit", lit "pwd", lit "cd", lit "type", lit "history"] →
        bangEnv.forkFails = false →
        ∃ argv, iteration exampleState.1 exampleState.2 bangEnv = some
          { ha := ha', input_buffer := exampleRecall.input_buffer, flow := .prompt
            events := [.write STDOUT_FILENO (cstr bangEnv.cwd),
              .write STDOUT_FILENO (lit "$ "),
              .write STDOUT_FILENO text, .write STDOUT_FILENO (lit "\n"), .fork,
              .exec (cstr exampleRecall.input_buffer) argv] }) :=
  have h1 : (bufferOf []).length = COMMAND_LENGTH := bufferOf_length [] (by decide)
  have h3 : ∀ c ∈ [33], c ≠ 0 ∧ isDelim c = false := by decide
  have h6 : read_command exampleState.2 bangEnv.input =
      some (.ok (33 :: 33 :: 0 :: 0 :: exampleState.2.drop 4) [some (lit "!!"), none] false) := by
    decide
  have h8 : exampleRecall.status = 1 := by decide
  have h9 : cstr exampleRecall.input_buffer ≠ [] := by decide
  have h10 : exampleState.1.lastItem < INT_MAX := by decide
  ⟨h1, exampleState_reach, h3, by decide, rfl, h6, exampleRecall_eq, h8, h9, h10,
    recall_records_same_text sampleHeap (bufferOf []) exampleEnvs exampleState.1 exampleState.2
      bangEnv [33] _ _ false exampleRecall h1 exampleState_reach h3 (by decide) rfl h6
      exampleRecall_eq h8 h9 h10⟩


end Shell
